import Mathlib

/-!
# Verification of the `sudokugen` solver core

A shallow embedding of the `sudokugen` Rust crate (files `src/board.rs`,
`src/solver.rs`, `src/solver/candidate_cache.rs`, `src/solver/indexed_map.rs`,
`src/solver/generator.rs`) together with proofs about the embedded code.

Representation choices, justified against the Rust source:

* A `CellLoc` is its flat index (a `Nat`); the `base_size` field of the Rust
  struct is passed as an explicit parameter `n` (all cells of one board share
  one `base_size`, and the derived `Ord` on `CellLoc` therefore coincides with
  the order on indices).
* A Rust `BTreeSet` (of values or of cells) is a strictly sorted `List Nat`;
  iteration order of a `BTreeSet` is ascending, which the list preserves.
* The `IndexedMap<CellLoc, BTreeSet<u8>>` of possible values is a dense
  `List (Option (List Nat))` indexed by the cell index.  In the Rust struct an
  absent key always stores the default (empty) set in the value vector (values
  are taken on removal), so equality of the Rust struct agrees with equality
  of this dense list.
* The `HashMap<(Block, u8), BTreeSet<CellLoc>>` of candidate cells is a dense
  `List (Option (List Nat))` indexed by an injective encoding of the key
  (block, value); `HashMap` equality is content equality, which agrees with
  equality of the dense list.  A present-but-empty bucket (`some []`) is
  distinct from an absent one (`none`), exactly as in the `HashMap`.
* `HashMap` iteration order is unspecified; the only iteration
  (`iter_candidates`, used by `hidden_singles`) is modelled by a probe-order
  parameter `ord` listing keys to inspect, so that order-(in)dependence can be
  stated and proved rather than assumed.
-/

namespace Sudokugen

/-! ## Sorted lists standing for `BTreeSet<u8>` / `BTreeSet<CellLoc>` -/

/-- Strictly ascending (hence duplicate-free) list: the model of a `BTreeSet`. -/
def SSorted (l : List Nat) : Prop := List.Pairwise (· < ·) l

instance : DecidablePred SSorted := fun l => by
  unfold SSorted; infer_instance

/-- Insert into a sorted list, keeping it sorted; no-op if already present
(`BTreeSet::insert`). -/
def sinsert (a : Nat) : List Nat → List Nat
  | [] => [a]
  | x :: xs =>
    if a < x then a :: x :: xs
    else if a = x then x :: xs
    else x :: sinsert a xs

/-- Remove from a sorted list (`BTreeSet::remove`); no-op if absent. -/
def serase (a : Nat) : List Nat → List Nat
  | [] => []
  | x :: xs => if a = x then xs else x :: serase a xs

/-! ## Dense arrays standing for `IndexedMap` and the candidate `HashMap`

`List.set` is the in-range update (identity out of range, which never happens
for well-formed states); `l.getD i none` is the lookup. -/

/-- Lookup in a dense array of optional entries. -/
def aget (l : List (Option α)) (i : Nat) : Option α := l.getD i none

/-! ## Cell geometry (`board.rs`: `CellLoc::{line, col, square, iter_*}`)

Throughout, `n` is the `base_size`; a board has `n^2 × n^2 = n^4` cells and
values range over `1..=n^2`. -/

/-- `CellLoc::line`. -/
def lineOf (n c : Nat) : Nat := c / (n * n)

/-- `CellLoc::col`. -/
def colOf (n c : Nat) : Nat := c % (n * n)

/-- `CellLoc::square`. -/
def squareOf (n c : Nat) : Nat := (lineOf n c / n) * n + colOf n c / n

/-- `CellLoc::iter_line`: all cells in the same line, ascending. -/
def iterLine (n c : Nat) : List Nat :=
  (List.range (n * n)).map (fun j => lineOf n c * (n * n) + j)

/-- `CellLoc::iter_col`: all cells in the same column, ascending. -/
def iterCol (n c : Nat) : List Nat :=
  (List.range (n * n)).map (fun l => l * (n * n) + colOf n c)

/-- `CellLoc::iter_square`: all cells in the same square, ascending. -/
def iterSquare (n c : Nat) : List Nat :=
  ((List.range n).flatMap (fun dl =>
    (List.range n).map (fun dc =>
      ((lineOf n c / n) * n + dl) * (n * n) + ((colOf n c / n) * n + dc))))

/-- `candidate_cache.rs`: `enum Block { Line, Col, Square }`. -/
inductive Block where
  | line (i : Nat)
  | col (i : Nat)
  | square (i : Nat)
deriving DecidableEq, Repr

/-- `CellLoc::get_blocks_`: the three blocks containing a cell, in source
order. -/
def blocksOf (n c : Nat) : List Block :=
  [Block.line (lineOf n c), Block.col (colOf n c), Block.square (squareOf n c)]

/-- The cells of a block, ascending. -/
def blockCells (n : Nat) : Block → List Nat
  | .line i => (List.range (n * n)).map (fun j => i * (n * n) + j)
  | .col i => (List.range (n * n)).map (fun l => l * (n * n) + i)
  | .square i =>
    (List.range n).flatMap (fun dl =>
      (List.range n).map (fun dc => ((i / n) * n + dl) * (n * n) + ((i % n) * n + dc)))

/-- Injective encoding of a `(Block, value)` key into an index of the dense
candidate array (values are `1..=n^2`). -/
def keyIdx (n : Nat) : Block → Nat → Nat
  | .line i, v => i * (n * n) + (v - 1)
  | .col i, v => (n * n + i) * (n * n) + (v - 1)
  | .square i, v => (2 * (n * n) + i) * (n * n) + (v - 1)

/-- Decode an index of the dense candidate array back into its block. -/
def decodeBlock (n j : Nat) : Block :=
  if j < n * n then .line j
  else if j < 2 * (n * n) then .col (j - n * n)
  else .square (j - 2 * (n * n))

/-- All `(Block, value)` keys of a board of base size `n`, in a fixed
canonical enumeration (one probe order for the candidate map). -/
def canonicalOrd (n : Nat) : List (Block × Nat) :=
  (List.range (3 * (n * n) * (n * n))).map
    (fun k => (decodeBlock n (k / (n * n)), k % (n * n) + 1))

/-- The chained `iter_line` / `iter_col` / `iter_square` cells affected by an
assignment at `c` (the iteration order of `set_value` step 3). -/
def affCells (n c : Nat) : List Nat :=
  iterLine n c ++ iterCol n c ++ iterSquare n c

/-- A block index that can actually arise from a cell of the board. -/
def ValidBlock (n : Nat) : Block → Prop
  | .line i => i < n * n
  | .col i => i < n * n
  | .square i => i < n * n

/-- Two cells share a line, column or square. -/
def Peer (n c p : Nat) : Prop :=
  lineOf n p = lineOf n c ∨ colOf n p = colOf n c ∨ squareOf n p = squareOf n c

/-! ## Board (`board.rs`) -/

/-- `Board { base_size, cells }`: a flat vector of optional values. -/
structure Board where
  base : Nat
  cells : List (Option Nat)
deriving DecidableEq, Repr

/-- `Board::get`. -/
def Board.get (b : Board) (c : Nat) : Option Nat := aget b.cells c

/-- `Board::set` (dropping the returned previous value, which callers in the
solver ignore). -/
def Board.setCell (b : Board) (c v : Nat) : Board :=
  { b with cells := b.cells.set c (some v) }

/-- `Board::unset` (dropping the returned previous value where ignored). -/
def Board.unset (b : Board) (c : Nat) : Board :=
  { b with cells := b.cells.set c none }

/-- `Board::new(board_size)`: all cells empty. -/
def Board.empty (n : Nat) : Board :=
  { base := n, cells := List.replicate (n * n * (n * n)) none }

/-- `CellLoc::get_possible_values` /  `calculate_possible_values`: `none` when
the cell is filled, otherwise all values `1..=n^2` not present in the cell's
line, column or square.  The Rust builds the set `1..=N` and removes every
value seen while chaining the three block iterators; filtering the ascending
range yields the same sorted set. -/
def legalValues (b : Board) (c : Nat) : Option (List Nat) :=
  let n := b.base
  if (b.get c).isSome then none
  else some ((List.range' 1 (n * n)).filter (fun v =>
    ! (affCells n c).any (fun p => b.get p == some v)))

/-! ## Candidate cache (`candidate_cache.rs`) -/

/-- `CandidateCache { possible_values, candidate_cells }`, with both maps as
dense arrays (see the header comment). -/
structure Cache where
  pv : List (Option (List Nat))
  cc : List (Option (List Nat))
deriving DecidableEq, Repr

/-- Lookup in `possible_values`. -/
def Cache.pvGet (s : Cache) (c : Nat) : Option (List Nat) := aget s.pv c

/-- Update / insert / remove an entry of `possible_values`. -/
def Cache.pvSet (s : Cache) (c : Nat) (x : Option (List Nat)) : Cache :=
  { s with pv := s.pv.set c x }

/-- Lookup in `candidate_cells`. -/
def Cache.ccGet (n : Nat) (s : Cache) (b : Block) (v : Nat) : Option (List Nat) :=
  aget s.cc (keyIdx n b v)

/-- Update / insert / remove an entry of `candidate_cells`. -/
def Cache.ccSet (n : Nat) (s : Cache) (b : Block) (v : Nat)
    (x : Option (List Nat)) : Cache :=
  { s with cc := s.cc.set (keyIdx n b v) x }

/-- `CandidateCache::from_board`.  `possible_values` holds the legal values of
every empty cell; a `candidate_cells` bucket holds the cells of its block that
still allow its value, and exists only when nonempty (the Rust builds buckets
with `entry(..).or_default().insert(..)`, so an entry is created only on first
insertion; the insertion order does not affect the resulting map contents). -/
def Cache.fromBoard (b : Board) : Cache :=
  let n := b.base
  { pv := (List.range (n * n * (n * n))).map (fun c => legalValues b c)
    cc := (List.range (3 * (n * n) * (n * n))).map (fun k =>
      let blk := decodeBlock n (k / (n * n))
      let v := k % (n * n) + 1
      let cs := (blockCells n blk).filter
        (fun c => ((legalValues b c).getD []).contains v)
      if cs.isEmpty then none else some cs) }

/-- `struct NoCadidatesLeftError(CellLoc)` (sic). -/
structure NoCadidatesLeftError where
  cell : Nat
deriving DecidableEq, Repr

/-- Decidable equality for `Except` results (the library leaves it out). -/
instance {e a : Type} [DecidableEq e] [DecidableEq a] :
    DecidableEq (Except e a) := fun x y =>
  match x, y with
  | .ok u, .ok v =>
    if h : u = v then isTrue (by rw [h])
    else isFalse (by intro he; cases he; exact h rfl)
  | .error u, .error v =>
    if h : u = v then isTrue (by rw [h])
    else isFalse (by intro he; cases he; exact h rfl)
  | .ok _, .error _ => isFalse (by intro he; cases he)
  | .error _, .ok _ => isFalse (by intro he; cases he)

/-- `struct UndoSetValue { moves, options, affected_cell_options }`. -/
structure UndoSetValue where
  moves : List (Nat × Nat × Block)
  optCell : Nat
  opts : Option (List Nat)
  affOpts : List (Nat × Nat)
deriving DecidableEq, Repr

/-- First phase of `CandidateCache::undo`: reinsert the removed option set of
the set cell (`if let Some(options) = undo.options.1`). -/
def undoOpts (u : UndoSetValue) (s : Cache) : Cache :=
  match u.opts with
  | some o => s.pvSet u.optCell (some o)
  | none => s

/-- Second phase of `undo`: reinsert each removed possible value
(`possible_values.entry(cell).or_default().insert(value)`). -/
def undoAffFold (ps : List (Nat × Nat)) (s : Cache) : Cache :=
  ps.foldl (fun t pr => t.pvSet pr.1 (some (sinsert pr.2 ((t.pvGet pr.1).getD [])))) s

/-- Third phase of `undo`: reinsert each removed bucket member
(`candidate_cells.entry(block.with_value(value)).or_default().insert(cell)`). -/
def undoMovesFold (n : Nat) (ms : List (Nat × Nat × Block)) (s : Cache) : Cache :=
  ms.foldl (fun t m => Cache.ccSet n t m.2.2 m.1
    (some (sinsert m.2.1 ((Cache.ccGet n t m.2.2 m.1).getD [])))) s

/-- `CandidateCache::undo`. -/
def undoApply (n : Nat) (u : UndoSetValue) (s : Cache) : Cache :=
  undoMovesFold n u.moves (undoAffFold u.affOpts (undoOpts u s))

/-- The effect of a run of `or_default().insert(..)` operations on one slot
(used to state what `undoMovesFold` does to one bucket). -/
def insFold (cells : List Nat) (base : Option (List Nat)) : Option (List Nat) :=
  cells.foldl (fun cur x => some (sinsert x (cur.getD []))) base

/-- Part of `set_value` step 2: for one block `b` of the set cell, remove the
cell as a candidate for every other previously-possible value (recording each
actual removal). -/
def svOtherVals (n value cell : Nat) (b : Block) :
    List Nat → List (Nat × Nat × Block) × Cache → List (Nat × Nat × Block) × Cache
  | [], acc => acc
  | ov :: rest, (moves, s) =>
    if ov ≠ value then
      match Cache.ccGet n s b ov with
      | some cells =>
        if cell ∈ cells then
          svOtherVals n value cell b rest
            (moves ++ [(ov, cell, b)], Cache.ccSet n s b ov (some (serase cell cells)))
        else svOtherVals n value cell b rest (moves, s)
      | none => svOtherVals n value cell b rest (moves, s)
    else svOtherVals n value cell b rest (moves, s)

/-- `set_value` step 2 over the blocks of the set cell: drop the whole
`(block, value)` bucket, recording its members, then remove the cell from the
buckets of all its other values. -/
def svBlocks (n value cell : Nat) (maybeOpts : Option (List Nat)) :
    List Block → List (Nat × Nat × Block) × Cache → List (Nat × Nat × Block) × Cache
  | [], acc => acc
  | b :: rest, (moves, s) =>
    let cand := Cache.ccGet n s b value
    let s := Cache.ccSet n s b value none
    let moves := moves ++ (cand.getD []).map (fun p => (value, p, b))
    svBlocks n value cell maybeOpts rest
      (svOtherVals n value cell b (maybeOpts.getD []) (moves, s))

/-- Part of `set_value` step 3: an affected peer lost `value`, so remove it
from the `(block, value)` bucket of each of its blocks (recording each actual
removal). -/
def svPeerBlocks (value p : Nat) :
    List Block → List (Nat × Nat × Block) × Cache → Nat → List (Nat × Nat × Block) × Cache
  | [], acc, _ => acc
  | b :: rest, (moves, s), n =>
    match Cache.ccGet n s b value with
    | some cells =>
      if p ∈ cells then
        svPeerBlocks value p rest
          (moves ++ [(value, p, b)], Cache.ccSet n s b value (some (serase p cells))) n
      else svPeerBlocks value p rest (moves, s) n
    | none => svPeerBlocks value p rest (moves, s) n

/-- `set_value` step 3, over the chained line/column/square cells: remove
`value` from each affected peer's possible values; if a peer's set becomes
empty, roll back everything recorded so far and fail with the *set* cell as
payload (the Rust `assert!(!values.is_empty())` cannot fire in a solver run
and is not modelled). -/
def svAffected (n value cell : Nat) (maybeOpts : Option (List Nat)) :
    List Nat → List (Nat × Nat × Block) → List (Nat × Nat) → Cache →
    Except NoCadidatesLeftError UndoSetValue × Cache
  | [], moves, affOpts, s => (.ok ⟨moves, cell, maybeOpts, affOpts⟩, s)
  | p :: rest, moves, affOpts, s =>
    match s.pvGet p with
    | none => svAffected n value cell maybeOpts rest moves affOpts s
    | some vals =>
      if vals.contains value then
        let vals' := serase value vals
        let s := s.pvSet p (some vals')
        let affOpts := affOpts ++ [(p, value)]
        let (moves, s) := svPeerBlocks value p (blocksOf n p) (moves, s) n
        if vals'.isEmpty then
          (.error ⟨cell⟩, undoApply n ⟨moves, cell, maybeOpts, affOpts⟩ s)
        else svAffected n value cell maybeOpts rest moves affOpts s
      else
        if vals.isEmpty then
          (.error ⟨cell⟩, undoApply n ⟨moves, cell, maybeOpts, affOpts⟩ s)
        else svAffected n value cell maybeOpts rest moves affOpts s

/-- `CandidateCache::set_value`. -/
def setValue (n value cell : Nat) (s : Cache) :
    Except NoCadidatesLeftError UndoSetValue × Cache :=
  let maybeOpts := s.pvGet cell
  let s := s.pvSet cell none
  let (moves, s) := svBlocks n value cell maybeOpts (blocksOf n cell) ([], s)
  svAffected n value cell maybeOpts (affCells n cell) moves [] s

/-- One block step of `remove_candidate`: drop the cell from the
`(block, value)` bucket when that bucket exists. -/
def rcStep (n value cell : Nat) (t : Cache) (b : Block) : Cache :=
  match Cache.ccGet n t b value with
  | some cells => Cache.ccSet n t b value (some (serase cell cells))
  | none => t

/-- `CandidateCache::remove_candidate`. -/
def removeCandidate (n value cell : Nat) (s : Cache) : Cache :=
  match s.pvGet cell with
  | some opts =>
    if opts.contains value then
      (blocksOf n cell).foldl (rcStep n value cell)
        (s.pvSet cell (some (serase value opts)))
    else s
  | none => s

/-- `CandidateCache::add_candidate`: insert the cell into the bucket of each
of its blocks for one value (`entry(..).or_default().insert(..)`). -/
def addCandidate (n cell : Nat) (t : Cache) (v : Nat) : Cache :=
  (blocksOf n cell).foldl (fun t2 b =>
    Cache.ccSet n t2 b v (some (sinsert cell ((Cache.ccGet n t2 b v).getD [])))) t

/-- `CandidateCache::reset_candidates` (via `add_candidate` for each value). -/
def resetCandidates (n cell : Nat) (options : List Nat) (s : Cache) : Cache :=
  (options.foldl (addCandidate n cell) s).pvSet cell (some options)

/-! ## Solver (`solver.rs`) -/

/-- `enum Strategy { NakedSingle, HiddenSingle, Guess }`. -/
inductive Strategy where
  | nakedSingle
  | hiddenSingle
  | guess
deriving DecidableEq, Repr

/-- `enum MoveLog { SetValue { strategy, cell, value, undo_candidates } }`. -/
structure MoveLog where
  strat : Strategy
  cell : Nat
  value : Nat
  undoCandidates : UndoSetValue
deriving DecidableEq, Repr

/-- The owning solver struct `SudokuSolver { board, candidate_cache,
move_log }`; the log is kept most-recent-first (the Rust `Vec` pushes and pops
at its end). -/
structure SState where
  board : Board
  cache : Cache
  log : List MoveLog
deriving DecidableEq, Repr

/-- Sorted insertion of a `(cell, value)` pair, ordered like the Rust
`BTreeSet<(CellLoc, u8)>` (cell index first, then value). -/
def pinsert (a : Nat × Nat) : List (Nat × Nat) → List (Nat × Nat)
  | [] => [a]
  | x :: xs =>
    if a.1 < x.1 ∨ (a.1 = x.1 ∧ a.2 < x.2) then a :: x :: xs
    else if a = x then x :: xs
    else x :: pinsert a xs

/-- `SudokuSolver::naked_singles`: cells whose possible-value set is a
singleton, collected into a `BTreeSet` (the dense map iterates by ascending
cell, so the collected set is already in iteration order). -/
def nakedSingles (s : Cache) : List (Nat × Nat) :=
  s.pv.enum.filterMap (fun ce =>
    match ce.2 with
    | some [v] => some (ce.1, v)
    | _ => none)

/-- `SudokuSolver::hidden_singles`: `(block, value)` buckets holding exactly
one cell, collected into a `BTreeSet` of `(cell, value)` pairs.  `ord` is the
probe order over keys standing for the unspecified `HashMap` iteration order;
probing an absent key adds nothing. -/
def hiddenSingles (n : Nat) (ord : List (Block × Nat)) (s : Cache) : List (Nat × Nat) :=
  ord.foldl (fun acc kv =>
    match Cache.ccGet n s kv.1 kv.2 with
    | some [c] => pinsert (c, kv.2) acc
    | _ => acc) []

/-- `SudokuSolver::guess`.  `pick` stands for
`rng.and_then(|mut rng| possibilities.iter().choose(&mut rng))`: it is the
constant `none` in deterministic mode (`random == false`), and the chosen
value falls back to `possibilities.iter().next()`, the least candidate.  The
cell is `min_by_key` over the ascending map iteration, which keeps the *first*
cell among those of minimal candidate count in either mode. -/
def guessMove (pick : List Nat → Option Nat) (s : Cache) : Nat × Nat :=
  let cand := s.pv.enum.filterMap (fun ce => ce.2.map (fun vals => (ce.1, vals)))
  match cand with
  | [] => (0, 0)
  | x :: rest =>
    let best := rest.foldl (fun b y => if y.2.length < b.2.length then y else b) x
    (best.1, (pick best.2).getD (best.2.headD 0))

/-- `SudokuSolver::register_move`: commit to the cache first; on success also
write the grid and push the move; on contradiction the cache holds its
rolled-back state and board/log are untouched. -/
def registerMove (strat : Strategy) (cell value : Nat) (s : SState) : Bool × SState :=
  match setValue s.board.base value cell s.cache with
  | (.ok u, cache') =>
    (true, { board := s.board.setCell cell value, cache := cache',
             log := ⟨strat, cell, value, u⟩ :: s.log })
  | (.error _, cache') => (false, { s with cache := cache' })

/-- The retry loop inside `backtrack`: try each remaining candidate of the
popped guess cell; the first committed one resumes the search (`.ok`),
otherwise the state after all failed attempts is returned (`.error`). -/
def tryGuesses (cell : Nat) : List Nat → SState → Except SState SState
  | [], s => .error s
  | g :: rest, s =>
    match registerMove .guess cell g s with
    | (true, s') => .ok s'
    | (false, s') => tryGuesses cell rest s'

/-- `SudokuSolver::backtrack`, recursing over the move log.  The
`possible_values().get(&cell).unwrap()` of the source is modelled with
`getD []` (the undo of a guess always reinserts the recorded option set), and
`get_possible_values(board).expect(..)` likewise (the cell was just unset). -/
def backtrackAux : List MoveLog → Board → Cache → Option Nat × SState
  | [], board, cache => (none, ⟨board, cache, []⟩)
  | m :: rest, board, cache =>
    let n := board.base
    let board := board.unset m.cell
    let cache := undoApply n m.undoCandidates cache
    match m.strat with
    | .guess =>
      if ((cache.pvGet m.cell).getD []).isEmpty then
        backtrackAux rest board
          (resetCandidates n m.cell ((legalValues board m.cell).getD []) cache)
      else
        let cache := removeCandidate n m.value m.cell cache
        match tryGuesses m.cell ((cache.pvGet m.cell).getD []) ⟨board, cache, rest⟩ with
        | .ok s' => (some m.cell, s')
        | .error s' =>
          backtrackAux rest s'.board
            (resetCandidates n m.cell ((legalValues s'.board m.cell).getD []) s'.cache)
    | _ => backtrackAux rest board cache

/-- Outcome of one iteration / of the whole solve, carrying the final solver
state in both cases (the Rust mutates the caller's board in place). -/
inductive SR where
  | ok (s : SState)
  | unsolvable (s : SState)
deriving DecidableEq, Repr

/-- The batch loops of `solve_iteration`: register each snapshot single in
order; a contradiction triggers `backtrack` and ends the iteration with its
verdict. -/
def runBatch (strat : Strategy) : List (Nat × Nat) → SState → SR
  | [], s => .ok s
  | cv :: rest, s =>
    match registerMove strat cv.1 cv.2 s with
    | (true, s') => runBatch strat rest s'
    | (false, s') =>
      match backtrackAux s'.log s'.board s'.cache with
      | (some _, s'') => .ok s''
      | (none, s'') => .unsolvable s''

/-- `SudokuSolver::solve_iteration`: naked singles, else hidden singles, else
one guess. -/
def solveIteration (ord : List (Block × Nat)) (pick : List Nat → Option Nat)
    (s : SState) : SR :=
  let ns := nakedSingles s.cache
  if ns.isEmpty then
    let hs := hiddenSingles s.board.base ord s.cache
    if hs.isEmpty then
      let cv := guessMove pick s.cache
      match registerMove .guess cv.1 cv.2 s with
      | (true, s') => .ok s'
      | (false, s') =>
        match backtrackAux s'.log s'.board s'.cache with
        | (some _, s'') => .ok s''
        | (none, s'') => .unsolvable s''
    else runBatch .hiddenSingle hs s
  else runBatch .nakedSingle ns s

/-- The `while !possible_values().is_empty()` loop of `SudokuSolver::solve`,
with explicit fuel (`none` = fuel exhausted, no verdict).  `ords` and `picks`
supply one probe order / one random draw per iteration. -/
def solveLoop (ords : Nat → List (Block × Nat))
    (picks : Nat → List Nat → Option Nat) : Nat → SState → Option SR
  | 0, _ => none
  | fuel + 1, s =>
    if s.cache.pv.all Option.isNone then some (.ok s)
    else
      match solveIteration (ords fuel) (picks fuel) s with
      | .ok s' => solveLoop ords picks fuel s'
      | .unsolvable s' => some (.unsolvable s')

/-- `SudokuSolver::solve` on a fresh solver built from a board
(`SudokuSolver::new` + `solve`): the entry check fails immediately when some
open cell already has an empty candidate set. -/
def solveFull (ords : Nat → List (Block × Nat))
    (picks : Nat → List Nat → Option Nat) (fuel : Nat) (b : Board) : Option SR :=
  let s : SState := ⟨b, Cache.fromBoard b, []⟩
  if s.cache.pv.any (fun e => e == some []) then some (.unsolvable s)
  else solveLoop ords picks fuel s

/-- The deterministic-mode value pick: `random == false`, so the rng draw is
`None` and the first candidate is used. -/
def noPick : List Nat → Option Nat := fun _ => none

/-- `Board::solve` (non-random mode, canonical probe order). -/
def dsolve (fuel : Nat) (b : Board) : Option SR :=
  solveFull (fun _ => canonicalOrd b.base) (fun _ => noPick) fuel b

/-- The board returned by a solve outcome. -/
def SR.board : SR → Board
  | .ok s => s.board
  | .unsolvable s => s.board

/-- Whether an outcome is `Ok(())`. -/
def SR.isOk : SR → Bool
  | .ok _ => true
  | .unsolvable _ => false

/-! ## Generator (`generator.rs`) -/

/-- `struct Puzzle { board, solution, guesses }`; the `HashMap` of guesses is
an association list (at most one guess move per cell exists in a final log, so
insertion order is immaterial). -/
structure Puzzle where
  board : Board
  solution : Board
  guesses : List (Nat × List Nat)
deriving DecidableEq, Repr

/-- `Puzzle::is_solution_unique`: for each recorded guess cell, trial-solve
the puzzle board with each recorded alternative placed; any success means the
solution is not unique.  The rayon `par_iter().any` is a pure existence check
and the early `return false` makes the result independent of entry order.
`fuel` bounds the embedded trial solves; a fuel-exhausted trial counts as a
failure. -/
def isSolutionUnique (fuel : Nat) (p : Puzzle) : Bool :=
  p.guesses.all (fun cg =>
    ! cg.2.any (fun v =>
      ((dsolve fuel (p.board.setCell cg.1 v)).map SR.isOk).getD false))

/-- `generator.rs::remove_false_guesses`, iterating over the snapshot of
filled cells: drop the cell's value; if the board solves with some *other*
value at that cell, the given is needed, so restore it. -/
def rfgLoop (fuel : Nat) : List Nat → Board → Board
  | [], b => b
  | c :: rest, b =>
    match b.get c with
    | none => rfgLoop fuel rest b
    | some value =>
      let b := b.unset c
      let pvs := serase value ((legalValues b c).getD [])
      let isGuess := pvs.any (fun ov =>
        ((dsolve fuel (b.setCell c ov)).map SR.isOk).getD false)
      if isGuess then rfgLoop fuel rest (b.setCell c value)
      else rfgLoop fuel rest b

/-- `remove_false_guesses`: the snapshot is the ascending list of filled
cells. -/
def removeFalseGuesses (fuel : Nat) (b : Board) : Board :=
  let cells := (List.range (b.base * b.base * (b.base * b.base))).filter
    (fun c => (b.get c).isSome)
  rfgLoop fuel cells b

/-- `Puzzle::generate`, parameterized by the probe orders and the rng draws of
the randomized first solve (`SudokuSolver::new_random`) and by fuel; `none`
when a fuel bound is hit (the Rust `expect`s both solves to succeed). -/
def generate (ords : Nat → List (Block × Nat))
    (picks : Nat → List Nat → Option Nat) (fuel n : Nat) : Option Puzzle :=
  match solveFull ords picks fuel (Board.empty n) with
  | some (.ok s) =>
    let nonGuesses := s.log.filterMap
      (fun m => match m.strat with | .guess => none | _ => some m.cell)
    let stripped := nonGuesses.foldl Board.unset s.board
    let minimal := removeFalseGuesses fuel stripped
    match dsolve fuel minimal with
    | some (.ok s2) =>
      let givens := (List.range (n * n * (n * n))).filter
        (fun c => (minimal.get c).isSome)
      let gs := s2.log.reverse.filterMap (fun m =>
        match m.strat with
        | .guess =>
          if givens.contains m.cell then none
          else some (m.cell, serase m.value (m.undoCandidates.opts.getD []))
        | _ => none)
      some ⟨minimal, s2.board, gs⟩
    | _ => none
  | _ => none

/-! ## Concrete boards used by the claims -/

/-- A board from a digit list (`0` = empty cell), standing for the string
form parsed by `Board::from_str`. -/
def digitBoard (n : Nat) (l : List Nat) : Board :=
  ⟨n, l.map (fun d => if d = 0 then none else some d)⟩

/-- The fully filled 9×9 board whose every row is `123456789` — the fixture of
the crate's own `test_solved` test.  Every column and every square contains
repeated values. -/
def rowsBoard : Board :=
  digitBoard 3 (List.flatten (List.replicate 9 [1, 2, 3, 4, 5, 6, 7, 8, 9]))

/-- The same fully filled, constraint-violating 9×9 fixture, used
independently as the counterexample board of a second claim. -/
def rowsBoardC6 : Board :=
  digitBoard 3 (List.flatten (List.replicate 9 [1, 2, 3, 4, 5, 6, 7, 8, 9]))

/-- A 9×9 board carrying `1 2 3` in its first line, arranged so that the
empty cell `(0,3)` sees all nine values (line `1,2,3`, column `4,5,6`, square
`7,8,9`) and hence has no candidate at all. -/
def deadCellBoard : Board :=
  digitBoard 3
    [1, 2, 3, 0, 0, 0, 0, 0, 0,
     0, 0, 0, 0, 7, 8, 0, 0, 0,
     0, 0, 0, 0, 9, 0, 0, 0, 0,
     0, 0, 0, 4, 0, 0, 0, 0, 0,
     0, 0, 0, 5, 0, 0, 0, 0, 0,
     0, 0, 0, 6, 0, 0, 0, 0, 0,
     0, 0, 0, 0, 0, 0, 0, 0, 0,
     0, 0, 0, 0, 0, 0, 0, 0, 0,
     0, 0, 0, 0, 0, 0, 0, 0, 0]

/-- The 4×4 board `12.. / 3... / .... / ....` of the crate's
`register_move_results_in_error` test: setting `4` at cell `(2,1)` (index 9)
empties the candidate set of the peer cell `(1,1)` (index 5). -/
def c5Board : Board :=
  digitBoard 2 [1, 2, 0, 0, 3, 0, 0, 0, 0, 0, 0, 0, 0, 0, 0, 0]

/-- The empty 4×4 board. -/
def empty4 : Board := Board.empty 2

/-- A 4×4 board whose empty corner cell sees all four values (line `1 2 3`,
column `4`): its candidate set is empty from the start, so the entry check of
`solve()` reports `UnsolvableError` immediately. -/
def deadCell4 : Board :=
  digitBoard 2 [0, 1, 2, 3, 4, 0, 0, 0, 0, 0, 0, 0, 0, 0, 0, 0]

/-! ## Predicates for the verification -/

/-- Well-formedness of a cache for base size `n`: the dense arrays have their
capacities (`IndexedMap::new(base_size.pow(4))`, `3 · n² · n²` keys), every
stored set is sorted, values lie in `1..=n²`, bucket members are cells of the
bucket's block. -/
def WFCache (n : Nat) (s : Cache) : Prop :=
  s.pv.length = n * n * (n * n) ∧
  s.cc.length = 3 * (n * n) * (n * n) ∧
  (∀ c l, s.pvGet c = some l → SSorted l ∧ ∀ v ∈ l, 1 ≤ v ∧ v ≤ n * n) ∧
  (∀ j l, aget s.cc j = some l → SSorted l) ∧
  (∀ blk v l, ValidBlock n blk → 1 ≤ v → v ≤ n * n →
    Cache.ccGet n s blk v = some l → ∀ p ∈ l, p ∈ blockCells n blk)

/-- The cache consistency invariant of the specification: a value is possible
at a cell iff the cell is a candidate for that value in every block containing
it (an absent entry on either side reads as the empty set).  `v` ranges over
the value domain `1..=n²` of the program: `HashMap` keys outside it are never
created by any operation, so for them both sides are empty in the Rust cache
(the dense encoding only represents the populated key space). -/
def ConsCache (n : Nat) (s : Cache) : Prop :=
  ∀ c, c < n * n * (n * n) → ∀ v, 1 ≤ v → v ≤ n * n → ∀ blk, blk ∈ blocksOf n c →
    (v ∈ (s.pvGet c).getD [] ↔ c ∈ (Cache.ccGet n s blk v).getD [])

/-- The shape of every undo token handed out by a successful `set_value` on a
consistent cache (proved below): every recorded possible-value removal is
mirrored by recorded bucket removals in all three blocks of its cell, and
vice versa. -/
def BalToken (n : Nat) (u : UndoSetValue) : Prop :=
  u.optCell < n * n * (n * n) ∧
  (∀ l, u.opts = some l → SSorted l ∧ ∀ v ∈ l, 1 ≤ v ∧ v ≤ n * n) ∧
  (∀ pr ∈ u.affOpts, pr.1 ≠ u.optCell ∧ pr.1 < n * n * (n * n) ∧
    ∀ blk ∈ blocksOf n pr.1, (pr.2, pr.1, blk) ∈ u.moves) ∧
  (∀ w ∈ u.opts.getD [], ∀ blk ∈ blocksOf n u.optCell, (w, u.optCell, blk) ∈ u.moves) ∧
  (∀ r ∈ u.moves, r.2.2 ∈ blocksOf n r.2.1 ∧ r.2.1 < n * n * (n * n) ∧
    1 ≤ r.1 ∧ r.1 ≤ n * n ∧
    ((r.2.1 = u.optCell ∧ r.1 ∈ u.opts.getD []) ∨
     (r.2.1 ≠ u.optCell ∧ (r.2.1, r.1) ∈ u.affOpts)))

/-- Cache states reachable from `CandidateCache::from_board` by the call
sequences the solver issues.  The guards on `undo` and `reset_candidates`
record the facts that hold at the solver's call sites: `undo` is applied (in
`undo_move`) only to tokens produced by earlier successful `set_value` calls
(which are balanced, by `setValue_token_balanced` below) and only while the
undone cell is absent from `possible_values` (it was removed by that same
`set_value` and never reinserted before the pop); `reset_candidates(cell,
values)` is called (in `backtrack`) with the full legal set from the grid,
which contains whatever remained in `possible_values[cell]`. -/
inductive Reach (b : Board) : Cache → Prop where
  | init : Reach b (Cache.fromBoard b)
  | setOk {s s' : Cache} {v c : Nat} {u : UndoSetValue} : Reach b s →
      c < b.base * b.base * (b.base * b.base) →
      1 ≤ v → v ≤ b.base * b.base →
      setValue b.base v c s = (.ok u, s') → Reach b s'
  | setErr {s s' : Cache} {v c : Nat} {e : NoCadidatesLeftError} : Reach b s →
      c < b.base * b.base * (b.base * b.base) →
      1 ≤ v → v ≤ b.base * b.base →
      setValue b.base v c s = (.error e, s') → Reach b s'
  | undo {s : Cache} {u : UndoSetValue} : Reach b s →
      BalToken b.base u → s.pvGet u.optCell = none →
      Reach b (undoApply b.base u s)
  | removeCand {s : Cache} {v c : Nat} : Reach b s →
      Reach b (removeCandidate b.base v c s)
  | reset {s : Cache} {c : Nat} {options : List Nat} : Reach b s →
      c < b.base * b.base * (b.base * b.base) →
      SSorted options → (∀ w ∈ options, 1 ≤ w ∧ w ≤ b.base * b.base) →
      (∀ w ∈ (s.pvGet c).getD [], w ∈ options) →
      Reach b (resetCandidates b.base c options s)

/-- A cell that the cache tracks nowhere: no possible-value entry and no
bucket membership.  Cells filled in the initial board are out of play for the
whole solve. -/
def OutOfPlay (s : Cache) (c : Nat) : Prop :=
  s.pvGet c = none ∧ ∀ j, c ∉ (aget s.cc j).getD []

/-- All cells mentioned by an undo token. -/
def TokenCells (u : UndoSetValue) : List Nat :=
  u.optCell :: (u.affOpts.map (fun pr => pr.1) ++ u.moves.map (fun r => r.2.1))

/-- The invariant tying a solver state to the board it was built from,
carried through the whole solve for the failure-atomicity claim. -/
def SInv (b0 : Board) (s : SState) : Prop :=
  s.board.base = b0.base ∧
  s.board.cells.length = b0.cells.length ∧
  (∀ c, b0.get c ≠ none →
    s.board.get c = b0.get c ∧ OutOfPlay s.cache c) ∧
  (∀ c, s.board.get c ≠ b0.get c → c ∈ s.log.map (fun m => m.cell)) ∧
  (∀ m ∈ s.log, ∀ c ∈ TokenCells m.undoCandidates, b0.get c = none) ∧
  (∀ m ∈ s.log, b0.get m.cell = none)

/-- `Board::unset` over a list of cells (a board partially restored towards
the initial assignment). -/
def unsetAll (cs : List Nat) (b : Board) : Board := cs.foldl Board.unset b

/-- No `possible_values` entry is present but empty.  This holds right after
the entry check of `solve()` and at every completed solver step: `set_value`
fails (and rolls back) rather than leave an emptied entry, `undo` only
inserts, and the backtracking reset replaces the possibly-emptied guess entry
within the same step. -/
def NoEmptyPV (s : Cache) : Prop := ∀ c, s.pvGet c ≠ some []

/-- The invariant tying a running solver state to the input board `b0`,
carried through the whole of `solve()` for the failure-atomicity claim: the
board differs from `b0` only at logged cells, all of them empty in `b0`; the
cache stays well-formed and consistent, never tracks a `b0`-given cell, and
every entry holds only values legal on the current board with the entry's
cell vacated; every logged token is balanced, keeps its cell out of
`possible_values` while on the log, never touches `b0`-given cells, and its
recorded sets are legal relative to the board with all newer logged cells
(and its own) removed — which is exactly the board state at the moment the
token is eventually undone. -/
structure SolveInv (b0 : Board) (s : SState) : Prop where
  hbase : s.board.base = b0.base
  hblen : s.board.cells.length = b0.cells.length
  hdiff : ∀ c, s.board.get c ≠ b0.get c → c ∈ s.log.map (fun m => m.cell)
  hwf : WFCache b0.base s.cache
  hcons : ConsCache b0.base s.cache
  hoop : ∀ g, (b0.get g).isSome = true → OutOfPlay s.cache g
  hcoh : ∀ c vals, s.cache.pvGet c = some vals →
    ∀ v ∈ vals, v ∈ (legalValues (s.board.unset c) c).getD []
  hlogCell : ∀ m ∈ s.log, b0.get m.cell = none ∧
    m.cell < b0.base * b0.base * (b0.base * b0.base)
  hlogTok : ∀ m ∈ s.log, BalToken b0.base m.undoCandidates ∧
    m.undoCandidates.optCell = m.cell
  hlogTokCells : ∀ m ∈ s.log, ∀ c ∈ TokenCells m.undoCandidates,
    b0.get c = none
  hlogOptsNE : ∀ m ∈ s.log, m.undoCandidates.opts ≠ some []
  hlogGuessOpts : ∀ m ∈ s.log, m.strat = Strategy.guess →
    m.undoCandidates.opts.getD [] ≠ []
  hlogPvNone : ∀ m ∈ s.log, s.cache.pvGet m.cell = none
  hlogDisj : s.log.Pairwise (fun newer older =>
    (∀ pr ∈ newer.undoCandidates.affOpts, pr.1 ≠ older.cell) ∧
    (newer.undoCandidates.opts = none ∨ newer.cell ≠ older.cell))
  hkOpts : ∀ pre m post, s.log = pre ++ m :: post →
    ∀ v ∈ m.undoCandidates.opts.getD [],
      v ∈ (legalValues ((unsetAll (pre.map (fun m2 : MoveLog => m2.cell)) s.board).unset
        m.cell) m.cell).getD []
  hkAff : ∀ pre m post, s.log = pre ++ m :: post →
    ∀ pr ∈ m.undoCandidates.affOpts,
      pr.2 ∈ (legalValues (((unsetAll (pre.map (fun m2 : MoveLog => m2.cell))
        s.board).unset m.cell).unset pr.1) pr.1).getD []

/-- Sortedness for `(cell, value)` pair lists in the `BTreeSet` order. -/
def PSorted (l : List (Nat × Nat)) : Prop :=
  List.Pairwise (fun a b => a.1 < b.1 ∨ (a.1 = b.1 ∧ a.2 < b.2)) l

/-- The cells removed from one `candidate_cells` bucket according to the
`moves` of an undo token: the records whose key targets slot `j`, in order. -/
def recsCC (n : Nat) (moves : List (Nat × Nat × Block)) (j : Nat) : List Nat :=
  (moves.filter (fun r => keyIdx n r.2.2 r.1 == j)).map (fun r => r.2.1)

/-- The values removed from one `possible_values` entry according to the
`affected_cell_options` of an undo token. -/
def recsPV (affOpts : List (Nat × Nat)) (c : Nat) : List Nat :=
  (affOpts.filter (fun r => r.1 == c)).map (fun r => r.2)

/-- The invariant carried through a `set_value` call, tying the partially
updated cache `t` and the partially built undo token `(moves, affOpts)` back
to the starting cache `s`.  `restCC`/`restPV` say the recorded re-insertions
rebuild every slot of `s` (up to one caveat: when `set_value` is called with a
value that is *not* among the cell's possible values — which the solver does
on stale hidden singles — a dropped `(block, value)` bucket may have been
present but empty, and the re-insertions then rebuild `none` instead);
`remCC`/`remPV` say every recorded removal is really absent from `t`;
the `wf*` fields carry well-formedness forward; `balAff`/`balMv` are the
shape facts of the final token. -/
structure SvCoreNA (n value cell : Nat) (s : Cache)
    (moves : List (Nat × Nat × Block)) (affOpts : List (Nat × Nat))
    (t : Cache) : Prop where
  pvlen : t.pv.length = s.pv.length
  cclen : t.cc.length = s.cc.length
  restCC : ∀ j, insFold (recsCC n moves j) (aget t.cc j) = aget s.cc j ∨
    (value ∉ (aget s.pv cell).getD [] ∧ aget s.cc j = some [] ∧
      aget t.cc j = none ∧ recsCC n moves j = [])
  restPV : ∀ c, c ≠ cell →
    insFold (recsPV affOpts c) (aget t.pv c) = aget s.pv c
  remCC : ∀ r ∈ moves, r.2.1 ∉ (aget t.cc (keyIdx n r.2.2 r.1)).getD []
  remPV : ∀ pr ∈ affOpts, pr.2 ∉ (aget t.pv pr.1).getD []
  pvCell : aget t.pv cell = none
  wfPV : ∀ c l, aget t.pv c = some l → SSorted l ∧ ∀ w ∈ l, 1 ≤ w ∧ w ≤ n * n
  wfCC : ∀ j l, aget t.cc j = some l → SSorted l
  wfCCB : ∀ blk w l, ValidBlock n blk → 1 ≤ w → w ≤ n * n →
    aget t.cc (keyIdx n blk w) = some l → ∀ p ∈ l, p ∈ blockCells n blk
  balMv : ∀ r ∈ moves, r.2.2 ∈ blocksOf n r.2.1 ∧ r.2.1 < n * n * (n * n) ∧
    1 ≤ r.1 ∧ r.1 ≤ n * n

/-- `SvCoreNA` together with the balance fact for `affOpts` that is
re-established after each peer's bucket loop completes. -/
structure SvCore (n value cell : Nat) (s : Cache)
    (moves : List (Nat × Nat × Block)) (affOpts : List (Nat × Nat))
    (t : Cache) extends SvCoreNA n value cell s moves affOpts t : Prop where
  balAff : ∀ pr ∈ affOpts, pr.1 ≠ cell ∧ pr.1 < n * n * (n * n) ∧
    ∀ blk ∈ blocksOf n pr.1, (pr.2, pr.1, blk) ∈ moves

/-- The debt form of the balance fact for `moves` while the affected-cell list
`ps` is still being processed:  every record is either a removal of the set
cell itself, or mirrored in `affOpts`, or a phase-one bucket-drop record whose
cell still awaits processing. -/
def SvDebt (n value cell : Nat) (s : Cache) (moves : List (Nat × Nat × Block))
    (affOpts : List (Nat × Nat)) (ps : List Nat) (t : Cache) : Prop :=
  ∀ r ∈ moves, (r.2.1 = cell ∧ r.1 ∈ (aget s.pv cell).getD []) ∨
    (r.2.1 ≠ cell ∧ ((r.2.1, r.1) ∈ affOpts ∨
      (r.1 = value ∧ r.2.1 ∈ ps ∧ value ∈ (aget t.pv r.2.1).getD [])))

/-! # Theorems

## Sorted-list library -/

theorem mem_sinsert {a b : Nat} {l : List Nat} :
    b ∈ sinsert a l ↔ b = a ∨ b ∈ l := by
  induction l with
  | nil => simp [sinsert]
  | cons x xs ih =>
    rw [sinsert]
    by_cases h1 : a < x
    · rw [if_pos h1]; simp only [List.mem_cons]
    · rw [if_neg h1]
      by_cases h2 : a = x
      · rw [if_pos h2]; subst h2; simp only [List.mem_cons]; tauto
      · rw [if_neg h2]; simp only [List.mem_cons, ih]; tauto

theorem ssorted_cons {x : Nat} {xs : List Nat} :
    SSorted (x :: xs) ↔ (∀ y ∈ xs, x < y) ∧ SSorted xs := by
  simp [SSorted, List.pairwise_cons]

theorem ssorted_nil : SSorted [] := List.Pairwise.nil

theorem sinsert_sorted {a : Nat} {l : List Nat} (h : SSorted l) :
    SSorted (sinsert a l) := by
  induction l with
  | nil => simp [sinsert, SSorted]
  | cons x xs ih =>
    obtain ⟨hx, hxs⟩ := ssorted_cons.mp h
    by_cases h1 : a < x
    · rw [sinsert, if_pos h1, ssorted_cons]
      refine ⟨?_, h⟩
      intro y hy
      rcases List.mem_cons.mp hy with rfl | hy
      · exact h1
      · exact h1.trans (hx y hy)
    · by_cases h2 : a = x
      · subst h2; rw [sinsert, if_neg h1, if_pos rfl]; exact h
      · rw [sinsert, if_neg h1, if_neg h2, ssorted_cons]
        refine ⟨?_, ih hxs⟩
        intro y hy
        rcases mem_sinsert.mp hy with rfl | hy
        · omega
        · exact hx y hy

theorem sinsert_of_mem {a : Nat} {l : List Nat} (hs : SSorted l) (h : a ∈ l) :
    sinsert a l = l := by
  induction l with
  | nil => cases h
  | cons x xs ih =>
    obtain ⟨hx, hxs⟩ := ssorted_cons.mp hs
    rcases List.mem_cons.mp h with rfl | h
    · rw [sinsert, if_neg (Nat.lt_irrefl a), if_pos rfl]
    · have hax : x < a := hx a h
      rw [sinsert, if_neg (by omega), if_neg (by omega), ih hxs h]

theorem mem_serase {a b : Nat} {l : List Nat} (hs : SSorted l) :
    b ∈ serase a l ↔ b ∈ l ∧ b ≠ a := by
  induction l with
  | nil => simp [serase]
  | cons x xs ih =>
    obtain ⟨hx, hxs⟩ := ssorted_cons.mp hs
    by_cases h1 : a = x
    · subst h1
      rw [serase, if_pos rfl]
      constructor
      · intro hb
        refine ⟨List.mem_cons_of_mem _ hb, ?_⟩
        rintro rfl
        exact Nat.lt_irrefl b (hx b hb)
      · rintro ⟨hb, hba⟩
        rcases List.mem_cons.mp hb with rfl | hb
        · exact absurd rfl hba
        · exact hb
    · rw [serase, if_neg h1]
      simp only [List.mem_cons, ih hxs]
      constructor
      · rintro (rfl | ⟨hb, hba⟩)
        · exact ⟨Or.inl rfl, fun he => h1 he.symm⟩
        · exact ⟨Or.inr hb, hba⟩
      · rintro ⟨rfl | hb, hba⟩
        · exact Or.inl rfl
        · exact Or.inr ⟨hb, hba⟩

theorem serase_of_not_mem {a : Nat} {l : List Nat} (h : a ∉ l) :
    serase a l = l := by
  induction l with
  | nil => rfl
  | cons x xs ih =>
    rw [serase, if_neg (by rintro rfl; exact h (List.mem_cons_self _ _)),
      ih (fun hm => h (List.mem_cons_of_mem _ hm))]

theorem serase_sorted {a : Nat} {l : List Nat} (hs : SSorted l) :
    SSorted (serase a l) := by
  induction l with
  | nil => exact hs
  | cons x xs ih =>
    obtain ⟨hx, hxs⟩ := ssorted_cons.mp hs
    by_cases h1 : a = x
    · rw [serase, if_pos h1]; exact hxs
    · rw [serase, if_neg h1, ssorted_cons]
      refine ⟨?_, ih hxs⟩
      intro y hy
      exact hx y ((mem_serase hxs).mp hy).1

theorem sinsert_serase {a : Nat} {l : List Nat} (hs : SSorted l) (h : a ∈ l) :
    sinsert a (serase a l) = l := by
  induction l with
  | nil => cases h
  | cons x xs ih =>
    obtain ⟨hx, hxs⟩ := ssorted_cons.mp hs
    by_cases h1 : a = x
    · subst h1
      rw [serase, if_pos rfl]
      cases xs with
      | nil => rfl
      | cons y ys =>
        have hay : a < y := hx y (List.mem_cons_self _ _)
        rw [sinsert, if_pos hay]
    · rw [serase, if_neg h1]
      have hm : a ∈ xs := by
        rcases List.mem_cons.mp h with rfl | hm
        · exact absurd rfl h1
        · exact hm
      have hxa : x < a := hx a hm
      rw [sinsert, if_neg (by omega), if_neg (by omega), ih hxs hm]

/-- Two sorted lists with the same members are equal. -/
theorem sorted_ext {l l' : List Nat} (h : SSorted l) (h' : SSorted l')
    (hm : ∀ x, x ∈ l ↔ x ∈ l') : l = l' := by
  induction l generalizing l' with
  | nil =>
    cases l' with
    | nil => rfl
    | cons y ys => exact absurd ((hm y).mpr (List.mem_cons_self _ _)) (by simp)
  | cons x xs ih =>
    cases l' with
    | nil => exact absurd ((hm x).mp (List.mem_cons_self _ _)) (by simp)
    | cons y ys =>
      rw [SSorted, List.pairwise_cons] at h h'
      have hxy : x = y := by
        rcases List.mem_cons.mp ((hm x).mp (List.mem_cons_self _ _)) with h1 | h1
        · exact h1
        · rcases List.mem_cons.mp ((hm y).mpr (List.mem_cons_self _ _)) with h2 | h2
          · exact h2.symm
          · have := h.1 y h2; have := h'.1 x h1; omega
      subst hxy
      have : xs = ys := by
        refine ih h.2 h'.2 (fun z => ?_)
        constructor
        · intro hz
          rcases List.mem_cons.mp ((hm z).mp (List.mem_cons_of_mem _ hz)) with rfl | h2
          · exact absurd hz (by intro hmem; exact Nat.lt_irrefl z (h.1 z hmem))
          · exact h2
        · intro hz
          rcases List.mem_cons.mp ((hm z).mpr (List.mem_cons_of_mem _ hz)) with rfl | h2
          · exact absurd hz (by intro hmem; exact Nat.lt_irrefl z (h'.1 z hmem))
          · exact h2
      rw [this]

theorem serase_sinsert_comm {a p : Nat} {l : List Nat} (hs : SSorted l)
    (hne : a ≠ p) : serase p (sinsert a l) = sinsert a (serase p l) := by
  refine sorted_ext (serase_sorted (sinsert_sorted hs))
    (sinsert_sorted (serase_sorted hs)) (fun x => ?_)
  rw [mem_serase (sinsert_sorted hs), mem_sinsert, mem_sinsert,
    mem_serase hs]
  constructor
  · rintro ⟨rfl | hx, hxp⟩
    · exact Or.inl rfl
    · exact Or.inr ⟨hx, hxp⟩
  · rintro (rfl | ⟨hx, hxp⟩)
    · exact ⟨Or.inl rfl, hne⟩
    · exact ⟨Or.inr hx, hxp⟩

/-! ## Dense-array lemmas -/

theorem aget_nil (i : Nat) : aget ([] : List (Option α)) i = none := by
  simp [aget, List.getD]

theorem aget_cons_zero (x : Option α) (l : List (Option α)) :
    aget (x :: l) 0 = x := by simp [aget, List.getD]

theorem aget_cons_succ (x : Option α) (l : List (Option α)) (i : Nat) :
    aget (x :: l) (i + 1) = aget l i := by simp [aget, List.getD]

theorem aget_set_self {l : List (Option α)} {i : Nat} (h : i < l.length)
    (x : Option α) : aget (l.set i x) i = x := by
  induction l generalizing i with
  | nil => simp at h
  | cons y ys ih =>
    cases i with
    | zero => simp [aget, List.getD]
    | succ j =>
      rw [List.set_cons_succ, aget_cons_succ]
      exact ih (by simpa using h)

theorem aget_set_ne {l : List (Option α)} {i j : Nat} (h : i ≠ j)
    (x : Option α) : aget (l.set i x) j = aget l j := by
  induction l generalizing i j with
  | nil => simp
  | cons y ys ih =>
    cases i with
    | zero =>
      cases j with
      | zero => exact absurd rfl h
      | succ k => simp [aget_cons_succ]
    | succ i' =>
      cases j with
      | zero => simp [aget, List.getD]
      | succ k =>
        rw [List.set_cons_succ, aget_cons_succ, aget_cons_succ]
        exact ih (by omega)

theorem aget_oob {l : List (Option α)} {i : Nat} (h : l.length ≤ i) :
    aget l i = none := by
  induction l generalizing i with
  | nil => simp [aget, List.getD]
  | cons y ys ih =>
    cases i with
    | zero => simp at h
    | succ j => rw [aget_cons_succ]; exact ih (by simpa using h)

theorem alist_ext {l m : List (Option α)} (hl : l.length = m.length)
    (h : ∀ j, aget l j = aget m j) : l = m := by
  induction l generalizing m with
  | nil => cases m with
    | nil => rfl
    | cons y ys => simp at hl
  | cons x xs ih =>
    cases m with
    | nil => simp at hl
    | cons y ys =>
      have h0 := h 0
      rw [aget_cons_zero, aget_cons_zero] at h0
      have : xs = ys := ih (by simpa using hl)
        (fun j => by have := h (j + 1); rwa [aget_cons_succ, aget_cons_succ] at this)
      rw [h0, this]

theorem cache_ext {s t : Cache} (hpl : s.pv.length = t.pv.length)
    (hcl : s.cc.length = t.cc.length)
    (hp : ∀ j, aget s.pv j = aget t.pv j) (hc : ∀ j, aget s.cc j = aget t.cc j) :
    s = t := by
  cases s; cases t
  simp only [Cache.mk.injEq]
  exact ⟨alist_ext hpl hp, alist_ext hcl hc⟩

/-! ## Characterizations of the undo folds -/

theorem insFold_cons (c : Nat) (cs : List Nat) (base : Option (List Nat)) :
    insFold (c :: cs) base = insFold cs (some (sinsert c (base.getD []))) := rfl

theorem insFold_mem (cells : List Nat) (base : Option (List Nat)) (x : Nat) :
    x ∈ (insFold cells base).getD [] ↔ x ∈ base.getD [] ∨ x ∈ cells := by
  induction cells generalizing base with
  | nil => simp [insFold]
  | cons c cs ih =>
    rw [insFold_cons, ih]
    simp only [Option.getD_some, mem_sinsert, List.mem_cons]
    tauto

theorem insFold_isSome (cells : List Nat) (base : Option (List Nat)) :
    (insFold cells base).isSome = (base.isSome || !cells.isEmpty) := by
  induction cells generalizing base with
  | nil => simp [insFold]
  | cons c cs ih => rw [insFold_cons, ih]; simp

theorem insFold_sorted (cells : List Nat) (base : Option (List Nat))
    (h : SSorted (base.getD [])) : SSorted ((insFold cells base).getD []) := by
  induction cells generalizing base with
  | nil => exact h
  | cons c cs ih =>
    rw [insFold_cons]
    exact ih _ (by simpa using sinsert_sorted h)

theorem insFold_none_nil (base : Option (List Nat)) : insFold [] base = base := rfl

theorem undoMovesFold_pv (n : Nat) (ms : List (Nat × Nat × Block)) (s : Cache) :
    (undoMovesFold n ms s).pv = s.pv := by
  induction ms generalizing s with
  | nil => rfl
  | cons r rs ih => rw [undoMovesFold, List.foldl_cons]; exact ih _

theorem undoMovesFold_cc_length (n : Nat) (ms : List (Nat × Nat × Block)) (s : Cache) :
    (undoMovesFold n ms s).cc.length = s.cc.length := by
  induction ms generalizing s with
  | nil => rfl
  | cons r rs ih =>
    rw [undoMovesFold, List.foldl_cons]
    show (undoMovesFold n rs _).cc.length = _
    rw [ih]; simp [Cache.ccSet]

theorem undoAffFold_cc (ps : List (Nat × Nat)) (s : Cache) :
    (undoAffFold ps s).cc = s.cc := by
  induction ps generalizing s with
  | nil => rfl
  | cons r rs ih => rw [undoAffFold, List.foldl_cons]; exact ih _

theorem undoAffFold_pv_length (ps : List (Nat × Nat)) (s : Cache) :
    (undoAffFold ps s).pv.length = s.pv.length := by
  induction ps generalizing s with
  | nil => rfl
  | cons r rs ih =>
    rw [undoAffFold, List.foldl_cons]
    show (undoAffFold rs _).pv.length = _
    rw [ih]; simp [Cache.pvSet]

theorem undoOpts_cc (u : UndoSetValue) (s : Cache) : (undoOpts u s).cc = s.cc := by
  cases h : u.opts <;> simp [undoOpts, h, Cache.pvSet]

theorem undoOpts_pv_length (u : UndoSetValue) (s : Cache) :
    (undoOpts u s).pv.length = s.pv.length := by
  cases h : u.opts <;> simp [undoOpts, h, Cache.pvSet]

/-- Slot-wise action of `undoMovesFold`: one bucket receives the inserts of
exactly its own records, in order. -/
theorem undoMovesFold_cc_aget (n : Nat) (ms : List (Nat × Nat × Block)) (s : Cache)
    (j : Nat) (hin : ∀ r ∈ ms, keyIdx n r.2.2 r.1 < s.cc.length) :
    aget (undoMovesFold n ms s).cc j =
      insFold ((ms.filter (fun r => keyIdx n r.2.2 r.1 == j)).map (fun r => r.2.1))
        (aget s.cc j) := by
  induction ms generalizing s with
  | nil => rfl
  | cons r rs ih =>
    rw [undoMovesFold, List.foldl_cons]
    show aget (undoMovesFold n rs _).cc j = _
    by_cases hk : keyIdx n r.2.2 r.1 = j
    · rw [List.filter_cons_of_pos (by simpa using hk)]
      rw [ih _ (fun q hq => by
        have := hin q (List.mem_cons_of_mem _ hq)
        simpa [Cache.ccSet] using this)]
      simp only [List.map_cons]
      rw [insFold_cons]
      congr 1
      show aget (s.cc.set (keyIdx n r.2.2 r.1) _) j = _
      rw [hk, aget_set_self (hk ▸ hin r (List.mem_cons_self _ _))]
      rw [Cache.ccGet, hk]
    · rw [List.filter_cons_of_neg (by simpa using hk)]
      rw [ih _ (fun q hq => by
        have := hin q (List.mem_cons_of_mem _ hq)
        simpa [Cache.ccSet] using this)]
      congr 1
      show aget (s.cc.set (keyIdx n r.2.2 r.1) _) j = _
      rw [aget_set_ne hk]

/-- Slot-wise action of `undoAffFold`. -/
theorem undoAffFold_pv_aget (ps : List (Nat × Nat)) (s : Cache) (j : Nat)
    (hin : ∀ r ∈ ps, r.1 < s.pv.length) :
    aget (undoAffFold ps s).pv j =
      insFold ((ps.filter (fun r => r.1 == j)).map (fun r => r.2)) (aget s.pv j) := by
  induction ps generalizing s with
  | nil => rfl
  | cons r rs ih =>
    rw [undoAffFold, List.foldl_cons]
    show aget (undoAffFold rs _).pv j = _
    by_cases hk : r.1 = j
    · rw [List.filter_cons_of_pos (by simpa using hk)]
      rw [ih _ (fun q hq => by
        have := hin q (List.mem_cons_of_mem _ hq)
        simpa [Cache.pvSet] using this)]
      simp only [List.map_cons]
      rw [insFold_cons]
      congr 1
      show aget (s.pv.set r.1 _) j = _
      rw [hk, aget_set_self (hk ▸ hin r (List.mem_cons_self _ _))]
      rw [Cache.pvGet]
    · rw [List.filter_cons_of_neg (by simpa using hk)]
      rw [ih _ (fun q hq => by
        have := hin q (List.mem_cons_of_mem _ hq)
        simpa [Cache.pvSet] using this)]
      congr 1
      show aget (s.pv.set r.1 _) j = _
      rw [aget_set_ne hk]

/-! ## Geometry lemmas -/

theorem helper_div {n A B : Nat} (hB : B < n) : (A * n + B) / n = A := by
  have hn : 0 < n := by omega
  rw [Nat.add_comm, Nat.add_mul_div_right _ _ hn, Nat.div_eq_of_lt hB]
  omega

theorem helper_mod {n A B : Nat} (hB : B < n) : (A * n + B) % n = B := by
  rw [Nat.add_comm, Nat.add_mul_mod_self_right, Nat.mod_eq_of_lt hB]

theorem colOf_lt {n : Nat} (hn : 0 < n) (c : Nat) : colOf n c < n * n :=
  Nat.mod_lt _ (Nat.mul_pos hn hn)

theorem lineOf_lt {n c : Nat} (hc : c < n * n * (n * n)) : lineOf n c < n * n := by
  rw [lineOf]
  rcases Nat.eq_zero_or_pos (n * n) with h | h
  · rw [h] at hc ⊢; simp at hc
  · exact Nat.div_lt_of_lt_mul hc

theorem cell_decomp (n c : Nat) : lineOf n c * (n * n) + colOf n c = c := by
  rw [lineOf, colOf, Nat.mul_comm]; exact Nat.div_add_mod c (n * n)

theorem lineOf_mk {n L C : Nat} (hC : C < n * n) : lineOf n (L * (n * n) + C) = L :=
  helper_div hC

theorem colOf_mk {n L C : Nat} (hC : C < n * n) : colOf n (L * (n * n) + C) = C :=
  helper_mod hC

theorem cell_lt_of_lineOf_lt {n c : Nat} (hn : 0 < n) (h : lineOf n c < n * n) :
    c < n * n * (n * n) := by
  have h2 : colOf n c < n * n := colOf_lt hn c
  have h3 := cell_decomp n c
  nlinarith

theorem squareOf_lt {n c : Nat} (hn : 0 < n) (hc : c < n * n * (n * n)) :
    squareOf n c < n * n := by
  have h1 : lineOf n c / n < n := Nat.div_lt_of_lt_mul (lineOf_lt hc)
  have h2 : colOf n c / n < n := Nat.div_lt_of_lt_mul (colOf_lt hn c)
  rw [squareOf]; nlinarith

theorem mem_iterLine {n c p : Nat} (hn : 0 < n) :
    p ∈ iterLine n c ↔ lineOf n p = lineOf n c := by
  rw [iterLine]
  simp only [List.mem_map, List.mem_range]
  constructor
  · rintro ⟨j, hj, rfl⟩
    exact lineOf_mk hj
  · intro h
    exact ⟨colOf n p, colOf_lt hn p, by rw [← h]; exact cell_decomp n p⟩

theorem mem_iterCol {n c p : Nat} (hn : 0 < n) :
    p ∈ iterCol n c ↔ colOf n p = colOf n c ∧ lineOf n p < n * n := by
  rw [iterCol]
  simp only [List.mem_map, List.mem_range]
  have hcol : colOf n c < n * n := colOf_lt hn c
  constructor
  · rintro ⟨l, hl, rfl⟩
    exact ⟨colOf_mk hcol, by rw [lineOf_mk hcol]; exact hl⟩
  · rintro ⟨h1, h2⟩
    exact ⟨lineOf n p, h2, by rw [← h1]; exact cell_decomp n p⟩

theorem mem_iterSquare {n c p : Nat} (hn : 0 < n) (hc : c < n * n * (n * n)) :
    p ∈ iterSquare n c ↔ squareOf n p = squareOf n c ∧ lineOf n p < n * n := by
  have hlc : lineOf n c / n < n := Nat.div_lt_of_lt_mul (lineOf_lt hc)
  have hcc : colOf n c / n < n := Nat.div_lt_of_lt_mul (colOf_lt hn c)
  rw [iterSquare]
  simp only [List.mem_flatMap, List.mem_map, List.mem_range]
  constructor
  · rintro ⟨dl, hdl, dc, hdc, rfl⟩
    have hC : (colOf n c / n) * n + dc < n * n := by nlinarith
    have hL : (lineOf n c / n) * n + dl < n * n := by nlinarith
    refine ⟨?_, by rw [lineOf_mk hC]; exact hL⟩
    simp only [squareOf]
    rw [lineOf_mk hC, colOf_mk hC, helper_div hdl, helper_div hdc]
  · rintro ⟨h1, h2⟩
    simp only [squareOf] at h1
    have hbp : colOf n p / n < n := Nat.div_lt_of_lt_mul (colOf_lt hn p)
    have hdiv : lineOf n p / n = lineOf n c / n ∧ colOf n p / n = colOf n c / n := by
      constructor
      · have := congrArg (· / n) h1
        simpa [helper_div hbp, helper_div hcc] using this
      · have := congrArg (· % n) h1
        simpa [helper_mod hbp, helper_mod hcc] using this
    refine ⟨lineOf n p % n, Nat.mod_lt _ hn, colOf n p % n, Nat.mod_lt _ hn, ?_⟩
    rw [← hdiv.1, ← hdiv.2, Nat.div_add_mod', Nat.div_add_mod']
    exact cell_decomp n p

theorem iterLine_subset_size {n c p : Nat} (hn : 0 < n)
    (hc : c < n * n * (n * n)) (hp : p ∈ iterLine n c) : p < n * n * (n * n) :=
  cell_lt_of_lineOf_lt hn ((mem_iterLine hn).mp hp ▸ lineOf_lt hc)

theorem iterCol_subset_size {n c p : Nat} (hn : 0 < n)
    (hp : p ∈ iterCol n c) : p < n * n * (n * n) :=
  cell_lt_of_lineOf_lt hn ((mem_iterCol hn).mp hp).2

theorem iterSquare_subset_size {n c p : Nat} (hn : 0 < n)
    (hc : c < n * n * (n * n)) (hp : p ∈ iterSquare n c) : p < n * n * (n * n) :=
  cell_lt_of_lineOf_lt hn ((mem_iterSquare hn hc).mp hp).2

theorem mem_affCells {n c p : Nat} (hn : 0 < n) (hc : c < n * n * (n * n))
    (hp : p < n * n * (n * n)) : p ∈ affCells n c ↔ Peer n c p := by
  rw [affCells, Peer]
  simp only [List.mem_append, mem_iterLine hn, mem_iterCol hn,
    mem_iterSquare hn hc]
  have := lineOf_lt hp
  tauto

theorem affCells_subset_size {n c p : Nat} (hn : 0 < n)
    (hc : c < n * n * (n * n)) (hp : p ∈ affCells n c) : p < n * n * (n * n) := by
  rw [affCells] at hp
  rcases List.mem_append.mp hp with h | h
  · rcases List.mem_append.mp h with h2 | h2
    · exact iterLine_subset_size hn hc h2
    · exact iterCol_subset_size hn h2
  · exact iterSquare_subset_size hn hc h

theorem mem_blockCells_line {n i p : Nat} (hn : 0 < n) :
    p ∈ blockCells n (.line i) ↔ lineOf n p = i := by
  rw [blockCells]
  simp only [List.mem_map, List.mem_range]
  constructor
  · rintro ⟨j, hj, rfl⟩
    exact lineOf_mk hj
  · intro h
    exact ⟨colOf n p, colOf_lt hn p, by rw [← h]; exact cell_decomp n p⟩

theorem mem_blockCells_col {n i p : Nat} (hn : 0 < n) (hi : i < n * n) :
    p ∈ blockCells n (.col i) ↔ colOf n p = i ∧ lineOf n p < n * n := by
  rw [blockCells]
  simp only [List.mem_map, List.mem_range]
  constructor
  · rintro ⟨l, hl, rfl⟩
    exact ⟨colOf_mk hi, by rw [lineOf_mk hi]; exact hl⟩
  · rintro ⟨h1, h2⟩
    exact ⟨lineOf n p, h2, by rw [← h1]; exact cell_decomp n p⟩

theorem mem_blockCells_square {n i p : Nat} (hn : 0 < n) (hi : i < n * n) :
    p ∈ blockCells n (.square i) ↔ squareOf n p = i ∧ lineOf n p < n * n := by
  have hi1 : i / n < n := Nat.div_lt_of_lt_mul hi
  have hi2 : i % n < n := Nat.mod_lt _ hn
  rw [blockCells]
  simp only [List.mem_flatMap, List.mem_map, List.mem_range]
  constructor
  · rintro ⟨dl, hdl, dc, hdc, rfl⟩
    have hC : (i % n) * n + dc < n * n := by nlinarith
    have hL : (i / n) * n + dl < n * n := by nlinarith
    refine ⟨?_, by rw [lineOf_mk hC]; exact hL⟩
    simp only [squareOf]
    rw [lineOf_mk hC, colOf_mk hC, helper_div hdl, helper_div hdc]
    exact Nat.div_add_mod' i n
  · rintro ⟨h1, h2⟩
    simp only [squareOf] at h1
    have hbp : colOf n p / n < n := Nat.div_lt_of_lt_mul (colOf_lt hn p)
    have hdiv : lineOf n p / n = i / n ∧ colOf n p / n = i % n := by
      have hi' : i = (lineOf n p / n) * n + colOf n p / n := h1.symm
      constructor
      · rw [hi', helper_div hbp]
      · rw [hi', helper_mod hbp]
    refine ⟨lineOf n p % n, Nat.mod_lt _ hn, colOf n p % n, Nat.mod_lt _ hn, ?_⟩
    rw [← hdiv.1, ← hdiv.2, Nat.div_add_mod', Nat.div_add_mod']
    exact cell_decomp n p

/-! ## Blocks, keys and the canonical enumeration -/

theorem line_mem_blocksOf {n c i : Nat} :
    Block.line i ∈ blocksOf n c ↔ i = lineOf n c := by
  simp [blocksOf]

theorem col_mem_blocksOf {n c i : Nat} :
    Block.col i ∈ blocksOf n c ↔ i = colOf n c := by
  simp [blocksOf]

theorem square_mem_blocksOf {n c i : Nat} :
    Block.square i ∈ blocksOf n c ↔ i = squareOf n c := by
  simp [blocksOf]

theorem validBlock_of_mem_blocksOf {n c : Nat} {blk : Block} (hn : 0 < n)
    (hc : c < n * n * (n * n)) (hb : blk ∈ blocksOf n c) : ValidBlock n blk := by
  rcases blk with i | i | i
  · rw [line_mem_blocksOf] at hb; rw [ValidBlock, hb]; exact lineOf_lt hc
  · rw [col_mem_blocksOf] at hb; rw [ValidBlock, hb]; exact colOf_lt hn c
  · rw [square_mem_blocksOf] at hb; rw [ValidBlock, hb]; exact squareOf_lt hn hc

theorem mem_blockCells_iff_blocksOf {n c : Nat} {blk : Block} (hn : 0 < n)
    (hc : c < n * n * (n * n)) (hb : ValidBlock n blk) :
    c ∈ blockCells n blk ↔ blk ∈ blocksOf n c := by
  have hl := lineOf_lt hc
  rcases blk with i | i | i
  · rw [mem_blockCells_line hn, line_mem_blocksOf]; exact eq_comm
  · rw [mem_blockCells_col hn hb, col_mem_blocksOf]
    constructor
    · rintro ⟨h1, _⟩; exact h1.symm
    · rintro rfl; exact ⟨rfl, hl⟩
  · rw [mem_blockCells_square hn hb, square_mem_blocksOf]
    constructor
    · rintro ⟨h1, _⟩; exact h1.symm
    · rintro rfl; exact ⟨rfl, hl⟩

theorem peer_iff_shared_block {n c p : Nat} :
    Peer n c p ↔ ∃ blk, blk ∈ blocksOf n c ∧ blk ∈ blocksOf n p := by
  rw [Peer]
  constructor
  · rintro (h | h | h)
    · exact ⟨.line (lineOf n c), line_mem_blocksOf.mpr rfl,
        line_mem_blocksOf.mpr h.symm⟩
    · exact ⟨.col (colOf n c), col_mem_blocksOf.mpr rfl,
        col_mem_blocksOf.mpr h.symm⟩
    · exact ⟨.square (squareOf n c), square_mem_blocksOf.mpr rfl,
        square_mem_blocksOf.mpr h.symm⟩
  · rintro ⟨blk, hb1, hb2⟩
    rcases blk with i | i | i
    · rw [line_mem_blocksOf] at hb1 hb2; exact Or.inl (hb2 ▸ hb1 ▸ rfl)
    · rw [col_mem_blocksOf] at hb1 hb2; exact Or.inr (Or.inl (hb2 ▸ hb1 ▸ rfl))
    · rw [square_mem_blocksOf] at hb1 hb2; exact Or.inr (Or.inr (hb2 ▸ hb1 ▸ rfl))

theorem blockCells_subset_size {n : Nat} {blk : Block} {p : Nat} (hn : 0 < n)
    (hb : ValidBlock n blk) (hp : p ∈ blockCells n blk) : p < n * n * (n * n) := by
  rcases blk with i | i | i
  · exact cell_lt_of_lineOf_lt hn ((mem_blockCells_line hn).mp hp ▸ hb)
  · exact cell_lt_of_lineOf_lt hn ((mem_blockCells_col hn hb).mp hp).2
  · exact cell_lt_of_lineOf_lt hn ((mem_blockCells_square hn hb).mp hp).2

theorem key_bound {N A B : Nat} (hA : A + 1 ≤ 3 * N) (hB : B < N) :
    A * N + B < 3 * N * N := by nlinarith

theorem cell_bound {n A B : Nat} (hA : A + 1 ≤ n) (hB : B < n) :
    A * n + B < n * n := by nlinarith

theorem ssorted_map_range {m : Nat} {f : Nat → Nat}
    (hf : ∀ a b, a < b → b < m → f a < f b) :
    SSorted ((List.range m).map f) := by
  rw [SSorted, List.pairwise_map]
  refine List.Pairwise.imp_of_mem ?_ (List.pairwise_lt_range m)
  intro a b ha hb hab
  exact hf a b hab (List.mem_range.mp hb)

theorem ssorted_blockCells {n : Nat} {blk : Block} (hn : 0 < n)
    (hb : ValidBlock n blk) : SSorted (blockCells n blk) := by
  rcases blk with i | i | i
  · rw [blockCells]
    refine ssorted_map_range (fun a b hab _ => by omega)
  · rw [blockCells]
    refine ssorted_map_range (fun a b hab _ => by nlinarith)
  · rw [blockCells]
    show SSorted (((List.range n).map _).flatten)
    rw [SSorted, List.pairwise_flatten]
    refine ⟨?_, ?_⟩
    · intro l hl
      rcases List.mem_map.mp hl with ⟨dl, hdl, rfl⟩
      rw [← SSorted]
      exact ssorted_map_range (fun a b hab _ => by omega)
    · rw [List.pairwise_map]
      refine List.Pairwise.imp_of_mem ?_ (List.pairwise_lt_range n)
      intro a b _ hbm hab x hx y hy
      rcases List.mem_map.mp hx with ⟨dc, hdc, rfl⟩
      rcases List.mem_map.mp hy with ⟨dc', hdc', rfl⟩
      have hm := Nat.mod_lt i hn
      have hdcn := List.mem_range.mp hdc
      have hdcn' := List.mem_range.mp hdc'
      have h1 : (i % n) * n + dc < n * n := cell_bound (by omega) hdcn
      have h2 : (i % n) * n + dc' < n * n := cell_bound (by omega) hdcn'
      nlinarith

theorem keyIdx_lt {n v : Nat} {blk : Block} (hb : ValidBlock n blk)
    (h1 : 1 ≤ v) (h2 : v ≤ n * n) : keyIdx n blk v < 3 * (n * n) * (n * n) := by
  rcases blk with i | i | i <;> rw [keyIdx] <;> rw [ValidBlock] at hb <;>
    exact key_bound (by omega) (by omega)

theorem keyIdx_decode {n v : Nat} {blk : Block} (hb : ValidBlock n blk)
    (h1 : 1 ≤ v) (h2 : v ≤ n * n) :
    decodeBlock n (keyIdx n blk v / (n * n)) = blk ∧ keyIdx n blk v % (n * n) + 1 = v := by
  have hv : v - 1 < n * n := by omega
  rcases blk with i | i | i <;> rw [ValidBlock] at hb <;>
    rw [keyIdx, helper_div hv, helper_mod hv, decodeBlock]
  · rw [if_pos hb]; exact ⟨rfl, by omega⟩
  · rw [if_neg (by omega), if_pos (by omega)]
    exact ⟨by congr 1; omega, by omega⟩
  · rw [if_neg (by omega), if_neg (by omega)]
    exact ⟨by congr 1; omega, by omega⟩

theorem keyIdx_inj {n v v' : Nat} {blk blk' : Block} (hb : ValidBlock n blk)
    (hb' : ValidBlock n blk') (h1 : 1 ≤ v) (h2 : v ≤ n * n) (h1' : 1 ≤ v')
    (h2' : v' ≤ n * n) (he : keyIdx n blk v = keyIdx n blk' v') :
    blk = blk' ∧ v = v' := by
  have d1 := keyIdx_decode hb h1 h2
  have d2 := keyIdx_decode hb' h1' h2'
  rw [he] at d1
  exact ⟨d1.1 ▸ d2.1.symm ▸ rfl, by omega⟩

/-! ## Legal values and `from_board` -/

theorem aget_get_eq (l : List (Option α)) (i : Nat) : aget l i = (l.get? i).getD none := by
  simp [aget, List.getD]

theorem aget_map_range {m i : Nat} {f : Nat → Option α} :
    aget ((List.range m).map f) i = if i < m then f i else none := by
  rw [aget_get_eq]
  by_cases h : i < m
  · rw [if_pos h, List.get?_eq_getElem?, List.getElem?_map, List.getElem?_range h]
    rfl
  · rw [if_neg h, List.get?_eq_getElem?, List.getElem?_map,
      List.getElem?_eq_none (by simp only [List.length_range]; omega)]
    rfl

theorem legalValues_of_filled {b : Board} {c : Nat} (h : (b.get c).isSome) :
    legalValues b c = none := by
  rw [legalValues]; simp [h]

theorem legalValues_of_empty {b : Board} {c : Nat} (h : b.get c = none) :
    legalValues b c = some ((List.range' 1 (b.base * b.base)).filter (fun v =>
      ! (affCells b.base c).any (fun p => b.get p == some v))) := by
  rw [legalValues]; simp [h]

theorem legal_sorted (b : Board) (c : Nat) : SSorted ((legalValues b c).getD []) := by
  rw [legalValues]
  by_cases h : (b.get c).isSome
  · simp [h, SSorted]
  · simp only [h, if_neg, Bool.false_eq_true, Option.getD_some]
    exact List.Pairwise.sublist (List.filter_sublist _) (List.pairwise_lt_range' 1 _ 1)

theorem legal_bounds {b : Board} {c v : Nat} (h : v ∈ (legalValues b c).getD []) :
    1 ≤ v ∧ v ≤ b.base * b.base := by
  rw [legalValues] at h
  by_cases hf : (b.get c).isSome
  · simp [hf] at h
  · simp only [hf, if_neg, Bool.false_eq_true, Option.getD_some] at h
    have := List.mem_range'.mp (List.mem_of_mem_filter h)
    omega

theorem mem_legal {b : Board} {c v : Nat} (h : b.get c = none) :
    v ∈ (legalValues b c).getD [] ↔
      (1 ≤ v ∧ v ≤ b.base * b.base ∧
        ∀ p ∈ affCells b.base c, b.get p ≠ some v) := by
  rw [legalValues_of_empty h, Option.getD_some, List.mem_filter, List.mem_range'_1]
  constructor
  · rintro ⟨h1, h2⟩
    refine ⟨by omega, by omega, ?_⟩
    intro p hp hcontra
    rw [Bool.not_eq_eq_eq_not, Bool.not_true, List.any_eq_false] at h2
    have := h2 p hp
    rw [hcontra] at this; simp at this
  · rintro ⟨h1, h2, h3⟩
    refine ⟨by omega, ?_⟩
    rw [Bool.not_eq_eq_eq_not, Bool.not_true, List.any_eq_false]
    intro p hp
    have := h3 p hp
    simpa using this

theorem decodeBlock_valid {n j : Nat} (hj : j < 3 * (n * n)) :
    ValidBlock n (decodeBlock n j) := by
  rw [decodeBlock]
  by_cases h1 : j < n * n
  · rw [if_pos h1]; exact h1
  · rw [if_neg h1]
    by_cases h2 : j < 2 * (n * n)
    · rw [if_pos h2]; show j - n * n < n * n; omega
    · rw [if_neg h2]; show j - 2 * (n * n) < n * n; omega

theorem fromBoard_pv_length (b : Board) :
    (Cache.fromBoard b).pv.length = b.base * b.base * (b.base * b.base) := by
  rw [Cache.fromBoard]; simp

theorem fromBoard_cc_length (b : Board) :
    (Cache.fromBoard b).cc.length = 3 * (b.base * b.base) * (b.base * b.base) := by
  rw [Cache.fromBoard]; simp

theorem fromBoard_pvGet (b : Board) (c : Nat) :
    (Cache.fromBoard b).pvGet c =
      if c < b.base * b.base * (b.base * b.base) then legalValues b c else none := by
  rw [Cache.fromBoard, Cache.pvGet]
  exact aget_map_range

/-- The `from_board` bucket of a populated key. -/
theorem fromBoard_ccGet {b : Board} {blk : Block} {v : Nat}
    (hb : ValidBlock b.base blk) (h1 : 1 ≤ v) (h2 : v ≤ b.base * b.base) :
    Cache.ccGet b.base (Cache.fromBoard b) blk v =
      (if ((blockCells b.base blk).filter (fun c =>
          v ∈ (legalValues b c).getD [])).isEmpty = true then none
       else some ((blockCells b.base blk).filter (fun c =>
          v ∈ (legalValues b c).getD []))) := by
  rw [Cache.ccGet, Cache.fromBoard]
  show aget ((List.range _).map _) (keyIdx b.base blk v) = _
  rw [aget_map_range, if_pos (keyIdx_lt hb h1 h2)]
  rcases keyIdx_decode hb h1 h2 with ⟨hd, hm⟩
  rw [hd, hm]
  have : ∀ c : Nat, (((legalValues b c).getD []).contains v)
      = decide (v ∈ (legalValues b c).getD []) := fun c => List.elem_eq_mem _ _
  simp only [this]

/-- Any in-range slot of the `from_board` candidate array, by its raw index. -/
theorem fromBoard_cc_aget {b : Board} {j : Nat}
    (hj : j < 3 * (b.base * b.base) * (b.base * b.base)) :
    aget (Cache.fromBoard b).cc j =
      (if ((blockCells b.base (decodeBlock b.base (j / (b.base * b.base)))).filter
          (fun c => ((legalValues b c).getD []).contains (j % (b.base * b.base) + 1))).isEmpty
          = true then none
       else some ((blockCells b.base (decodeBlock b.base (j / (b.base * b.base)))).filter
          (fun c => ((legalValues b c).getD []).contains (j % (b.base * b.base) + 1)))) := by
  rw [Cache.fromBoard]
  show aget ((List.range _).map _) j = _
  rw [aget_map_range, if_pos hj]

theorem fromBoard_cc_div_valid {b : Board} {j : Nat} (hn : 0 < b.base)
    (hj : j < 3 * (b.base * b.base) * (b.base * b.base)) :
    ValidBlock b.base (decodeBlock b.base (j / (b.base * b.base))) := by
  refine decodeBlock_valid (Nat.div_lt_of_lt_mul ?_)
  have : 3 * (b.base * b.base) * (b.base * b.base)
      = (b.base * b.base) * (3 * (b.base * b.base)) := by ring
  omega

theorem fromBoard_WF {b : Board} (hn : 0 < b.base) :
    WFCache b.base (Cache.fromBoard b) := by
  refine ⟨fromBoard_pv_length b, fromBoard_cc_length b, ?_, ?_, ?_⟩
  · intro c l hl
    rw [fromBoard_pvGet] at hl
    by_cases hc : c < b.base * b.base * (b.base * b.base)
    · rw [if_pos hc] at hl
      constructor
      · have := legal_sorted b c; rwa [hl] at this
      · intro v hv
        exact legal_bounds (by rw [hl]; exact hv)
    · rw [if_neg hc] at hl; cases hl
  · intro j l hl
    by_cases hj : j < 3 * (b.base * b.base) * (b.base * b.base)
    · rw [fromBoard_cc_aget hj] at hl
      split at hl
      · cases hl
      · rw [Option.some_inj] at hl
        subst hl
        exact List.Pairwise.sublist (List.filter_sublist _)
          (ssorted_blockCells hn (fromBoard_cc_div_valid hn hj))
    · rw [Cache.fromBoard] at hl
      replace hl : aget ((List.range (3 * (b.base * b.base) * (b.base * b.base))).map _) j
          = some l := hl
      rw [aget_map_range, if_neg hj] at hl
      cases hl
  · intro blk v l hvb h1 h2 hl
    rw [fromBoard_ccGet hvb h1 h2] at hl
    split at hl
    · cases hl
    · rw [Option.some_inj] at hl
      subst hl
      intro p hp
      exact List.mem_of_mem_filter hp

theorem fromBoard_Cons {b : Board} (hn : 0 < b.base) :
    ConsCache b.base (Cache.fromBoard b) := by
  intro c hc v h1 h2 blk hblk
  have hvb : ValidBlock b.base blk := validBlock_of_mem_blocksOf hn hc hblk
  rw [fromBoard_pvGet, if_pos hc, fromBoard_ccGet hvb h1 h2]
  have hcb : c ∈ blockCells b.base blk :=
    (mem_blockCells_iff_blocksOf hn hc hvb).mpr hblk
  split
  · rename_i he
    simp only [Option.getD_none, List.not_mem_nil, iff_false]
    intro hv
    rw [List.isEmpty_iff] at he
    have : c ∈ (blockCells b.base blk).filter
        (fun q => decide (v ∈ (legalValues b q).getD [])) := by
      rw [List.mem_filter]; exact ⟨hcb, by simpa using hv⟩
    rw [he] at this; cases this
  · simp only [Option.getD_some, List.mem_filter]
    constructor
    · intro hv; exact ⟨hcb, by simpa using hv⟩
    · rintro ⟨_, hv⟩; simpa using hv

theorem fromBoard_no_empty_bucket (b : Board) (j : Nat) :
    aget (Cache.fromBoard b).cc j ≠ some [] := by
  intro hl
  by_cases hj : j < 3 * (b.base * b.base) * (b.base * b.base)
  · rw [fromBoard_cc_aget hj] at hl
    split at hl
    · cases hl
    · rename_i he
      rw [Option.some_inj] at hl
      rw [hl] at he
      simp at he
  · rw [Cache.fromBoard] at hl
    replace hl : aget ((List.range (3 * (b.base * b.base) * (b.base * b.base))).map _) j
        = some [] := hl
    rw [aget_map_range, if_neg hj] at hl
    cases hl

/-! ## Pointwise access lemmas for the cache updates -/

theorem pvSet_pv_length (s : Cache) (c : Nat) (x : Option (List Nat)) :
    ((s.pvSet c x).pv).length = s.pv.length := by simp [Cache.pvSet]

theorem pvSet_cc (s : Cache) (c : Nat) (x : Option (List Nat)) :
    (s.pvSet c x).cc = s.cc := rfl

theorem ccSet_pv (n : Nat) (s : Cache) (blk : Block) (v : Nat)
    (x : Option (List Nat)) : (Cache.ccSet n s blk v x).pv = s.pv := rfl

theorem ccSet_cc_length (n : Nat) (s : Cache) (blk : Block) (v : Nat)
    (x : Option (List Nat)) : (Cache.ccSet n s blk v x).cc.length = s.cc.length := by
  simp [Cache.ccSet]

theorem pvGet_pvSet_self {s : Cache} {c : Nat} (h : c < s.pv.length)
    (x : Option (List Nat)) : (s.pvSet c x).pvGet c = x :=
  aget_set_self h x

theorem pvGet_pvSet_ne {s : Cache} {c q : Nat} (h : c ≠ q)
    (x : Option (List Nat)) : (s.pvSet c x).pvGet q = s.pvGet q :=
  aget_set_ne h x

theorem ccGet_ccSet_self {n : Nat} {s : Cache} {blk : Block} {v : Nat}
    (h : keyIdx n blk v < s.cc.length) (x : Option (List Nat)) :
    Cache.ccGet n (Cache.ccSet n s blk v x) blk v = x :=
  aget_set_self h x

theorem cc_aget_ccSet_ne {n : Nat} {s : Cache} {blk : Block} {v j : Nat}
    (h : keyIdx n blk v ≠ j) (x : Option (List Nat)) :
    aget (Cache.ccSet n s blk v x).cc j = aget s.cc j :=
  aget_set_ne h x

theorem cc_aget_ccSet_self {n : Nat} {s : Cache} {blk : Block} {v : Nat}
    (h : keyIdx n blk v < s.cc.length) (x : Option (List Nat)) :
    aget (Cache.ccSet n s blk v x).cc (keyIdx n blk v) = x :=
  aget_set_self h x

theorem ccGet_ccSet_ne {n : Nat} {s : Cache} {blk blk' : Block} {v v' : Nat}
    (h : keyIdx n blk v ≠ keyIdx n blk' v') (x : Option (List Nat)) :
    Cache.ccGet n (Cache.ccSet n s blk v x) blk' v' = Cache.ccGet n s blk' v' :=
  aget_set_ne h x

/-! ## `remove_candidate` preserves well-formedness and consistency -/

theorem rcStep_pv (n value cell : Nat) (t : Cache) (b : Block) :
    (rcStep n value cell t b).pv = t.pv := by
  rw [rcStep]
  cases h : Cache.ccGet n t b value <;> simp [Cache.ccSet]

theorem rcStep_cc_length (n value cell : Nat) (t : Cache) (b : Block) :
    (rcStep n value cell t b).cc.length = t.cc.length := by
  rw [rcStep]
  cases h : Cache.ccGet n t b value <;> simp [Cache.ccSet]

theorem rcStep_cc_aget (n value cell : Nat) (t : Cache) (b : Block) (j : Nat) :
    aget (rcStep n value cell t b).cc j =
      if keyIdx n b value = j ∧ keyIdx n b value < t.cc.length then
        (aget t.cc j).map (serase cell)
      else aget t.cc j := by
  rw [rcStep]
  by_cases hj : keyIdx n b value = j ∧ keyIdx n b value < t.cc.length
  · rw [if_pos hj]
    obtain ⟨hj1, hj2⟩ := hj
    cases h : Cache.ccGet n t b value with
    | none =>
      rw [Cache.ccGet, hj1] at h
      rw [h]; rfl
    | some cells =>
      show aget (Cache.ccSet n t b value (some (serase cell cells))).cc j = _
      rw [Cache.ccSet]
      rw [show (Cache.mk t.pv (t.cc.set (keyIdx n b value) (some (serase cell cells)))).cc
        = t.cc.set (keyIdx n b value) (some (serase cell cells)) from rfl]
      rw [← hj1, aget_set_self hj2]
      rw [Cache.ccGet] at h
      rw [h]; rfl
  · rw [if_neg hj]
    rw [Classical.not_and_iff_or_not_not] at hj
    cases h : Cache.ccGet n t b value with
    | none => rfl
    | some cells =>
      show aget (Cache.ccSet n t b value (some (serase cell cells))).cc j = _
      rcases hj with hj | hj
      · exact cc_aget_ccSet_ne hj _
      · rw [Cache.ccGet] at h
        have := aget_oob (show t.cc.length ≤ keyIdx n b value by omega)
        rw [this] at h; cases h

theorem removeCandidate_id {n value cell : Nat} {s : Cache}
    (h : ∀ opts, s.pvGet cell = some opts → value ∉ opts) :
    removeCandidate n value cell s = s := by
  rw [removeCandidate]
  cases hp : s.pvGet cell with
  | none => rfl
  | some opts =>
    have := h opts hp
    dsimp only
    rw [if_neg (by simpa using this)]

theorem removeCandidate_main {n value cell : Nat} {s : Cache} {opts : List Nat}
    (hp : s.pvGet cell = some opts) (hv : value ∈ opts) :
    removeCandidate n value cell s =
      (blocksOf n cell).foldl (rcStep n value cell)
        (s.pvSet cell (some (serase value opts))) := by
  rw [removeCandidate, hp]
  dsimp only
  rw [if_pos (by simpa using hv)]

theorem rcFold_pv (n value cell : Nat) (bl : List Block) (t : Cache) :
    (bl.foldl (rcStep n value cell) t).pv = t.pv := by
  induction bl generalizing t with
  | nil => rfl
  | cons b rest ih => rw [List.foldl_cons, ih, rcStep_pv]

theorem rcFold_cc_length (n value cell : Nat) (bl : List Block) (t : Cache) :
    (bl.foldl (rcStep n value cell) t).cc.length = t.cc.length := by
  induction bl generalizing t with
  | nil => rfl
  | cons b rest ih => rw [List.foldl_cons, ih, rcStep_cc_length]

/-- Slot-wise effect of the `remove_candidate` bucket loop, assuming the
blocks in the list carry pairwise different keys for `value`. -/
theorem rcFold_cc_aget (n value cell : Nat) (bl : List Block) (t : Cache) (j : Nat)
    (hd : List.Pairwise (fun b b' => keyIdx n b value ≠ keyIdx n b' value) bl) :
    aget (bl.foldl (rcStep n value cell) t).cc j =
      if ∃ b ∈ bl, keyIdx n b value = j ∧ keyIdx n b value < t.cc.length then
        (aget t.cc j).map (serase cell)
      else aget t.cc j := by
  induction bl generalizing t with
  | nil => simp
  | cons b rest ih =>
    rw [List.foldl_cons]
    rw [List.pairwise_cons] at hd
    rw [ih _ hd.2]
    by_cases hb : keyIdx n b value = j ∧ keyIdx n b value < t.cc.length
    · have hrest : ¬ ∃ b' ∈ rest, keyIdx n b' value = j ∧
          keyIdx n b' value < (rcStep n value cell t b).cc.length := by
        rintro ⟨b', hb', hj', _⟩
        exact hd.1 b' hb' (by omega)
      rw [if_neg hrest, if_pos ⟨b, List.mem_cons_self _ _, hb⟩,
        rcStep_cc_aget, if_pos hb]
    · have heq : (∃ b' ∈ rest, keyIdx n b' value = j ∧
          keyIdx n b' value < (rcStep n value cell t b).cc.length) ↔
          (∃ b' ∈ b :: rest, keyIdx n b' value = j ∧ keyIdx n b' value < t.cc.length) := by
        rw [rcStep_cc_length]
        constructor
        · rintro ⟨b', hb', hj'⟩
          exact ⟨b', List.mem_cons_of_mem _ hb', hj'⟩
        · rintro ⟨b', hb', hj'⟩
          rcases List.mem_cons.mp hb' with rfl | hb'
          · exact absurd hj' hb
          · exact ⟨b', hb', hj'⟩
      by_cases hr : ∃ b' ∈ rest, keyIdx n b' value = j ∧
          keyIdx n b' value < (rcStep n value cell t b).cc.length
      · rw [if_pos hr, if_pos (heq.mp hr), rcStep_cc_aget, if_neg hb]
      · rw [if_neg hr, if_neg (fun hx => hr (heq.mpr hx)), rcStep_cc_aget, if_neg hb]

/-- The three blocks of a cell have pairwise different keys. -/
theorem blocksOf_keys_distinct {n cell value : Nat} (hn : 0 < n)
    (hcell : cell < n * n * (n * n)) (h1 : 1 ≤ value) (h2 : value ≤ n * n) :
    List.Pairwise (fun b b' => keyIdx n b value ≠ keyIdx n b' value)
      (blocksOf n cell) := by
  have hl := lineOf_lt hcell
  have hc := colOf_lt hn cell
  have hs := squareOf_lt hn hcell
  rw [blocksOf]
  refine List.Pairwise.cons ?_ (List.Pairwise.cons ?_ (List.pairwise_singleton _ _))
  · intro b hb he
    have : Block.line (lineOf n cell) = b := (keyIdx_inj (by exact hl) (by
      rcases List.mem_cons.mp hb with rfl | hb
      · exact hc
      · rw [List.mem_singleton] at hb; subst hb; exact hs) h1 h2 h1 h2 he).1
    rcases List.mem_cons.mp hb with rfl | hb
    · cases this
    · rw [List.mem_singleton] at hb; subst hb; cases this
  · intro b hb he
    rw [List.mem_singleton] at hb; subst hb
    have : Block.col (colOf n cell) = Block.square (squareOf n cell) :=
      (keyIdx_inj (by exact hc) (by exact hs) h1 h2 h1 h2 he).1
    cases this

theorem removeCandidate_WF {n value cell : Nat} {s : Cache}
    (hw : WFCache n s) : WFCache n (removeCandidate n value cell s) := by
  obtain ⟨hpl, hcl, hpv, hccs, hccb⟩ := hw
  cases hp : s.pvGet cell with
  | none => rw [removeCandidate_id (by intro o ho; rw [hp] at ho; cases ho)]; exact ⟨hpl, hcl, hpv, hccs, hccb⟩
  | some opts =>
    by_cases hv : value ∈ opts
    · rw [removeCandidate_main hp hv]
      have hview := rcFold_pv n value cell (blocksOf n cell)
        (s.pvSet cell (some (serase value opts)))
      have hclen := rcFold_cc_length n value cell (blocksOf n cell)
        (s.pvSet cell (some (serase value opts)))
      refine ⟨?_, ?_, ?_, ?_, ?_⟩
      · rw [hview]; rw [pvSet_pv_length]; exact hpl
      · rw [hclen]; show s.cc.length = _; exact hcl
      · intro c l hl
        have : (List.foldl (rcStep n value cell) (s.pvSet cell (some (serase value opts)))
            (blocksOf n cell)).pvGet c
            = (s.pvSet cell (some (serase value opts))).pvGet c := by
          rw [Cache.pvGet, hview]; rfl
        rw [this] at hl
        by_cases hc : cell = c
        · subst hc
          have hlt : cell < s.pv.length := by
            by_contra hge
            rw [Cache.pvGet, aget_oob (by omega)] at hp; cases hp
          rw [pvGet_pvSet_self hlt] at hl
          cases hl
          obtain ⟨hs1, hs2⟩ := hpv cell opts hp
          exact ⟨serase_sorted hs1, fun w hw => hs2 w ((mem_serase hs1).mp hw).1⟩
        · rw [pvGet_pvSet_ne hc] at hl
          exact hpv c l hl
      · intro j l hl
        rcases Nat.eq_zero_or_pos n with rfl | hn
        · have : cell < 0 := by
            by_contra hge
            have : s.pvGet cell = none := by
              rw [Cache.pvGet, aget_oob]; rw [hpl]; omega
            rw [this] at hp; cases hp
          omega
        · have hcell : cell < n * n * (n * n) := by
            by_contra hge
            have : s.pvGet cell = none := by
              rw [Cache.pvGet, aget_oob]; rw [hpl]; omega
            rw [this] at hp; cases hp
          obtain ⟨hb1, hb2⟩ := (hpv cell opts hp).2 value hv
          rw [rcFold_cc_aget _ _ _ _ _ _ (blocksOf_keys_distinct hn hcell hb1 hb2)]
            at hl
          split at hl
          · rw [pvSet_cc] at hl
            cases ho : aget s.cc j with
            | none => rw [ho] at hl; cases hl
            | some l0 =>
              rw [ho] at hl
              cases hl
              exact serase_sorted (hccs j l0 ho)
          · rw [pvSet_cc] at hl
            exact hccs j l hl
      · intro blk v l hvb h1 h2 hl
        rcases Nat.eq_zero_or_pos n with rfl | hn
        · rcases blk with i | i | i <;>
            (exact absurd (show i < 0 * 0 from hvb) (by omega))
        · have hcell : cell < n * n * (n * n) := by
            by_contra hge
            have : s.pvGet cell = none := by
              rw [Cache.pvGet, aget_oob]; rw [hpl]; omega
            rw [this] at hp; cases hp
          obtain ⟨hb1, hb2⟩ := (hpv cell opts hp).2 value hv
          rw [Cache.ccGet, rcFold_cc_aget _ _ _ _ _ _
            (blocksOf_keys_distinct hn hcell hb1 hb2)] at hl
          split at hl
          · rw [pvSet_cc] at hl
            cases ho : aget s.cc (keyIdx n blk v) with
            | none => rw [ho] at hl; cases hl
            | some l0 =>
              rw [ho] at hl
              cases hl
              intro p hpm
              have hmem := (mem_serase (hccs _ l0 ho)).mp hpm
              exact hccb blk v l0 hvb h1 h2 (by rw [Cache.ccGet]; exact ho) p hmem.1
          · rw [pvSet_cc] at hl
            exact hccb blk v l hvb h1 h2 (by rw [Cache.ccGet]; exact hl)
    · rw [removeCandidate_id (fun o ho => by rw [hp] at ho; cases ho; exact hv)]
      exact ⟨hpl, hcl, hpv, hccs, hccb⟩


theorem removeCandidate_Cons {n value cell : Nat} {s : Cache}
    (hw : WFCache n s) (hc : ConsCache n s) :
    ConsCache n (removeCandidate n value cell s) := by
  obtain ⟨hpl, hcl, hpv, hccs, hccb⟩ := hw
  cases hp : s.pvGet cell with
  | none =>
    rw [removeCandidate_id (by intro o ho; rw [hp] at ho; cases ho)]; exact hc
  | some opts =>
    by_cases hv : value ∈ opts
    · rw [removeCandidate_main hp hv]
      rcases Nat.eq_zero_or_pos n with rfl | hn
      · exfalso
        have : s.pvGet cell = none := by
          rw [Cache.pvGet, aget_oob]; rw [hpl]; omega
        rw [this] at hp; cases hp
      have hcell : cell < n * n * (n * n) := by
        by_contra hge
        have : s.pvGet cell = none := by
          rw [Cache.pvGet, aget_oob]; rw [hpl]; omega
        rw [this] at hp; cases hp
      obtain ⟨hb1, hb2⟩ := (hpv cell opts hp).2 value hv
      have hsopts := (hpv cell opts hp).1
      intro q hq w hw1 hw2 blk hblk
      have hvq := validBlock_of_mem_blocksOf hn hq hblk
      have hpvq : (List.foldl (rcStep n value cell)
          (s.pvSet cell (some (serase value opts))) (blocksOf n cell)).pvGet q
          = (s.pvSet cell (some (serase value opts))).pvGet q := by
        rw [Cache.pvGet, rcFold_pv]; rfl
      rw [Cache.ccGet, rcFold_cc_aget _ _ _ _ _ _
        (blocksOf_keys_distinct hn hcell hb1 hb2), hpvq, pvSet_cc]
      by_cases hcond : ∃ b ∈ blocksOf n cell, keyIdx n b value = keyIdx n blk w ∧
          keyIdx n b value < s.cc.length
      · rw [if_pos hcond]
        obtain ⟨b, hbm, hkey, _⟩ := hcond
        have hvb := validBlock_of_mem_blocksOf hn hcell hbm
        obtain ⟨hbeq, hveq⟩ := keyIdx_inj hvb hvq hb1 hb2 hw1 hw2 hkey
        subst hbeq; subst hveq
        by_cases hqc : cell = q
        · subst hqc
          rw [pvGet_pvSet_self (by omega)]
          constructor
          · intro hmem
            exact absurd ((mem_serase hsopts).mp hmem).2 (by simp)
          · intro hmem
            cases hbk : aget s.cc (keyIdx n b value) with
            | none => rw [hbk] at hmem; simp at hmem
            | some l0 =>
              rw [hbk] at hmem
              exact absurd ((mem_serase (hccs _ l0 hbk)).mp hmem).2 (by simp)
        · rw [pvGet_pvSet_ne hqc]
          have horig := hc q hq value hb1 hb2 b hblk
          rw [Cache.ccGet] at horig
          cases hbk : aget s.cc (keyIdx n b value) with
          | none => rw [hbk] at horig; simpa using horig
          | some l0 =>
            rw [hbk] at horig
            rw [horig]
            show q ∈ l0 ↔ q ∈ serase cell l0
            rw [mem_serase (hccs _ l0 hbk)]
            exact (and_iff_left (fun he => hqc he.symm)).symm
      · rw [if_neg hcond]
        have horig := hc q hq w hw1 hw2 blk hblk
        rw [Cache.ccGet] at horig
        by_cases hqc : cell = q
        · subst hqc
          rw [pvGet_pvSet_self (by omega)]
          have hwv : w ≠ value := by
            intro he; subst he
            exact hcond ⟨blk, hblk, rfl, by
              rw [hcl]; exact keyIdx_lt hvq hw1 hw2⟩
          rw [hp] at horig
          show w ∈ serase value opts ↔ _
          rw [mem_serase hsopts]
          exact (and_iff_left hwv).trans horig
        · rw [pvGet_pvSet_ne hqc]
          exact horig
    · rw [removeCandidate_id (fun o ho => by rw [hp] at ho; cases ho; exact hv)]
      exact hc

/-! ## `add_candidate` / `reset_candidates` preserve well-formedness and
consistency -/

theorem acFold_pv (n cell v : Nat) (bl : List Block) (t : Cache) :
    (bl.foldl (fun t2 b => Cache.ccSet n t2 b v
      (some (sinsert cell ((Cache.ccGet n t2 b v).getD [])))) t).pv = t.pv := by
  induction bl generalizing t with
  | nil => rfl
  | cons b rest ih => rw [List.foldl_cons, ih]; rfl

theorem acFold_cc_length (n cell v : Nat) (bl : List Block) (t : Cache) :
    (bl.foldl (fun t2 b => Cache.ccSet n t2 b v
      (some (sinsert cell ((Cache.ccGet n t2 b v).getD [])))) t).cc.length
      = t.cc.length := by
  induction bl generalizing t with
  | nil => rfl
  | cons b rest ih => rw [List.foldl_cons, ih, ccSet_cc_length]

theorem acSet_cc_aget (n cell v : Nat) (t : Cache) (b : Block) (j : Nat) :
    aget (Cache.ccSet n t b v
        (some (sinsert cell ((Cache.ccGet n t b v).getD [])))).cc j =
      if keyIdx n b v = j ∧ keyIdx n b v < t.cc.length then
        some (sinsert cell ((aget t.cc j).getD []))
      else aget t.cc j := by
  by_cases he : keyIdx n b v = j
  · by_cases hlen : keyIdx n b v < t.cc.length
    · rw [if_pos ⟨he, hlen⟩]
      show aget (t.cc.set (keyIdx n b v) _) j = _
      rw [← he, aget_set_self hlen, Cache.ccGet]
    · rw [if_neg (fun hx => hlen hx.2)]
      have h1 : aget t.cc j = none := aget_oob (by omega)
      have h2 : aget (Cache.ccSet n t b v
          (some (sinsert cell ((Cache.ccGet n t b v).getD [])))).cc j = none := by
        refine aget_oob ?_
        rw [ccSet_cc_length]; omega
      rw [h1, h2]
  · rw [if_neg (fun hx => he hx.1)]
    exact cc_aget_ccSet_ne he _

theorem acFold_cc_aget (n cell v : Nat) (bl : List Block) (t : Cache) (j : Nat)
    (hd : List.Pairwise (fun b b' => keyIdx n b v ≠ keyIdx n b' v) bl) :
    aget ((bl.foldl (fun t2 b => Cache.ccSet n t2 b v
        (some (sinsert cell ((Cache.ccGet n t2 b v).getD [])))) t)).cc j =
      if ∃ b ∈ bl, keyIdx n b v = j ∧ keyIdx n b v < t.cc.length then
        some (sinsert cell ((aget t.cc j).getD []))
      else aget t.cc j := by
  induction bl generalizing t with
  | nil => simp
  | cons b rest ih =>
    rw [List.foldl_cons]
    rw [List.pairwise_cons] at hd
    rw [ih _ hd.2]
    by_cases hb : keyIdx n b v = j ∧ keyIdx n b v < t.cc.length
    · have hrest : ¬ ∃ b' ∈ rest, keyIdx n b' v = j ∧
          keyIdx n b' v < (Cache.ccSet n t b v
            (some (sinsert cell ((Cache.ccGet n t b v).getD [])))).cc.length := by
        rintro ⟨b', hb', hj', _⟩
        exact hd.1 b' hb' (by omega)
      rw [if_neg hrest, if_pos ⟨b, List.mem_cons_self _ _, hb⟩, acSet_cc_aget,
        if_pos hb]
    · have heq : (∃ b' ∈ rest, keyIdx n b' v = j ∧
          keyIdx n b' v < (Cache.ccSet n t b v
            (some (sinsert cell ((Cache.ccGet n t b v).getD [])))).cc.length) ↔
          (∃ b' ∈ b :: rest, keyIdx n b' v = j ∧ keyIdx n b' v < t.cc.length) := by
        rw [ccSet_cc_length]
        constructor
        · rintro ⟨b', hb', hj'⟩
          exact ⟨b', List.mem_cons_of_mem _ hb', hj'⟩
        · rintro ⟨b', hb', hj'⟩
          rcases List.mem_cons.mp hb' with rfl | hb'
          · exact absurd hj' hb
          · exact ⟨b', hb', hj'⟩
      by_cases hr : ∃ b' ∈ rest, keyIdx n b' v = j ∧
          keyIdx n b' v < (Cache.ccSet n t b v
            (some (sinsert cell ((Cache.ccGet n t b v).getD [])))).cc.length
      · rw [if_pos hr, if_pos (heq.mp hr), acSet_cc_aget, if_neg hb]
      · rw [if_neg hr, if_neg (fun hx => hr (heq.mpr hx)), acSet_cc_aget, if_neg hb]

theorem addCandidate_pv (n cell : Nat) (t : Cache) (v : Nat) :
    (addCandidate n cell t v).pv = t.pv := acFold_pv n cell v (blocksOf n cell) t

theorem addCandidate_cc_length (n cell : Nat) (t : Cache) (v : Nat) :
    (addCandidate n cell t v).cc.length = t.cc.length :=
  acFold_cc_length n cell v (blocksOf n cell) t

theorem addCandidate_cc_aget {n cell : Nat} (t : Cache) {v : Nat} (j : Nat)
    (hn : 0 < n) (hcell : cell < n * n * (n * n)) (h1 : 1 ≤ v) (h2 : v ≤ n * n) :
    aget (addCandidate n cell t v).cc j =
      if ∃ b ∈ blocksOf n cell, keyIdx n b v = j ∧ keyIdx n b v < t.cc.length then
        some (sinsert cell ((aget t.cc j).getD []))
      else aget t.cc j :=
  acFold_cc_aget n cell v (blocksOf n cell) t j
    (blocksOf_keys_distinct hn hcell h1 h2)

theorem resetFold_pv (n cell : Nat) (options : List Nat) (s : Cache) :
    (options.foldl (addCandidate n cell) s).pv = s.pv := by
  induction options generalizing s with
  | nil => rfl
  | cons v rest ih => rw [List.foldl_cons, ih, addCandidate_pv]

theorem resetFold_cc_length (n cell : Nat) (options : List Nat) (s : Cache) :
    (options.foldl (addCandidate n cell) s).cc.length = s.cc.length := by
  induction options generalizing s with
  | nil => rfl
  | cons v rest ih => rw [List.foldl_cons, ih, addCandidate_cc_length]

theorem resetFold_cc_aget {n cell : Nat} {options : List Nat} (s : Cache) (j : Nat)
    (hn : 0 < n) (hcell : cell < n * n * (n * n))
    (hb : ∀ v ∈ options, 1 ≤ v ∧ v ≤ n * n) (hnd : options.Nodup) :
    aget (options.foldl (addCandidate n cell) s).cc j =
      if ∃ v ∈ options, ∃ b ∈ blocksOf n cell, keyIdx n b v = j ∧
          keyIdx n b v < s.cc.length then
        some (sinsert cell ((aget s.cc j).getD []))
      else aget s.cc j := by
  induction options generalizing s with
  | nil => simp
  | cons v rest ih =>
    rw [List.foldl_cons]
    have hvb := hb v (List.mem_cons_self _ _)
    have hnd' := List.nodup_cons.mp hnd
    rw [ih (addCandidate n cell s v) (fun w hw => hb w (List.mem_cons_of_mem _ hw)) hnd'.2]
    by_cases ha : ∃ b ∈ blocksOf n cell, keyIdx n b v = j ∧ keyIdx n b v < s.cc.length
    · have hrest : ¬ ∃ v' ∈ rest, ∃ b' ∈ blocksOf n cell, keyIdx n b' v' = j ∧
          keyIdx n b' v' < (addCandidate n cell s v).cc.length := by
        rintro ⟨v', hv', b', hb', hk', _⟩
        obtain ⟨b, hbm, hk, _⟩ := ha
        have hvb' := hb v' (List.mem_cons_of_mem _ hv')
        have := keyIdx_inj (validBlock_of_mem_blocksOf hn hcell hb')
          (validBlock_of_mem_blocksOf hn hcell hbm) hvb'.1 hvb'.2 hvb.1 hvb.2
          (hk'.trans hk.symm)
        exact hnd'.1 (this.2 ▸ hv')
      rw [if_neg hrest, addCandidate_cc_aget _ _ hn hcell hvb.1 hvb.2, if_pos ha,
        if_pos ⟨v, List.mem_cons_self _ _, ha⟩]
    · have heq : (∃ v' ∈ rest, ∃ b' ∈ blocksOf n cell, keyIdx n b' v' = j ∧
          keyIdx n b' v' < (addCandidate n cell s v).cc.length) ↔
          (∃ v' ∈ v :: rest, ∃ b' ∈ blocksOf n cell, keyIdx n b' v' = j ∧
            keyIdx n b' v' < s.cc.length) := by
        constructor
        · rintro ⟨v', hv', b', hb', hk', hlen'⟩
          rw [addCandidate_cc_length] at hlen'
          exact ⟨v', List.mem_cons_of_mem _ hv', b', hb', hk', hlen'⟩
        · rintro ⟨v', hv', b', hb', hk', hlen'⟩
          rcases List.mem_cons.mp hv' with rfl | hv'
          · exact absurd ⟨b', hb', hk', hlen'⟩ ha
          · exact ⟨v', hv', b', hb', hk',
              by rw [addCandidate_cc_length]; exact hlen'⟩
      by_cases hr : ∃ v' ∈ rest, ∃ b' ∈ blocksOf n cell, keyIdx n b' v' = j ∧
          keyIdx n b' v' < (addCandidate n cell s v).cc.length
      · rw [if_pos hr, if_pos (heq.mp hr),
          addCandidate_cc_aget _ _ hn hcell hvb.1 hvb.2, if_neg ha]
      · rw [if_neg hr, if_neg (fun hx => hr (heq.mpr hx)),
          addCandidate_cc_aget _ _ hn hcell hvb.1 hvb.2, if_neg ha]

theorem resetCandidates_WF {n cell : Nat} {options : List Nat} {s : Cache}
    (hw : WFCache n s) (hcell : cell < n * n * (n * n))
    (hso : SSorted options) (hbo : ∀ w ∈ options, 1 ≤ w ∧ w ≤ n * n) :
    WFCache n (resetCandidates n cell options s) := by
  obtain ⟨hpl, hcl, hpv, hccs, hccb⟩ := hw
  have hn : 0 < n := by
    rcases Nat.eq_zero_or_pos n with rfl | hn
    · omega
    · exact hn
  have hnd : options.Nodup :=
    List.Pairwise.imp (fun h => Nat.ne_of_lt h) hso
  refine ⟨?_, ?_, ?_, ?_, ?_⟩
  · show ((options.foldl (addCandidate n cell) s).pvSet cell
      (some options)).pv.length = _
    rw [pvSet_pv_length, resetFold_pv]; exact hpl
  · show (options.foldl (addCandidate n cell) s).cc.length = _
    rw [resetFold_cc_length]; exact hcl
  · intro c l hl
    by_cases hqc : cell = c
    · subst hqc
      have hlt : cell < (options.foldl (addCandidate n cell) s).pv.length := by
        rw [resetFold_pv, hpl]; exact hcell
      rw [show (resetCandidates n cell options s).pvGet cell
        = ((options.foldl (addCandidate n cell) s).pvSet cell
          (some options)).pvGet cell from rfl, pvGet_pvSet_self hlt] at hl
      cases hl
      exact ⟨hso, hbo⟩
    · rw [show (resetCandidates n cell options s).pvGet c
        = ((options.foldl (addCandidate n cell) s).pvSet cell
          (some options)).pvGet c from rfl, pvGet_pvSet_ne hqc,
        Cache.pvGet, resetFold_pv] at hl
      exact hpv c l hl
  · intro j l hl
    have hl' : aget (options.foldl (addCandidate n cell) s).cc j = some l := hl
    rw [resetFold_cc_aget s j hn hcell hbo hnd] at hl'
    split at hl'
    · cases hl'
      refine sinsert_sorted ?_
      cases haj : aget s.cc j with
      | none => exact List.Pairwise.nil
      | some l0 => exact hccs j l0 haj
    · exact hccs j l hl'
  · intro blk v l hvb h1 h2 hl
    have hl' : aget (options.foldl (addCandidate n cell) s).cc (keyIdx n blk v)
        = some l := hl
    rw [resetFold_cc_aget s _ hn hcell hbo hnd] at hl'
    split at hl'
    · rename_i hex
      cases hl'
      intro p hp
      rcases mem_sinsert.mp hp with rfl | hp
      · obtain ⟨v', hv', b, hbm, hk, _⟩ := hex
        have hvb' := hbo v' hv'
        have := keyIdx_inj (validBlock_of_mem_blocksOf hn hcell hbm) hvb
          hvb'.1 hvb'.2 h1 h2 hk
        exact (mem_blockCells_iff_blocksOf hn hcell hvb).mpr (this.1 ▸ hbm)
      · cases haj : aget s.cc (keyIdx n blk v) with
        | none => rw [haj] at hp; cases hp
        | some l0 =>
          rw [haj] at hp
          exact hccb blk v l0 hvb h1 h2 haj p hp
    · exact hccb blk v l hvb h1 h2 hl'

theorem resetCandidates_Cons {n cell : Nat} {options : List Nat} {s : Cache}
    (hw : WFCache n s) (hc : ConsCache n s) (hcell : cell < n * n * (n * n))
    (hso : SSorted options) (hbo : ∀ w ∈ options, 1 ≤ w ∧ w ≤ n * n)
    (hsub : ∀ w ∈ (s.pvGet cell).getD [], w ∈ options) :
    ConsCache n (resetCandidates n cell options s) := by
  obtain ⟨hpl, hcl, hpv, hccs, hccb⟩ := hw
  have hn : 0 < n := by
    rcases Nat.eq_zero_or_pos n with rfl | hn
    · omega
    · exact hn
  have hnd : options.Nodup :=
    List.Pairwise.imp (fun h => Nat.ne_of_lt h) hso
  intro q hq w hw1 hw2 blk hblk
  have hvq := validBlock_of_mem_blocksOf hn hq hblk
  show w ∈ (((options.foldl (addCandidate n cell) s).pvSet cell
      (some options)).pvGet q).getD [] ↔
    q ∈ (aget ((options.foldl (addCandidate n cell) s).pvSet cell
      (some options)).cc (keyIdx n blk w)).getD []
  rw [pvSet_cc, resetFold_cc_aget s _ hn hcell hbo hnd]
  have hcond : (∃ v ∈ options, ∃ b ∈ blocksOf n cell, keyIdx n b v = keyIdx n blk w ∧
      keyIdx n b v < s.cc.length) ↔ (w ∈ options ∧ blk ∈ blocksOf n cell) := by
    constructor
    · rintro ⟨v', hv', b, hbm, hk, _⟩
      have hvb' := hbo v' hv'
      have := keyIdx_inj (validBlock_of_mem_blocksOf hn hcell hbm) hvq
        hvb'.1 hvb'.2 hw1 hw2 hk
      exact ⟨this.2 ▸ hv', this.1 ▸ hbm⟩
    · rintro ⟨hwo, hbc⟩
      exact ⟨w, hwo, blk, hbc, rfl, by rw [hcl]; exact keyIdx_lt hvq hw1 hw2⟩
  by_cases hqc : cell = q
  · subst hqc
    have hlt : cell < (options.foldl (addCandidate n cell) s).pv.length := by
      rw [resetFold_pv, hpl]; exact hcell
    rw [pvGet_pvSet_self hlt]
    by_cases hwo : w ∈ options
    · rw [if_pos (hcond.mpr ⟨hwo, hblk⟩)]
      exact iff_of_true hwo (mem_sinsert.mpr (Or.inl rfl))
    · rw [if_neg (fun hx => hwo (hcond.mp hx).1)]
      refine iff_of_false hwo ?_
      intro hmem
      have horig := hc cell hq w hw1 hw2 blk hblk
      rw [Cache.ccGet] at horig
      exact hwo (hsub w (horig.mpr hmem))
  · have hpq : (((options.foldl (addCandidate n cell) s).pvSet cell
        (some options)).pvGet q) = s.pvGet q := by
      rw [pvGet_pvSet_ne hqc, Cache.pvGet, resetFold_pv]; rfl
    rw [hpq]
    have horig := hc q hq w hw1 hw2 blk hblk
    rw [Cache.ccGet] at horig
    by_cases hhit : ∃ v ∈ options, ∃ b ∈ blocksOf n cell,
        keyIdx n b v = keyIdx n blk w ∧ keyIdx n b v < s.cc.length
    · rw [if_pos hhit]
      rw [horig]
      show q ∈ (aget s.cc (keyIdx n blk w)).getD [] ↔ q ∈ sinsert cell _
      rw [mem_sinsert]
      constructor
      · exact fun h => Or.inr h
      · rintro (rfl | h)
        · exact absurd rfl hqc
        · exact h
    · rw [if_neg hhit]
      exact horig

/-! ## `undo` preserves well-formedness and consistency (for balanced tokens) -/

theorem undoApply_pv_aget {n : Nat} {u : UndoSetValue} {s : Cache}
    (hlen : ∀ r ∈ u.affOpts, r.1 < s.pv.length) (c : Nat) :
    aget (undoApply n u s).pv c =
      insFold ((u.affOpts.filter (fun r => r.1 == c)).map (fun r => r.2))
        (aget (undoOpts u s).pv c) := by
  show aget (undoMovesFold n u.moves (undoAffFold u.affOpts (undoOpts u s))).pv c = _
  rw [undoMovesFold_pv, undoAffFold_pv_aget u.affOpts (undoOpts u s) c
    (by intro r hr; rw [undoOpts_pv_length]; exact hlen r hr)]

theorem undoApply_cc_aget {n : Nat} {u : UndoSetValue} {s : Cache}
    (hkey : ∀ r ∈ u.moves, keyIdx n r.2.2 r.1 < s.cc.length) (j : Nat) :
    aget (undoApply n u s).cc j =
      insFold ((u.moves.filter (fun r => keyIdx n r.2.2 r.1 == j)).map
        (fun r => r.2.1)) (aget s.cc j) := by
  show aget (undoMovesFold n u.moves (undoAffFold u.affOpts (undoOpts u s))).cc j = _
  rw [undoMovesFold_cc_aget n u.moves _ j
      (by intro r hr; rw [undoAffFold_cc, undoOpts_cc]; exact hkey r hr),
    undoAffFold_cc, undoOpts_cc]

theorem undoApply_WF {n : Nat} {u : UndoSetValue} {s : Cache}
    (hw : WFCache n s) (hbal : BalToken n u) :
    WFCache n (undoApply n u s) := by
  obtain ⟨hpl, hcl, hpv, hccs, hccb⟩ := hw
  obtain ⟨hocell, hopts, haff, hmovopt, hmoves⟩ := hbal
  have hn : 0 < n := by
    rcases Nat.eq_zero_or_pos n with rfl | h
    · omega
    · exact h
  have hlen : ∀ r ∈ u.affOpts, r.1 < s.pv.length := by
    intro r hr; rw [hpl]; exact (haff r hr).2.1
  have hkey : ∀ r ∈ u.moves, keyIdx n r.2.2 r.1 < s.cc.length := by
    intro r hr
    obtain ⟨hblk, hlt, h1, h2, _⟩ := hmoves r hr
    rw [hcl]
    exact keyIdx_lt (validBlock_of_mem_blocksOf hn hlt hblk) h1 h2
  have hbase : ∀ c, SSorted ((aget (undoOpts u s).pv c).getD []) ∧
      ∀ v ∈ (aget (undoOpts u s).pv c).getD [], 1 ≤ v ∧ v ≤ n * n := by
    intro c
    cases ho : u.opts with
    | none =>
      have hu : undoOpts u s = s := by rw [undoOpts, ho]
      rw [hu]
      cases hac : aget s.pv c with
      | none => exact ⟨List.Pairwise.nil, by intro v hv; cases hv⟩
      | some l0 => exact ⟨(hpv c l0 hac).1, (hpv c l0 hac).2⟩
    | some o =>
      have hu : undoOpts u s = s.pvSet u.optCell (some o) := by rw [undoOpts, ho]
      rw [hu]
      by_cases hqc : u.optCell = c
      · subst hqc
        rw [show aget (s.pvSet u.optCell (some o)).pv u.optCell = some o from
          aget_set_self (by rw [hpl]; exact hocell) _]
        exact ⟨(hopts o ho).1, (hopts o ho).2⟩
      · rw [show aget (s.pvSet u.optCell (some o)).pv c = aget s.pv c from
          aget_set_ne hqc _]
        cases hac : aget s.pv c with
        | none => exact ⟨List.Pairwise.nil, by intro v hv; cases hv⟩
        | some l0 => exact ⟨(hpv c l0 hac).1, (hpv c l0 hac).2⟩
  refine ⟨?_, ?_, ?_, ?_, ?_⟩
  · show (undoMovesFold n u.moves (undoAffFold u.affOpts
      (undoOpts u s))).pv.length = _
    rw [undoMovesFold_pv, undoAffFold_pv_length, undoOpts_pv_length]; exact hpl
  · show (undoMovesFold n u.moves (undoAffFold u.affOpts
      (undoOpts u s))).cc.length = _
    rw [undoMovesFold_cc_length, undoAffFold_cc, undoOpts_cc]; exact hcl
  · intro c l hl
    rw [Cache.pvGet, undoApply_pv_aget hlen c] at hl
    have hsor := insFold_sorted
      ((u.affOpts.filter (fun r => r.1 == c)).map (fun r => r.2))
      (aget (undoOpts u s).pv c) (hbase c).1
    rw [hl] at hsor
    refine ⟨hsor, ?_⟩
    intro v hv
    have hmm := (insFold_mem ((u.affOpts.filter (fun r => r.1 == c)).map
      (fun r => r.2)) (aget (undoOpts u s).pv c) v).mp (by rw [hl]; exact hv)
    rcases hmm with h | h
    · exact (hbase c).2 v h
    · rcases List.mem_map.mp h with ⟨r, hrf, rfl⟩
      have hr := List.mem_filter.mp hrf
      obtain ⟨hne, hlt, hmv⟩ := haff r hr.1
      have hmem := hmv (Block.line (lineOf n r.1))
        (by rw [blocksOf]; exact List.mem_cons_self _ _)
      have hh := hmoves _ hmem
      exact ⟨hh.2.2.1, hh.2.2.2.1⟩
  · intro j l hl
    rw [undoApply_cc_aget hkey j] at hl
    have hbs : SSorted ((aget s.cc j).getD []) := by
      cases hac : aget s.cc j with
      | none => exact List.Pairwise.nil
      | some l0 => exact hccs j l0 hac
    have hsor := insFold_sorted
      ((u.moves.filter (fun r => keyIdx n r.2.2 r.1 == j)).map (fun r => r.2.1))
      (aget s.cc j) hbs
    rw [hl] at hsor
    exact hsor
  · intro blk v l hvb h1 h2 hl
    rw [Cache.ccGet, undoApply_cc_aget hkey _] at hl
    intro p hp
    have hmm := (insFold_mem ((u.moves.filter
      (fun r => keyIdx n r.2.2 r.1 == keyIdx n blk v)).map (fun r => r.2.1))
      (aget s.cc (keyIdx n blk v)) p).mp (by rw [hl]; exact hp)
    rcases hmm with h | h
    · cases hac : aget s.cc (keyIdx n blk v) with
      | none => rw [hac] at h; cases h
      | some l0 =>
        rw [hac] at h
        exact hccb blk v l0 hvb h1 h2 hac p h
    · rcases List.mem_map.mp h with ⟨r, hrf, rfl⟩
      have hr := List.mem_filter.mp hrf
      have hkeq : keyIdx n r.2.2 r.1 = keyIdx n blk v := by simpa using hr.2
      obtain ⟨hrblk, hrlt, hr1, hr2, _⟩ := hmoves r hr.1
      have hinj := keyIdx_inj (validBlock_of_mem_blocksOf hn hrlt hrblk) hvb
        hr1 hr2 h1 h2 hkeq
      exact (mem_blockCells_iff_blocksOf hn hrlt hvb).mpr (hinj.1 ▸ hrblk)

theorem undoApply_Cons {n : Nat} {u : UndoSetValue} {s : Cache}
    (hw : WFCache n s) (hc : ConsCache n s) (hbal : BalToken n u)
    (hnone : s.pvGet u.optCell = none) :
    ConsCache n (undoApply n u s) := by
  obtain ⟨hpl, hcl, hpv, hccs, hccb⟩ := hw
  obtain ⟨hocell, hopts, haff, hmovopt, hmoves⟩ := hbal
  have hn : 0 < n := by
    rcases Nat.eq_zero_or_pos n with rfl | h
    · omega
    · exact h
  have hlen : ∀ r ∈ u.affOpts, r.1 < s.pv.length := by
    intro r hr; rw [hpl]; exact (haff r hr).2.1
  have hkey : ∀ r ∈ u.moves, keyIdx n r.2.2 r.1 < s.cc.length := by
    intro r hr
    obtain ⟨hblk, hlt, h1, h2, _⟩ := hmoves r hr
    rw [hcl]
    exact keyIdx_lt (validBlock_of_mem_blocksOf hn hlt hblk) h1 h2
  intro q hq w hw1 hw2 blk hblk
  have hvq := validBlock_of_mem_blocksOf hn hq hblk
  rw [Cache.pvGet, undoApply_pv_aget hlen q, Cache.ccGet, undoApply_cc_aget hkey _,
    insFold_mem, insFold_mem]
  have haffq : (w ∈ (u.affOpts.filter (fun r => r.1 == q)).map (fun r => r.2))
      ↔ (q, w) ∈ u.affOpts := by
    constructor
    · intro h
      rcases List.mem_map.mp h with ⟨⟨r1, r2⟩, hrf, rfl⟩
      have hr := List.mem_filter.mp hrf
      have : r1 = q := by simpa using hr.2
      subst this
      exact hr.1
    · intro h
      exact List.mem_map.mpr ⟨(q, w), List.mem_filter.mpr ⟨h, by simp⟩, rfl⟩
  have hmovq : (q ∈ (u.moves.filter
      (fun r => keyIdx n r.2.2 r.1 == keyIdx n blk w)).map (fun r => r.2.1))
      ↔ (w, q, blk) ∈ u.moves := by
    constructor
    · intro h
      rcases List.mem_map.mp h with ⟨⟨r1, r21, r22⟩, hrf, rfl⟩
      have hr := List.mem_filter.mp hrf
      have hkeq : keyIdx n r22 r1 = keyIdx n blk w := by simpa using hr.2
      obtain ⟨hrblk, hrlt, hr1, hr2, _⟩ := hmoves _ hr.1
      have hinj := keyIdx_inj (validBlock_of_mem_blocksOf hn hrlt hrblk) hvq
        hr1 hr2 hw1 hw2 hkeq
      have h1 : r22 = blk := hinj.1
      have h2 : r1 = w := hinj.2
      subst h1; subst h2
      exact hr.1
    · intro h
      exact List.mem_map.mpr ⟨(w, q, blk), List.mem_filter.mpr ⟨h, by simp⟩, rfl⟩
  rw [haffq, hmovq]
  have hbucket := hc q hq w hw1 hw2 blk hblk
  rw [Cache.ccGet] at hbucket
  by_cases hqo : q = u.optCell
  · subst hqo
    have hbaseP : (w ∈ (aget (undoOpts u s).pv u.optCell).getD [])
        ↔ w ∈ u.opts.getD [] := by
      cases ho : u.opts with
      | none =>
        have hu : undoOpts u s = s := by rw [undoOpts, ho]
        rw [hu, show aget s.pv u.optCell = (none : Option (List Nat)) from hnone]
      | some o =>
        have hu : undoOpts u s = s.pvSet u.optCell (some o) := by rw [undoOpts, ho]
        rw [hu, show aget (s.pvSet u.optCell (some o)).pv u.optCell = some o from
          aget_set_self (by rw [hpl]; exact hocell) _]
    rw [hbaseP]
    have hnaff : ¬ (u.optCell, w) ∈ u.affOpts := by
      intro h
      exact (haff (u.optCell, w) h).1 rfl
    have hnbucket : ¬ u.optCell ∈ (aget s.cc (keyIdx n blk w)).getD [] := by
      intro h
      have := hbucket.mpr h
      rw [hnone] at this
      cases this
    constructor
    · rintro (h | h)
      · exact Or.inr (hmovopt w h blk hblk)
      · exact absurd h hnaff
    · rintro (h | h)
      · exact absurd h hnbucket
      · rcases (hmoves _ h).2.2.2.2 with ⟨_, hin⟩ | ⟨hne, _⟩
        · exact Or.inl hin
        · exact absurd rfl hne
  · have hbaseP : aget (undoOpts u s).pv q = s.pvGet q := by
      cases ho : u.opts with
      | none => rw [show undoOpts u s = s from by rw [undoOpts, ho]]; rfl
      | some o =>
        rw [show undoOpts u s = s.pvSet u.optCell (some o) from by rw [undoOpts, ho]]
        exact aget_set_ne (fun he => hqo he.symm) _
    rw [hbaseP]
    by_cases haf : (q, w) ∈ u.affOpts
    · refine iff_of_true (Or.inr haf) (Or.inr ?_)
      exact (haff (q, w) haf).2.2 blk hblk
    · constructor
      · rintro (h | h)
        · exact Or.inl (hbucket.mp h)
        · exact absurd h haf
      · rintro (h | h)
        · exact Or.inl (hbucket.mpr h)
        · rcases (hmoves _ h).2.2.2.2 with ⟨heq, _⟩ | ⟨_, hin⟩
          · exact absurd heq hqo
          · exact absurd hin haf

/-! ## `set_value`: record bookkeeping -/

theorem recsCC_append (n : Nat) (m1 m2 : List (Nat × Nat × Block)) (j : Nat) :
    recsCC n (m1 ++ m2) j = recsCC n m1 j ++ recsCC n m2 j := by
  rw [recsCC, recsCC, recsCC, List.filter_append, List.map_append]

theorem recsPV_append (a1 a2 : List (Nat × Nat)) (c : Nat) :
    recsPV (a1 ++ a2) c = recsPV a1 c ++ recsPV a2 c := by
  rw [recsPV, recsPV, recsPV, List.filter_append, List.map_append]

theorem mem_recsCC {n : Nat} {moves : List (Nat × Nat × Block)} {j q : Nat} :
    q ∈ recsCC n moves j ↔ ∃ r ∈ moves, keyIdx n r.2.2 r.1 = j ∧ r.2.1 = q := by
  rw [recsCC]
  constructor
  · intro h
    rcases List.mem_map.mp h with ⟨r, hrf, rfl⟩
    have hr := List.mem_filter.mp hrf
    exact ⟨r, hr.1, by simpa using hr.2, rfl⟩
  · rintro ⟨r, hrm, hk, rfl⟩
    exact List.mem_map.mpr ⟨r, List.mem_filter.mpr ⟨hrm, by simpa using hk⟩, rfl⟩

theorem mem_recsPV {affOpts : List (Nat × Nat)} {c w : Nat} :
    w ∈ recsPV affOpts c ↔ ∃ pr ∈ affOpts, pr.1 = c ∧ pr.2 = w := by
  rw [recsPV]
  constructor
  · intro h
    rcases List.mem_map.mp h with ⟨r, hrf, rfl⟩
    have hr := List.mem_filter.mp hrf
    exact ⟨r, hr.1, by simpa using hr.2, rfl⟩
  · rintro ⟨r, hrm, hk, rfl⟩
    exact List.mem_map.mpr ⟨r, List.mem_filter.mpr ⟨hrm, by simpa using hk⟩, rfl⟩

theorem recsCC_singleton (n : Nat) (r : Nat × Nat × Block) (j : Nat) :
    recsCC n [r] j = if keyIdx n r.2.2 r.1 = j then [r.2.1] else [] := by
  by_cases h : keyIdx n r.2.2 r.1 = j
  · rw [if_pos h, recsCC, show List.filter (fun r2 => keyIdx n r2.2.2 r2.1 == j) [r]
      = [r] from by simp [List.filter, h]]
    rfl
  · rw [if_neg h, recsCC, show List.filter (fun r2 => keyIdx n r2.2.2 r2.1 == j) [r]
      = [] from by
        cases hb : keyIdx n r.2.2 r.1 == j
        · simp [List.filter, hb]
        · exact absurd (by simpa using hb) h]
    rfl

theorem recsPV_singleton (pr : Nat × Nat) (c : Nat) :
    recsPV [pr] c = if pr.1 = c then [pr.2] else [] := by
  by_cases h : pr.1 = c
  · rw [if_pos h, recsPV, show List.filter (fun r2 => r2.1 == c) [pr] = [pr] from by
      simp [List.filter, h]]
    rfl
  · rw [if_neg h, recsPV, show List.filter (fun r2 => r2.1 == c) [pr] = [] from by
      cases hb : pr.1 == c
      · simp [List.filter, hb]
      · exact absurd (by simpa using hb) h]
    rfl

theorem recsCC_dropRecs (n value : Nat) (b : Block) (cand : List Nat) (j : Nat) :
    recsCC n (cand.map (fun p => (value, p, b))) j =
      if keyIdx n b value = j then cand else [] := by
  induction cand with
  | nil => by_cases h : keyIdx n b value = j <;> simp [recsCC, h]
  | cons p rest ih =>
    rw [List.map_cons, show ((value, p, b) :: rest.map (fun p2 => (value, p2, b)))
        = [(value, p, b)] ++ rest.map (fun p2 => (value, p2, b)) from rfl,
      recsCC_append, recsCC_singleton, ih]
    by_cases h : keyIdx n b value = j
    · rw [if_pos h, if_pos h, if_pos h]; rfl
    · rw [if_neg h, if_neg h, if_neg h]; rfl

theorem insFold_append_one (xs : List Nat) (a : Nat) (base : Option (List Nat)) :
    insFold (xs ++ [a]) base = some (sinsert a ((insFold xs base).getD [])) := by
  rw [insFold, List.foldl_append]
  rfl

theorem insFold_serase_append {recs cur target : List Nat} {x : Nat}
    (hsc : SSorted cur) (hst : SSorted target) (hx : x ∈ cur)
    (h : insFold recs (some cur) = some target) :
    insFold (recs ++ [x]) (some (serase x cur)) = some target := by
  rw [insFold_append_one]
  congr 1
  refine sorted_ext (sinsert_sorted ?_) hst ?_
  · have := insFold_sorted recs (some (serase x cur)) (by simpa using serase_sorted hsc)
    exact this
  · intro y
    rw [mem_sinsert, insFold_mem]
    have hmem := insFold_mem recs (some cur) y
    rw [h] at hmem
    simp only [Option.getD_some] at hmem ⊢
    rw [mem_serase hsc, hmem]
    constructor
    · rintro (rfl | ⟨⟨h1, _⟩ | h2⟩)
      · exact Or.inl hx
      · exact Or.inl h1
      · exact Or.inr h2
    · rintro (h1 | h2)
      · by_cases hyx : y = x
        · exact Or.inl hyx
        · exact Or.inr (Or.inl ⟨h1, hyx⟩)
      · exact Or.inr (Or.inr h2)

theorem insFold_drop {recs cand target : List Nat}
    (hst : SSorted target) (h : insFold recs (some cand) = some target)
    (hne : ¬ (recs = [] ∧ cand = [])) :
    insFold (recs ++ cand) none = some target := by
  cases hres : insFold (recs ++ cand) none with
  | none =>
    have hs := insFold_isSome (recs ++ cand) none
    rw [hres] at hs
    simp only [Option.isSome_none, Option.isSome_some, Bool.false_eq] at hs
    have : recs ++ cand = [] := by
      cases he : (recs ++ cand).isEmpty
      · rw [he] at hs; simp at hs
      · exact List.isEmpty_iff.mp he
    rw [List.append_eq_nil] at this
    exact absurd this hne
  | some l =>
    congr 1
    have hsl : SSorted l := by
      have := insFold_sorted (recs ++ cand) none (by exact List.Pairwise.nil)
      rw [hres] at this
      exact this
    refine sorted_ext hsl hst ?_
    intro y
    have h1 := insFold_mem (recs ++ cand) none y
    rw [hres] at h1
    have h2 := insFold_mem recs (some cand) y
    rw [h] at h2
    simp only [Option.getD_some, Option.getD_none, List.mem_append,
      List.not_mem_nil, false_or] at h1 h2
    rw [show (y ∈ l) = (y ∈ (some l).getD []) from rfl]
    simp only [Option.getD_some]
    rw [h1, h2]
    tauto

theorem SvCoreNA.cc_mem {n value cell : Nat} {s : Cache}
    {moves : List (Nat × Nat × Block)} {affOpts : List (Nat × Nat)} {t : Cache}
    (core : SvCoreNA n value cell s moves affOpts t) (j q : Nat) :
    q ∈ (aget t.cc j).getD [] ↔
      q ∈ (aget s.cc j).getD [] ∧ q ∉ recsCC n moves j := by
  rcases core.restCC j with h | ⟨_, hs, ht, hr⟩
  · have hmem := insFold_mem (recsCC n moves j) (aget t.cc j) q
    rw [h] at hmem
    constructor
    · intro hq
      refine ⟨hmem.mpr (Or.inl hq), ?_⟩
      intro hrec
      rcases mem_recsCC.mp hrec with ⟨r, hrm, hkey, rfl⟩
      have hrem := core.remCC r hrm
      rw [hkey] at hrem
      exact hrem hq
    · rintro ⟨hq, hnr⟩
      rcases hmem.mp hq with h1 | h1
      · exact h1
      · exact absurd h1 hnr
  · rw [hs, ht, hr]
    simp

theorem SvCoreNA.pv_mem {n value cell : Nat} {s : Cache}
    {moves : List (Nat × Nat × Block)} {affOpts : List (Nat × Nat)} {t : Cache}
    (core : SvCoreNA n value cell s moves affOpts t) (c w : Nat) (hcne : c ≠ cell) :
    w ∈ (aget t.pv c).getD [] ↔
      w ∈ (aget s.pv c).getD [] ∧ w ∉ recsPV affOpts c := by
  have hmem := insFold_mem (recsPV affOpts c) (aget t.pv c) w
  rw [core.restPV c hcne] at hmem
  constructor
  · intro hq
    refine ⟨hmem.mpr (Or.inl hq), ?_⟩
    intro hrec
    rcases mem_recsPV.mp hrec with ⟨pr, hrm, hkey, rfl⟩
    have hrem := core.remPV pr hrm
    rw [hkey] at hrem
    exact hrem hq
  · rintro ⟨hq, hnr⟩
    rcases hmem.mp hq with h1 | h1
    · exact h1
    · exact absurd h1 hnr

theorem undoOpts_none {u : UndoSetValue} {t : Cache} (h : u.opts = none) :
    undoOpts u t = t := by
  unfold undoOpts; rw [h]

theorem undoOpts_some {u : UndoSetValue} {t : Cache} {o : List Nat}
    (h : u.opts = some o) : undoOpts u t = t.pvSet u.optCell (some o) := by
  unfold undoOpts; rw [h]

theorem SvCore.restore {n value cell : Nat} {s : Cache}
    {moves : List (Nat × Nat × Block)} {affOpts : List (Nat × Nat)} {t : Cache}
    (core : SvCore n value cell s moves affOpts t) (hw : WFCache n s)
    (hcell : cell < n * n * (n * n)) :
    (undoApply n ⟨moves, cell, aget s.pv cell, affOpts⟩ t).pv = s.pv ∧
    (undoApply n ⟨moves, cell, aget s.pv cell, affOpts⟩ t).cc.length = s.cc.length ∧
    ∀ j, aget (undoApply n ⟨moves, cell, aget s.pv cell, affOpts⟩ t).cc j
        = aget s.cc j ∨
      (value ∉ (aget s.pv cell).getD [] ∧ aget s.cc j = some [] ∧
        aget (undoApply n ⟨moves, cell, aget s.pv cell, affOpts⟩ t).cc j = none) := by
  obtain ⟨hpl, hcl, hpv, hccs, hccb⟩ := hw
  have hn : 0 < n := by
    rcases Nat.eq_zero_or_pos n with rfl | h
    · omega
    · exact h
  have hlen : ∀ r ∈ (⟨moves, cell, aget s.pv cell, affOpts⟩ : UndoSetValue).affOpts,
      r.1 < t.pv.length := by
    intro r hr
    rw [core.pvlen, hpl]
    exact (core.balAff r hr).2.1
  have hkey : ∀ r ∈ (⟨moves, cell, aget s.pv cell, affOpts⟩ : UndoSetValue).moves,
      keyIdx n r.2.2 r.1 < t.cc.length := by
    intro r hr
    obtain ⟨hblk, hlt, h1, h2⟩ := core.balMv r hr
    rw [core.cclen, hcl]
    exact keyIdx_lt (validBlock_of_mem_blocksOf hn hlt hblk) h1 h2
  refine ⟨?_, ?_, ?_⟩
  · refine alist_ext ?_ ?_
    · show (undoMovesFold n _ (undoAffFold _ (undoOpts _ t))).pv.length = _
      rw [undoMovesFold_pv, undoAffFold_pv_length, undoOpts_pv_length, core.pvlen]
    · intro c
      rw [undoApply_pv_aget hlen c]
      by_cases hc : c = cell
      · subst hc
        show insFold (recsPV affOpts c)
          (aget (undoOpts ⟨moves, c, aget s.pv c, affOpts⟩ t).pv c) = aget s.pv c
        have hre : recsPV affOpts c = [] := by
          rw [List.eq_nil_iff_forall_not_mem]
          intro x hx
          rcases mem_recsPV.mp hx with ⟨pr, hpm, hp1, _⟩
          exact (core.balAff pr hpm).1 hp1
        rw [hre]
        cases ho : aget s.pv c with
        | none =>
          rw [undoOpts_none (show UndoSetValue.opts ⟨moves, c, none, affOpts⟩
            = none from rfl)]
          rw [show insFold [] (aget t.pv c) = aget t.pv c from rfl, core.pvCell]
        | some o =>
          rw [undoOpts_some (show UndoSetValue.opts ⟨moves, c, some o, affOpts⟩
            = some o from rfl)]
          show insFold [] (aget (t.pvSet c (some o)).pv c) = _
          exact pvGet_pvSet_self (by rw [core.pvlen, hpl]; exact hcell) _
      · show insFold (recsPV affOpts c)
          (aget (undoOpts ⟨moves, cell, aget s.pv cell, affOpts⟩ t).pv c) = aget s.pv c
        have hbase : aget (undoOpts
            (⟨moves, cell, aget s.pv cell, affOpts⟩ : UndoSetValue) t).pv c
            = aget t.pv c := by
          cases ho : aget s.pv cell with
          | none =>
            rw [undoOpts_none (show UndoSetValue.opts
              ⟨moves, cell, none, affOpts⟩ = none from rfl)]
          | some o =>
            rw [undoOpts_some (show UndoSetValue.opts
              ⟨moves, cell, some o, affOpts⟩ = some o from rfl)]
            exact aget_set_ne (fun he => hc he.symm) _
        rw [hbase]
        exact core.restPV c hc
  · show (undoMovesFold n _ (undoAffFold _ (undoOpts _ t))).cc.length = _
    rw [undoMovesFold_cc_length, undoAffFold_cc, undoOpts_cc, core.cclen]
  · intro j
    rw [undoApply_cc_aget hkey j]
    show insFold (recsCC n moves j) (aget t.cc j) = aget s.cc j ∨
      (value ∉ (aget s.pv cell).getD [] ∧ aget s.cc j = some [] ∧
        insFold (recsCC n moves j) (aget t.cc j) = none)
    rcases core.restCC j with h | ⟨h1, h2, h3, h4⟩
    · exact Or.inl h
    · exact Or.inr ⟨h1, h2, by rw [h4, h3]; rfl⟩

/-- A cell of a block of `c` is an affected cell of `c`. -/
theorem mem_affCells_of_blockCells {n c p : Nat} {b : Block} (hn : 0 < n)
    (hc : c < n * n * (n * n)) (hb : b ∈ blocksOf n c)
    (hp : p ∈ blockCells n b) : p ∈ affCells n c := by
  have hvb := validBlock_of_mem_blocksOf hn hc hb
  have hplt := blockCells_subset_size hn hvb hp
  refine (mem_affCells hn hc hplt).mpr ?_
  exact peer_iff_shared_block.mpr ⟨b, hb, (mem_blockCells_iff_blocksOf hn hplt hvb).mp hp⟩

theorem svOtherVals_spec {n value cell : Nat} {s : Cache} {b : Block}
    (hn : 0 < n) (hcell : cell < n * n * (n * n))
    (hw : WFCache n s) (hc : ConsCache n s)
    (hb : b ∈ blocksOf n cell) :
    ∀ (ovs : List Nat) (moves : List (Nat × Nat × Block)) (t : Cache),
    (∀ ov ∈ ovs, ov ∈ (aget s.pv cell).getD []) →
    List.Pairwise (· ≠ ·) ovs →
    (∀ ov ∈ ovs, ov ≠ value →
      aget t.cc (keyIdx n b ov) = aget s.cc (keyIdx n b ov)) →
    SvCore n value cell s moves [] t →
    SvDebt n value cell s moves [] (affCells n cell) t →
    (svOtherVals n value cell b ovs (moves, t)).2.pv = t.pv ∧
    SvCore n value cell s (svOtherVals n value cell b ovs (moves, t)).1 []
      (svOtherVals n value cell b ovs (moves, t)).2 ∧
    SvDebt n value cell s (svOtherVals n value cell b ovs (moves, t)).1 []
      (affCells n cell) (svOtherVals n value cell b ovs (moves, t)).2 ∧
    (∀ r ∈ moves, r ∈ (svOtherVals n value cell b ovs (moves, t)).1) ∧
    (∀ w, w ∈ (aget s.pv cell).getD [] → w ≠ value →
      ((w, cell, b) ∈ moves ∨ w ∈ ovs) →
      (w, cell, b) ∈ (svOtherVals n value cell b ovs (moves, t)).1) ∧
    (∀ j, aget (svOtherVals n value cell b ovs (moves, t)).2.cc j = aget t.cc j ∨
      ∃ ov ∈ ovs, ov ≠ value ∧ j = keyIdx n b ov) := by
  obtain ⟨hpl, hcl, hpv, hccs, hccb⟩ := hw
  have hvb : ValidBlock n b := validBlock_of_mem_blocksOf hn hcell hb
  intro ovs
  induction ovs with
  | nil =>
    intro moves t hsub hnd hfresh core debt
    refine ⟨rfl, core, debt, fun r hr => hr, ?_, fun j => Or.inl rfl⟩
    intro w hwm hwv hpre
    rcases hpre with h | h
    · exact h
    · cases h
  | cons ov rest ih =>
    intro moves t hsub hnd hfresh core debt
    rw [List.pairwise_cons] at hnd
    by_cases hov : ov = value
    · rw [show svOtherVals n value cell b (ov :: rest) (moves, t)
          = svOtherVals n value cell b rest (moves, t) from by
        rw [svOtherVals]; rw [if_neg (by simp [hov])]]
      obtain ⟨h1, h2, h3, h4, h5, h6⟩ := ih moves t
        (fun w hwm => hsub w (List.mem_cons_of_mem _ hwm)) hnd.2
        (fun w hwm => hfresh w (List.mem_cons_of_mem _ hwm)) core debt
      refine ⟨h1, h2, h3, h4, ?_, ?_⟩
      · intro w hwm hwv hpre
        refine h5 w hwm hwv ?_
        rcases hpre with h | h
        · exact Or.inl h
        · rcases List.mem_cons.mp h with rfl | h
          · exact absurd hov hwv
          · exact Or.inr h
      · intro j
        rcases h6 j with h | ⟨ov', ho1, ho2, ho3⟩
        · exact Or.inl h
        · exact Or.inr ⟨ov', List.mem_cons_of_mem _ ho1, ho2, ho3⟩
    · -- ov ≠ value: the bucket is present and contains the cell
      have hov1 : ov ∈ (aget s.pv cell).getD [] := hsub ov (List.mem_cons_self _ _)
      have hovb : 1 ≤ ov ∧ ov ≤ n * n := by
        cases hoc : aget s.pv cell with
        | none => rw [hoc] at hov1; cases hov1
        | some l0 =>
          rw [hoc] at hov1
          exact (hpv cell l0 hoc).2 ov hov1
      have hmemb := (hc cell hcell ov hovb.1 hovb.2 b hb).mp (by
        show ov ∈ (aget s.pv cell).getD []
        exact hov1)
      rw [Cache.ccGet] at hmemb
      rw [← hfresh ov (List.mem_cons_self _ _) hov] at hmemb
      cases hcells : aget t.cc (keyIdx n b ov) with
      | none => rw [hcells] at hmemb; cases hmemb
      | some cells =>
      rw [hcells] at hmemb
      have hcellsS : SSorted cells := core.wfCC _ cells hcells
      have hstep : svOtherVals n value cell b (ov :: rest) (moves, t)
          = svOtherVals n value cell b rest
            (moves ++ [(ov, cell, b)],
              Cache.ccSet n t b ov (some (serase cell cells))) := by
        rw [svOtherVals, if_pos hov]
        rw [show Cache.ccGet n t b ov = some cells from hcells]
        dsimp only
        rw [if_pos (by simpa using hmemb)]
      rw [hstep]
      have hkeylt : keyIdx n b ov < t.cc.length := by
        by_contra hge
        rw [aget_oob (by omega)] at hcells
        cases hcells
      -- the updated accumulator still satisfies everything
      have core2 : SvCore n value cell s (moves ++ [(ov, cell, b)]) []
          (Cache.ccSet n t b ov (some (serase cell cells))) := by
        refine ⟨⟨?_, ?_, ?_, ?_, ?_, ?_, ?_, ?_, ?_, ?_, ?_⟩, ?_⟩
        · show t.pv.length = _; exact core.pvlen
        · rw [ccSet_cc_length]; exact core.cclen
        · intro j
          rw [recsCC_append, recsCC_singleton]
          by_cases hj : keyIdx n b ov = j
          · subst hj
            rw [if_pos rfl]
            have hold := core.restCC (keyIdx n b ov)
            rcases hold with h | ⟨_, _, h3, _⟩
            · rw [hcells] at h
              have htgt : ∃ tl, aget s.cc (keyIdx n b ov) = some tl := by
                cases hx : aget s.cc (keyIdx n b ov) with
                | none =>
                  rw [hx] at h
                  have := insFold_isSome (recsCC n moves (keyIdx n b ov)) (some cells)
                  rw [h] at this
                  simp at this
                | some tl => exact ⟨tl, rfl⟩
              obtain ⟨tl, htl⟩ := htgt
              rw [htl] at h
              refine Or.inl ?_
              rw [cc_aget_ccSet_self hkeylt, htl]
              exact insFold_serase_append hcellsS (hccs _ tl htl)
                (by simpa using hmemb) h
            · rw [hcells] at h3; cases h3
          · rw [if_neg hj, List.append_nil, cc_aget_ccSet_ne hj]
            exact core.restCC j
        · intro c hcne
          show insFold (recsPV [] c) (aget t.pv c) = _
          exact core.restPV c hcne
        · intro r hr
          rcases List.mem_append.mp hr with hr | hr
          · have hold := core.remCC r hr
            by_cases hj : keyIdx n b ov = keyIdx n r.2.2 r.1
            · rw [← hj, cc_aget_ccSet_self hkeylt]
              rw [← hj, hcells] at hold
              intro hmm
              exact hold ((mem_serase hcellsS).mp hmm).1
            · rw [cc_aget_ccSet_ne hj]
              exact hold
          · rw [List.mem_singleton] at hr
            subst hr
            show cell ∉ _
            rw [cc_aget_ccSet_self hkeylt]
            intro hmm
            exact ((mem_serase hcellsS).mp hmm).2 rfl
        · intro pr hpr; cases hpr
        · show aget t.pv cell = none; exact core.pvCell
        · show ∀ c l, aget t.pv c = some l → _; exact core.wfPV
        · intro j l hl
          by_cases hj : keyIdx n b ov = j
          · subst hj
            rw [cc_aget_ccSet_self hkeylt] at hl
            cases hl
            exact serase_sorted hcellsS
          · rw [cc_aget_ccSet_ne hj] at hl
            exact core.wfCC j l hl
        · intro blk w l hvblk h1 h2 hl
          by_cases hj : keyIdx n b ov = keyIdx n blk w
          · rw [← hj, cc_aget_ccSet_self hkeylt] at hl
            cases hl
            intro p hp
            have hp2 := ((mem_serase hcellsS).mp hp).1
            refine core.wfCCB blk w cells hvblk h1 h2 ?_ p hp2
            rw [← hj]
            exact hcells
          · rw [cc_aget_ccSet_ne hj] at hl
            exact core.wfCCB blk w l hvblk h1 h2 hl
        · intro r hr
          rcases List.mem_append.mp hr with hr | hr
          · exact core.balMv r hr
          · rw [List.mem_singleton] at hr
            subst hr
            exact ⟨hb, hcell, hovb.1, hovb.2⟩
        · intro pr hpr; cases hpr
      have debt2 : SvDebt n value cell s (moves ++ [(ov, cell, b)]) []
          (affCells n cell) (Cache.ccSet n t b ov (some (serase cell cells))) := by
        intro r hr
        rcases List.mem_append.mp hr with hr | hr
        · rcases debt r hr with h | ⟨h1, h2 | ⟨h3, h4, h5⟩⟩
          · exact Or.inl h
          · exact Or.inr ⟨h1, Or.inl h2⟩
          · exact Or.inr ⟨h1, Or.inr ⟨h3, h4, h5⟩⟩
        · rw [List.mem_singleton] at hr
          subst hr
          exact Or.inl ⟨rfl, hov1⟩
      have hfresh2 : ∀ w ∈ rest, w ≠ value →
          aget (Cache.ccSet n t b ov (some (serase cell cells))).cc (keyIdx n b w)
            = aget s.cc (keyIdx n b w) := by
        intro w hwm hwv
        have hwb : 1 ≤ w ∧ w ≤ n * n := by
          have hw1 := hsub w (List.mem_cons_of_mem _ hwm)
          cases hoc : aget s.pv cell with
          | none => rw [hoc] at hw1; cases hw1
          | some l0 =>
            rw [hoc] at hw1
            exact (hpv cell l0 hoc).2 w hw1
        have hne : keyIdx n b ov ≠ keyIdx n b w := by
          intro he
          exact (hnd.1 w hwm) ((keyIdx_inj hvb hvb hovb.1 hovb.2 hwb.1 hwb.2 he).2)
        rw [cc_aget_ccSet_ne hne]
        exact hfresh w (List.mem_cons_of_mem _ hwm) hwv
      obtain ⟨h1, h2, h3, h4, h5, h6⟩ := ih (moves ++ [(ov, cell, b)])
        (Cache.ccSet n t b ov (some (serase cell cells)))
        (fun w hwm => hsub w (List.mem_cons_of_mem _ hwm)) hnd.2 hfresh2 core2 debt2
      refine ⟨by rw [h1]; rfl, h2, h3, ?_, ?_, ?_⟩
      · intro r hr
        exact h4 r (List.mem_append.mpr (Or.inl hr))
      · intro w hwm hwv hpre
        refine h5 w hwm hwv ?_
        rcases hpre with h | h
        · exact Or.inl (List.mem_append.mpr (Or.inl h))
        · rcases List.mem_cons.mp h with rfl | h
          · exact Or.inl (List.mem_append.mpr (Or.inr (List.mem_singleton.mpr rfl)))
          · exact Or.inr h
      · intro j
        rcases h6 j with h | ⟨ov', ho1, ho2, ho3⟩
        · by_cases hj : keyIdx n b ov = j
          · exact Or.inr ⟨ov, List.mem_cons_self _ _, hov, hj.symm⟩
          · rw [h, cc_aget_ccSet_ne hj]
            exact Or.inl rfl
        · exact Or.inr ⟨ov', List.mem_cons_of_mem _ ho1, ho2, ho3⟩

theorem SvCore.congr_slots {n value cell : Nat} {s : Cache}
    {moves : List (Nat × Nat × Block)} {affOpts : List (Nat × Nat)} {t t2 : Cache}
    (core : SvCore n value cell s moves affOpts t)
    (hpv2 : t2.pv = t.pv) (hlen2 : t2.cc.length = t.cc.length)
    (hslots : ∀ j, aget t2.cc j = aget t.cc j) :
    SvCore n value cell s moves affOpts t2 := by
  refine ⟨⟨?_, ?_, ?_, ?_, ?_, ?_, ?_, ?_, ?_, ?_, ?_⟩, ?_⟩
  · rw [hpv2]; exact core.pvlen
  · rw [hlen2]; exact core.cclen
  · intro j
    rw [hslots j]
    exact core.restCC j
  · intro c hcne
    rw [hpv2]
    exact core.restPV c hcne
  · intro r hr
    rw [hslots]
    exact core.remCC r hr
  · intro pr hpr
    rw [hpv2]
    exact core.remPV pr hpr
  · rw [hpv2]; exact core.pvCell
  · intro c l hl
    rw [hpv2] at hl
    exact core.wfPV c l hl
  · intro j l hl
    rw [hslots] at hl
    exact core.wfCC j l hl
  · intro blk w l hvb h1 h2 hl
    rw [hslots] at hl
    exact core.wfCCB blk w l hvb h1 h2 hl
  · exact core.balMv
  · exact core.balAff

theorem svDebt_congr_pv {n value cell : Nat} {s : Cache}
    {moves : List (Nat × Nat × Block)} {affOpts : List (Nat × Nat)}
    {ps : List Nat} {t t2 : Cache}
    (debt : SvDebt n value cell s moves affOpts ps t) (hpv2 : t2.pv = t.pv) :
    SvDebt n value cell s moves affOpts ps t2 := by
  intro r hr
  rw [hpv2]
  exact debt r hr

theorem svBlocks_spec {n value cell : Nat} {s : Cache} {maybeOpts : Option (List Nat)}
    (hn : 0 < n) (hcell : cell < n * n * (n * n))
    (hv1 : 1 ≤ value) (hv2 : value ≤ n * n)
    (hw : WFCache n s) (hc : ConsCache n s)
    (hmopts : maybeOpts = aget s.pv cell) :
    ∀ (bl : List Block) (moves : List (Nat × Nat × Block)) (t : Cache),
    (∀ b2 ∈ bl, b2 ∈ blocksOf n cell) →
    List.Pairwise (· ≠ ·) bl →
    (∀ b2 ∈ bl, ∀ w, 1 ≤ w → w ≤ n * n →
      aget t.cc (keyIdx n b2 w) = aget s.cc (keyIdx n b2 w)) →
    SvCore n value cell s moves [] t →
    SvDebt n value cell s moves [] (affCells n cell) t →
    (svBlocks n value cell maybeOpts bl (moves, t)).2.pv = t.pv ∧
    SvCore n value cell s (svBlocks n value cell maybeOpts bl (moves, t)).1 []
      (svBlocks n value cell maybeOpts bl (moves, t)).2 ∧
    SvDebt n value cell s (svBlocks n value cell maybeOpts bl (moves, t)).1 []
      (affCells n cell) (svBlocks n value cell maybeOpts bl (moves, t)).2 ∧
    (∀ r ∈ moves, r ∈ (svBlocks n value cell maybeOpts bl (moves, t)).1) ∧
    (∀ w, w ∈ (aget s.pv cell).getD [] → ∀ b2 ∈ blocksOf n cell,
      ((w, cell, b2) ∈ moves ∨ b2 ∈ bl) →
      (w, cell, b2) ∈ (svBlocks n value cell maybeOpts bl (moves, t)).1) := by
  obtain ⟨hpl, hcl, hpv, hccs, hccb⟩ := hw
  intro bl
  induction bl with
  | nil =>
    intro moves t hblsub hbldist hfresh core debt
    refine ⟨rfl, core, debt, fun r hr => hr, ?_⟩
    intro w hwm b2 hb2 hpre
    rcases hpre with h | h
    · exact h
    · cases h
  | cons b rest ih =>
    intro moves t hblsub hbldist hfresh core debt
    rw [List.pairwise_cons] at hbldist
    have hbmem : b ∈ blocksOf n cell := hblsub b (List.mem_cons_self _ _)
    have hvb : ValidBlock n b := validBlock_of_mem_blocksOf hn hcell hbmem
    have hkeylt : keyIdx n b value < t.cc.length := by
      rw [core.cclen, hcl]
      exact keyIdx_lt hvb hv1 hv2
    have hfb : aget t.cc (keyIdx n b value) = aget s.cc (keyIdx n b value) :=
      hfresh b (List.mem_cons_self _ _) value hv1 hv2
    have hred : svBlocks n value cell maybeOpts (b :: rest) (moves, t)
        = svBlocks n value cell maybeOpts rest
          (svOtherVals n value cell b (maybeOpts.getD [])
            (moves ++ ((Cache.ccGet n t b value).getD []).map (fun p => (value, p, b)),
              Cache.ccSet n t b value none)) := rfl
    rw [hred]
    -- the dropped bucket, as seen in `s`
    have hconsb := fun (hq : cell < n * n * (n * n)) =>
      hc cell hq value hv1 hv2 b hbmem
    -- analyse the bucket
    cases hcand : Cache.ccGet n t b value with
    | none =>
      have hmoves1 : moves ++ ((none : Option (List Nat)).getD []).map
          (fun p => (value, p, b)) = moves := by simp
      rw [hmoves1]
      have hslots : ∀ j, aget (Cache.ccSet n t b value none).cc j = aget t.cc j := by
        intro j
        by_cases hj : keyIdx n b value = j
        · rw [← hj, cc_aget_ccSet_self hkeylt]
          rw [Cache.ccGet] at hcand
          rw [hcand]
        · exact cc_aget_ccSet_ne hj _
      have core1 : SvCore n value cell s moves []
          (Cache.ccSet n t b value none) :=
        core.congr_slots rfl (by rw [ccSet_cc_length]) hslots
      have debt1 : SvDebt n value cell s moves [] (affCells n cell)
          (Cache.ccSet n t b value none) := svDebt_congr_pv debt rfl
      -- inner loop over the other values
      have hovssub : ∀ ov ∈ maybeOpts.getD [], ov ∈ (aget s.pv cell).getD [] := by
        intro ov h; rw [hmopts] at h; exact h
      have hovnd : List.Pairwise (· ≠ ·) (maybeOpts.getD []) := by
        rw [hmopts]
        cases ho : aget s.pv cell with
        | none => exact List.Pairwise.nil
        | some l0 =>
          exact List.Pairwise.imp (fun h => Nat.ne_of_lt h) (hpv cell l0 ho).1
      have hovfresh : ∀ ov ∈ maybeOpts.getD [], ov ≠ value →
          aget (Cache.ccSet n t b value none).cc (keyIdx n b ov)
            = aget s.cc (keyIdx n b ov) := by
        intro ov hov hovv
        have hovb : 1 ≤ ov ∧ ov ≤ n * n := by
          have h1 := hovssub ov hov
          cases hoc : aget s.pv cell with
          | none => rw [hoc] at h1; cases h1
          | some l0 => rw [hoc] at h1; exact (hpv cell l0 hoc).2 ov h1
        rw [hslots]
        have hne : keyIdx n b ov ≠ keyIdx n b value := by
          intro he
          exact hovv (keyIdx_inj hvb hvb hovb.1 hovb.2 hv1 hv2 he).2
        exact hfresh b (List.mem_cons_self _ _) ov hovb.1 hovb.2
      obtain ⟨h1, h2, h3, h4, h5, h6⟩ := svOtherVals_spec hn hcell
        ⟨hpl, hcl, hpv, hccs, hccb⟩ hc hbmem (maybeOpts.getD []) moves
        (Cache.ccSet n t b value none) hovssub hovnd hovfresh core1 debt1
      have hfresh2 : ∀ b2 ∈ rest, ∀ w, 1 ≤ w → w ≤ n * n →
          aget (svOtherVals n value cell b (maybeOpts.getD [])
            (moves, Cache.ccSet n t b value none)).2.cc (keyIdx n b2 w)
            = aget s.cc (keyIdx n b2 w) := by
        intro b2 hb2 w hw1 hw2
        have hvb2 := validBlock_of_mem_blocksOf hn hcell (hblsub b2
          (List.mem_cons_of_mem _ hb2))
        have hne : b ≠ b2 := hbldist.1 b2 hb2
        rcases h6 (keyIdx n b2 w) with h | ⟨ov, hovm, hovv, hoveq⟩
        · rw [h, hslots]
          exact hfresh b2 (List.mem_cons_of_mem _ hb2) w hw1 hw2
        · exfalso
          have hovb : 1 ≤ ov ∧ ov ≤ n * n := by
            have hx := hovssub ov hovm
            cases hoc : aget s.pv cell with
            | none => rw [hoc] at hx; cases hx
            | some l0 => rw [hoc] at hx; exact (hpv cell l0 hoc).2 ov hx
          exact hne (keyIdx_inj hvb hvb2 hovb.1 hovb.2 hw1 hw2 hoveq.symm).1
      obtain ⟨g1, g2, g3, g4, g5⟩ := ih _ _
        (fun b2 hb2 => hblsub b2 (List.mem_cons_of_mem _ hb2)) hbldist.2
        hfresh2 h2 h3
      refine ⟨by rw [g1, h1]; rfl, g2, g3, ?_, ?_⟩
      · intro r hr
        exact g4 r (h4 r hr)
      · intro w hwm b2 hb2 hpre
        rcases hpre with h | h
        · exact g5 w hwm b2 hb2 (Or.inl (h4 _ h))
        · rcases List.mem_cons.mp h with rfl | h
          · -- b2 = b: every value of the cell was recorded for this block
            by_cases hwv : w = value
            · exfalso
              subst hwv
              have := (hconsb hcell).mp hwm
              rw [Cache.ccGet] at this
              rw [← hfb] at this
              rw [Cache.ccGet] at hcand
              rw [hcand] at this
              cases this
            · exact g5 w hwm b2 hbmem (Or.inl (h5 w hwm hwv
                (Or.inr (by rw [hmopts]; exact hwm))))
          · exact g5 w hwm b2 hb2 (Or.inr h)
    | some cl =>
      have hscl : aget s.cc (keyIdx n b value) = some cl := by
        rw [← hfb, ← hcand]; rfl
      have hclS : SSorted cl := hccs _ cl hscl
      have hmoves1 : moves ++ ((some cl).getD []).map
          (fun p => (value, p, b)) = moves ++ cl.map (fun p => (value, p, b)) := rfl
      rw [hmoves1]
      have hclblk : ∀ p ∈ cl, p ∈ blockCells n b :=
        hccb b value cl hvb hv1 hv2 hscl
      have hcllt : ∀ p ∈ cl, p < n * n * (n * n) := fun p hp =>
        blockCells_subset_size hn hvb (hclblk p hp)
      have hclBo : ∀ p ∈ cl, b ∈ blocksOf n p := fun p hp =>
        (mem_blockCells_iff_blocksOf hn (hcllt p hp) hvb).mp (hclblk p hp)
      -- membership of `p` in the starting bucket means `value` was possible at `p`
      have hclpv : ∀ p ∈ cl, p ≠ cell → value ∈ (aget s.pv p).getD [] := by
        intro p hp hpc
        refine (hc p (hcllt p hp) value hv1 hv2 b (hclBo p hp)).mpr ?_
        rw [Cache.ccGet, hscl]
        exact hp
      have core1 : SvCore n value cell s (moves ++ cl.map (fun p => (value, p, b)))
          [] (Cache.ccSet n t b value none) := by
        refine ⟨⟨?_, ?_, ?_, ?_, ?_, ?_, ?_, ?_, ?_, ?_, ?_⟩, ?_⟩
        · show t.pv.length = _; exact core.pvlen
        · rw [ccSet_cc_length]; exact core.cclen
        · intro j
          rw [recsCC_append, recsCC_dropRecs]
          by_cases hj : keyIdx n b value = j
          · rw [if_pos hj, ← hj, cc_aget_ccSet_self hkeylt]
            have hold := core.restCC (keyIdx n b value)
            rcases hold with h | ⟨_, _, h3, _⟩
            · rw [Cache.ccGet] at hcand
              rw [hcand, hscl] at h
              by_cases hboth : recsCC n moves (keyIdx n b value) = [] ∧ cl = []
              · refine Or.inr ⟨?_, ?_, rfl, ?_⟩
                · intro hval
                  have := (hconsb hcell).mp hval
                  rw [Cache.ccGet, hscl, hboth.2] at this
                  cases this
                · rw [hscl, hboth.2]
                · rw [hboth.1, hboth.2]; rfl
              · refine Or.inl ?_
                rw [hscl]
                exact insFold_drop hclS h hboth
            · rw [Cache.ccGet] at hcand
              rw [hcand] at h3
              cases h3
          · rw [if_neg hj, List.append_nil, cc_aget_ccSet_ne hj]
            exact core.restCC j
        · intro c hcne
          show insFold (recsPV [] c) (aget t.pv c) = _
          exact core.restPV c hcne
        · intro r hr
          rcases List.mem_append.mp hr with hr | hr
          · by_cases hj : keyIdx n b value = keyIdx n r.2.2 r.1
            · rw [← hj, cc_aget_ccSet_self hkeylt]
              simp
            · rw [cc_aget_ccSet_ne hj]
              exact core.remCC r hr
          · rcases List.mem_map.mp hr with ⟨p, hp, rfl⟩
            rw [cc_aget_ccSet_self hkeylt]
            simp
        · intro pr hpr; cases hpr
        · show aget t.pv cell = none; exact core.pvCell
        · show ∀ c l, aget t.pv c = some l → _; exact core.wfPV
        · intro j l hl
          by_cases hj : keyIdx n b value = j
          · rw [← hj, cc_aget_ccSet_self hkeylt] at hl
            cases hl
          · rw [cc_aget_ccSet_ne hj] at hl
            exact core.wfCC j l hl
        · intro blk w l hvblk h1 h2 hl
          by_cases hj : keyIdx n b value = keyIdx n blk w
          · rw [← hj, cc_aget_ccSet_self hkeylt] at hl
            cases hl
          · rw [cc_aget_ccSet_ne hj] at hl
            exact core.wfCCB blk w l hvblk h1 h2 hl
        · intro r hr
          rcases List.mem_append.mp hr with hr | hr
          · exact core.balMv r hr
          · rcases List.mem_map.mp hr with ⟨p, hp, rfl⟩
            exact ⟨hclBo p hp, hcllt p hp, hv1, hv2⟩
        · intro pr hpr; cases hpr
      have debt1 : SvDebt n value cell s (moves ++ cl.map (fun p => (value, p, b)))
          [] (affCells n cell) (Cache.ccSet n t b value none) := by
        intro r hr
        rcases List.mem_append.mp hr with hr | hr
        · have := debt r hr
          show (r.2.1 = cell ∧ _) ∨ _
          exact this
        · rcases List.mem_map.mp hr with ⟨p, hp, rfl⟩
          by_cases hpc : p = cell
          · refine Or.inl ⟨hpc, ?_⟩
            refine (hconsb hcell).mpr ?_
            rw [Cache.ccGet, hscl]
            exact hpc ▸ hp
          · refine Or.inr ⟨hpc, Or.inr ⟨rfl, ?_, ?_⟩⟩
            · exact mem_affCells_of_blockCells hn hcell hbmem (hclblk p hp)
            · show value ∈ (aget t.pv p).getD []
              have := core.restPV p hpc
              rw [show recsPV [] p = [] from rfl] at this
              rw [show insFold [] (aget t.pv p) = aget t.pv p from rfl] at this
              rw [this]
              exact hclpv p hp hpc
      have hovssub : ∀ ov ∈ maybeOpts.getD [], ov ∈ (aget s.pv cell).getD [] := by
        intro ov h; rw [hmopts] at h; exact h
      have hovnd : List.Pairwise (· ≠ ·) (maybeOpts.getD []) := by
        rw [hmopts]
        cases ho : aget s.pv cell with
        | none => exact List.Pairwise.nil
        | some l0 =>
          exact List.Pairwise.imp (fun h => Nat.ne_of_lt h) (hpv cell l0 ho).1
      have hovfresh : ∀ ov ∈ maybeOpts.getD [], ov ≠ value →
          aget (Cache.ccSet n t b value none).cc (keyIdx n b ov)
            = aget s.cc (keyIdx n b ov) := by
        intro ov hov hovv
        have hovb : 1 ≤ ov ∧ ov ≤ n * n := by
          have hx := hovssub ov hov
          cases hoc : aget s.pv cell with
          | none => rw [hoc] at hx; cases hx
          | some l0 => rw [hoc] at hx; exact (hpv cell l0 hoc).2 ov hx
        have hne : keyIdx n b value ≠ keyIdx n b ov := by
          intro he
          exact hovv (keyIdx_inj hvb hvb hv1 hv2 hovb.1 hovb.2 he).2.symm
        rw [cc_aget_ccSet_ne hne]
        exact hfresh b (List.mem_cons_self _ _) ov hovb.1 hovb.2
      obtain ⟨h1, h2, h3, h4, h5, h6⟩ := svOtherVals_spec hn hcell
        ⟨hpl, hcl, hpv, hccs, hccb⟩ hc hbmem (maybeOpts.getD [])
        (moves ++ cl.map (fun p => (value, p, b)))
        (Cache.ccSet n t b value none) hovssub hovnd hovfresh core1 debt1
      have hfresh2 : ∀ b2 ∈ rest, ∀ w, 1 ≤ w → w ≤ n * n →
          aget (svOtherVals n value cell b (maybeOpts.getD [])
            (moves ++ cl.map (fun p => (value, p, b)),
              Cache.ccSet n t b value none)).2.cc (keyIdx n b2 w)
            = aget s.cc (keyIdx n b2 w) := by
        intro b2 hb2 w hw1 hw2
        have hvb2 := validBlock_of_mem_blocksOf hn hcell (hblsub b2
          (List.mem_cons_of_mem _ hb2))
        have hne : b ≠ b2 := hbldist.1 b2 hb2
        rcases h6 (keyIdx n b2 w) with h | ⟨ov, hovm, hovv, hoveq⟩
        · rw [h]
          have hnekey : keyIdx n b value ≠ keyIdx n b2 w := by
            intro he
            exact hne (keyIdx_inj hvb hvb2 hv1 hv2 hw1 hw2 he).1
          rw [cc_aget_ccSet_ne hnekey]
          exact hfresh b2 (List.mem_cons_of_mem _ hb2) w hw1 hw2
        · exfalso
          have hovb : 1 ≤ ov ∧ ov ≤ n * n := by
            have hx := hovssub ov hovm
            cases hoc : aget s.pv cell with
            | none => rw [hoc] at hx; cases hx
            | some l0 => rw [hoc] at hx; exact (hpv cell l0 hoc).2 ov hx
          exact hne (keyIdx_inj hvb hvb2 hovb.1 hovb.2 hw1 hw2 hoveq.symm).1
      obtain ⟨g1, g2, g3, g4, g5⟩ := ih _ _
        (fun b2 hb2 => hblsub b2 (List.mem_cons_of_mem _ hb2)) hbldist.2
        hfresh2 h2 h3
      refine ⟨by rw [g1, h1]; rfl, g2, g3, ?_, ?_⟩
      · intro r hr
        exact g4 r (h4 r (List.mem_append.mpr (Or.inl hr)))
      · intro w hwm b2 hb2 hpre
        rcases hpre with h | h
        · exact g5 w hwm b2 hb2 (Or.inl (h4 _ (List.mem_append.mpr (Or.inl h))))
        · rcases List.mem_cons.mp h with rfl | h
          · by_cases hwv : w = value
            · subst hwv
              have hcellcl : cell ∈ cl := by
                have := (hconsb hcell).mp hwm
                rw [Cache.ccGet, hscl] at this
                exact this
              refine g5 w hwm b2 hbmem (Or.inl (h4 _ ?_))
              exact List.mem_append.mpr (Or.inr (List.mem_map.mpr ⟨cell, hcellcl, rfl⟩))
            · exact g5 w hwm b2 hbmem (Or.inl (h5 w hwm hwv
                (Or.inr (by rw [hmopts]; exact hwm))))
          · exact g5 w hwm b2 hb2 (Or.inr h)

theorem svPeerBlocks_spec {n value cell p : Nat} {s : Cache}
    {affOpts : List (Nat × Nat)}
    (hn : 0 < n) (hcell : cell < n * n * (n * n))
    (hv1 : 1 ≤ value) (hv2 : value ≤ n * n)
    (hw : WFCache n s) (hc : ConsCache n s)
    (hpc : p ≠ cell) (hplt : p < n * n * (n * n))
    (hvs : value ∈ (aget s.pv p).getD [])
    (hpa : (p, value) ∈ affOpts) :
    ∀ (bl : List Block) (moves : List (Nat × Nat × Block)) (t : Cache)
      (psRem : List Nat),
    (∀ b2 ∈ bl, b2 ∈ blocksOf n p) →
    List.Pairwise (· ≠ ·) bl →
    SvCoreNA n value cell s moves affOpts t →
    (∀ pr ∈ affOpts, pr ≠ (p, value) → pr.1 ≠ cell ∧ pr.1 < n * n * (n * n) ∧
      ∀ blk ∈ blocksOf n pr.1, (pr.2, pr.1, blk) ∈ moves) →
    SvDebt n value cell s moves affOpts psRem t →
    (svPeerBlocks value p bl (moves, t) n).2.pv = t.pv ∧
    SvCoreNA n value cell s (svPeerBlocks value p bl (moves, t) n).1 affOpts
      (svPeerBlocks value p bl (moves, t) n).2 ∧
    (∀ pr ∈ affOpts, pr ≠ (p, value) → pr.1 ≠ cell ∧ pr.1 < n * n * (n * n) ∧
      ∀ blk ∈ blocksOf n pr.1, (pr.2, pr.1, blk)
        ∈ (svPeerBlocks value p bl (moves, t) n).1) ∧
    SvDebt n value cell s (svPeerBlocks value p bl (moves, t) n).1 affOpts psRem
      (svPeerBlocks value p bl (moves, t) n).2 ∧
    (∀ r ∈ moves, r ∈ (svPeerBlocks value p bl (moves, t) n).1) ∧
    (∀ b2 ∈ bl, (value, p, b2) ∈ (svPeerBlocks value p bl (moves, t) n).1) := by
  obtain ⟨hpl, hcl, hpv, hccs, hccb⟩ := hw
  intro bl
  induction bl with
  | nil =>
    intro moves t psRem hblsub hbldist core exc debt
    exact ⟨rfl, core, exc, debt, fun r hr => hr, fun b2 hb2 => absurd hb2 (by simp)⟩
  | cons b2 rest ih =>
    intro moves t psRem hblsub hbldist core exc debt
    rw [List.pairwise_cons] at hbldist
    have hb2p : b2 ∈ blocksOf n p := hblsub b2 (List.mem_cons_self _ _)
    have hvb2 : ValidBlock n b2 := validBlock_of_mem_blocksOf hn hplt hb2p
    have hkeylt : keyIdx n b2 value < t.cc.length := by
      rw [core.cclen, hcl]
      exact keyIdx_lt hvb2 hv1 hv2
    -- `p` belongs to this bucket in `s`
    have hpss : p ∈ (aget s.cc (keyIdx n b2 value)).getD [] := by
      have := (hc p hplt value hv1 hv2 b2 hb2p).mp hvs
      rw [Cache.ccGet] at this
      exact this
    -- if `p` is not in the current bucket, its removal is already recorded
    have hrecorded : p ∉ (aget t.cc (keyIdx n b2 value)).getD [] →
        (value, p, b2) ∈ moves := by
      intro hnot
      have hmm := (core.cc_mem (keyIdx n b2 value) p).mpr
      by_cases hrec : p ∈ recsCC n moves (keyIdx n b2 value)
      · rcases mem_recsCC.mp hrec with ⟨r, hrm, hkeq, hr21⟩
        obtain ⟨hrblk, hrlt, hr1, hr2⟩ := core.balMv r hrm
        rw [hr21] at hrblk hrlt
        have hinj := keyIdx_inj (validBlock_of_mem_blocksOf hn hrlt hrblk) hvb2
          hr1 hr2 hv1 hv2 hkeq
        rcases r with ⟨r1, r21, r22⟩
        have he1 : r22 = b2 := hinj.1
        have he2 : r1 = value := hinj.2
        have he3 : r21 = p := hr21
        subst he1; subst he2; subst he3
        exact hrm
      · exact absurd (hmm ⟨hpss, hrec⟩) hnot
    cases hcells : Cache.ccGet n t b2 value with
    | none =>
      have hstep : svPeerBlocks value p (b2 :: rest) (moves, t) n
          = svPeerBlocks value p rest (moves, t) n := by
        rw [svPeerBlocks, hcells]
      rw [hstep]
      obtain ⟨g1, g2, g3, g4, g5, g6⟩ := ih moves t psRem
        (fun b3 hb3 => hblsub b3 (List.mem_cons_of_mem _ hb3)) hbldist.2 core exc debt
      refine ⟨g1, g2, g3, g4, g5, ?_⟩
      intro b3 hb3
      rcases List.mem_cons.mp hb3 with rfl | hb3
      · refine g5 _ (hrecorded ?_)
        rw [Cache.ccGet] at hcells
        rw [hcells]
        simp
      · exact g6 b3 hb3
    | some cells =>
      by_cases hpin : p ∈ cells
      · have hstep : svPeerBlocks value p (b2 :: rest) (moves, t) n
            = svPeerBlocks value p rest (moves ++ [(value, p, b2)],
              Cache.ccSet n t b2 value (some (serase p cells))) n := by
          rw [svPeerBlocks, hcells]
          dsimp only
          rw [if_pos hpin]
        rw [hstep]
        have hcellsS : SSorted cells := core.wfCC _ cells (by
          rw [Cache.ccGet] at hcells; exact hcells)
        have hcells' : aget t.cc (keyIdx n b2 value) = some cells := by
          rw [Cache.ccGet] at hcells; exact hcells
        have core2 : SvCoreNA n value cell s (moves ++ [(value, p, b2)]) affOpts
            (Cache.ccSet n t b2 value (some (serase p cells))) := by
          refine ⟨?_, ?_, ?_, ?_, ?_, ?_, ?_, ?_, ?_, ?_, ?_⟩
          · show t.pv.length = _; exact core.pvlen
          · rw [ccSet_cc_length]; exact core.cclen
          · intro j
            rw [recsCC_append, recsCC_singleton]
            by_cases hj : keyIdx n b2 value = j
            · rw [if_pos hj, ← hj, cc_aget_ccSet_self hkeylt]
              have hold := core.restCC (keyIdx n b2 value)
              rcases hold with h | ⟨_, _, h3, _⟩
              · rw [hcells'] at h
                have htgt : ∃ tl, aget s.cc (keyIdx n b2 value) = some tl := by
                  cases hx : aget s.cc (keyIdx n b2 value) with
                  | none =>
                    rw [hx] at h
                    have := insFold_isSome (recsCC n moves (keyIdx n b2 value))
                      (some cells)
                    rw [h] at this
                    simp at this
                  | some tl => exact ⟨tl, rfl⟩
                obtain ⟨tl, htl⟩ := htgt
                rw [htl] at h
                refine Or.inl ?_
                rw [htl]
                exact insFold_serase_append hcellsS (hccs _ tl htl) hpin h
              · rw [hcells'] at h3; cases h3
            · rw [if_neg hj, List.append_nil, cc_aget_ccSet_ne hj]
              exact core.restCC j
          · intro c hcne
            show insFold (recsPV affOpts c) (aget t.pv c) = _
            exact core.restPV c hcne
          · intro r hr
            rcases List.mem_append.mp hr with hr | hr
            · have hold := core.remCC r hr
              by_cases hj : keyIdx n b2 value = keyIdx n r.2.2 r.1
              · rw [← hj, cc_aget_ccSet_self hkeylt]
                rw [← hj, hcells'] at hold
                intro hmm
                exact hold ((mem_serase hcellsS).mp hmm).1
              · rw [cc_aget_ccSet_ne hj]
                exact hold
            · rw [List.mem_singleton] at hr
              subst hr
              show p ∉ _
              rw [cc_aget_ccSet_self hkeylt]
              intro hmm
              exact ((mem_serase hcellsS).mp hmm).2 rfl
          · intro pr hpr
            show pr.2 ∉ (aget t.pv pr.1).getD []
            exact core.remPV pr hpr
          · show aget t.pv cell = none; exact core.pvCell
          · show ∀ c l, aget t.pv c = some l → _; exact core.wfPV
          · intro j l hl
            by_cases hj : keyIdx n b2 value = j
            · rw [← hj, cc_aget_ccSet_self hkeylt] at hl
              cases hl
              exact serase_sorted hcellsS
            · rw [cc_aget_ccSet_ne hj] at hl
              exact core.wfCC j l hl
          · intro blk w l hvblk h1 h2 hl
            by_cases hj : keyIdx n b2 value = keyIdx n blk w
            · rw [← hj, cc_aget_ccSet_self hkeylt] at hl
              cases hl
              intro q hq
              have hq2 := ((mem_serase hcellsS).mp hq).1
              refine core.wfCCB blk w cells hvblk h1 h2 ?_ q hq2
              rw [← hj]
              exact hcells'
            · rw [cc_aget_ccSet_ne hj] at hl
              exact core.wfCCB blk w l hvblk h1 h2 hl
          · intro r hr
            rcases List.mem_append.mp hr with hr | hr
            · exact core.balMv r hr
            · rw [List.mem_singleton] at hr
              subst hr
              exact ⟨hb2p, hplt, hv1, hv2⟩
        have exc2 : ∀ pr ∈ affOpts, pr ≠ (p, value) →
            pr.1 ≠ cell ∧ pr.1 < n * n * (n * n) ∧
            ∀ blk ∈ blocksOf n pr.1, (pr.2, pr.1, blk)
              ∈ moves ++ [(value, p, b2)] := by
          intro pr hpr hprne
          obtain ⟨e1, e2, e3⟩ := exc pr hpr hprne
          exact ⟨e1, e2, fun blk hblk =>
            List.mem_append.mpr (Or.inl (e3 blk hblk))⟩
        have debt2 : SvDebt n value cell s (moves ++ [(value, p, b2)]) affOpts
            psRem (Cache.ccSet n t b2 value (some (serase p cells))) := by
          intro r hr
          rcases List.mem_append.mp hr with hr | hr
          · have := debt r hr
            show (r.2.1 = cell ∧ _) ∨ _
            exact this
          · rw [List.mem_singleton] at hr
            subst hr
            exact Or.inr ⟨hpc, Or.inl hpa⟩
        obtain ⟨g1, g2, g3, g4, g5, g6⟩ := ih (moves ++ [(value, p, b2)])
          (Cache.ccSet n t b2 value (some (serase p cells))) psRem
          (fun b3 hb3 => hblsub b3 (List.mem_cons_of_mem _ hb3)) hbldist.2
          core2 exc2 debt2
        refine ⟨by rw [g1]; rfl, g2, g3, g4, ?_, ?_⟩
        · intro r hr
          exact g5 r (List.mem_append.mpr (Or.inl hr))
        · intro b3 hb3
          rcases List.mem_cons.mp hb3 with rfl | hb3
          · exact g5 _ (List.mem_append.mpr (Or.inr (List.mem_singleton.mpr rfl)))
          · exact g6 b3 hb3
      · have hstep : svPeerBlocks value p (b2 :: rest) (moves, t) n
            = svPeerBlocks value p rest (moves, t) n := by
          rw [svPeerBlocks, hcells]
          dsimp only
          rw [if_neg hpin]
        rw [hstep]
        obtain ⟨g1, g2, g3, g4, g5, g6⟩ := ih moves t psRem
          (fun b3 hb3 => hblsub b3 (List.mem_cons_of_mem _ hb3)) hbldist.2
          core exc debt
        refine ⟨g1, g2, g3, g4, g5, ?_⟩
        intro b3 hb3
        rcases List.mem_cons.mp hb3 with rfl | hb3
        · refine g5 _ (hrecorded ?_)
          rw [Cache.ccGet] at hcells
          rw [hcells]
          exact hpin
        · exact g6 b3 hb3

theorem blocksOf_pairwise_ne (n c : Nat) :
    List.Pairwise (· ≠ ·) (blocksOf n c) := by
  rw [blocksOf]
  refine List.Pairwise.cons ?_ (List.Pairwise.cons ?_ (List.pairwise_singleton _ _))
  · intro b hb
    rcases List.mem_cons.mp hb with rfl | hb
    · intro h; cases h
    · rw [List.mem_singleton] at hb; subst hb; intro h; cases h
  · intro b hb
    rw [List.mem_singleton] at hb; subst hb; intro h; cases h

theorem svOtherVals_pv (n value cell : Nat) (b : Block) :
    ∀ (ovs : List Nat) (ms : List (Nat × Nat × Block)) (t : Cache),
      (svOtherVals n value cell b ovs (ms, t)).2.pv = t.pv := by
  intro ovs
  induction ovs with
  | nil => intro ms t; rfl
  | cons ov rest ih =>
    intro ms t
    rw [svOtherVals]
    by_cases hne : ov ≠ value
    · rw [if_pos hne]
      cases hcg : Cache.ccGet n t b ov with
      | none => exact ih ms t
      | some cells =>
        dsimp only
        by_cases hp : cell ∈ cells
        · rw [if_pos hp, ih]
          exact ccSet_pv n t b ov _
        · rw [if_neg hp]
          exact ih ms t
    · rw [if_neg hne]
      exact ih ms t

theorem svBlocks_pv (n value cell : Nat) (mo : Option (List Nat)) :
    ∀ (bl : List Block) (ms : List (Nat × Nat × Block)) (t : Cache),
      (svBlocks n value cell mo bl (ms, t)).2.pv = t.pv := by
  intro bl
  induction bl with
  | nil => intro ms t; rfl
  | cons b rest ih =>
    intro ms t
    have h1 : (svBlocks n value cell mo (b :: rest) (ms, t)).2.pv
        = (svOtherVals n value cell b (mo.getD [])
            (ms ++ ((Cache.ccGet n t b value).getD []).map (fun p => (value, p, b)),
              Cache.ccSet n t b value none)).2.pv :=
      ih (svOtherVals n value cell b (mo.getD [])
            (ms ++ ((Cache.ccGet n t b value).getD []).map (fun p => (value, p, b)),
              Cache.ccSet n t b value none)).1
         (svOtherVals n value cell b (mo.getD [])
            (ms ++ ((Cache.ccGet n t b value).getD []).map (fun p => (value, p, b)),
              Cache.ccSet n t b value none)).2
    rw [h1, svOtherVals_pv]
    exact ccSet_pv n t b value none

theorem svPeerBlocks_pv (value p n : Nat) :
    ∀ (bl : List Block) (ms : List (Nat × Nat × Block)) (t : Cache),
      (svPeerBlocks value p bl (ms, t) n).2.pv = t.pv := by
  intro bl
  induction bl with
  | nil => intro ms t; rfl
  | cons b rest ih =>
    intro ms t
    rw [svPeerBlocks]
    cases hcg : Cache.ccGet n t b value with
    | none => exact ih ms t
    | some cells =>
      dsimp only
      by_cases hp : p ∈ cells
      · rw [if_pos hp, ih]
        exact ccSet_pv n t b value _
      · rw [if_neg hp]
        exact ih ms t

theorem svAffected_spec {n value cell : Nat} {s : Cache}
    {maybeOpts : Option (List Nat)}
    (hn : 0 < n) (hcell : cell < n * n * (n * n))
    (hv1 : 1 ≤ value) (hv2 : value ≤ n * n)
    (hw : WFCache n s) (hc : ConsCache n s)
    (hmopts : maybeOpts = aget s.pv cell) :
    ∀ (ps : List Nat) (moves : List (Nat × Nat × Block))
      (affOpts : List (Nat × Nat)) (t : Cache),
    SvCore n value cell s moves affOpts t →
    SvDebt n value cell s moves affOpts ps t →
    (∀ u t', svAffected n value cell maybeOpts ps moves affOpts t = (.ok u, t') →
      u.optCell = cell ∧ u.opts = maybeOpts ∧
      SvCore n value cell s u.moves u.affOpts t' ∧
      SvDebt n value cell s u.moves u.affOpts [] t' ∧
      (∀ r ∈ moves, r ∈ u.moves) ∧
      (∀ pr ∈ affOpts, pr ∈ u.affOpts) ∧
      (∀ q ∈ ps, value ∈ (t.pvGet q).getD [] → (q, value) ∈ u.affOpts) ∧
      (∀ q, aget t'.pv q = some [] → aget t.pv q = some [])) ∧
    (∀ e t', svAffected n value cell maybeOpts ps moves affOpts t = (.error e, t') →
      e = ⟨cell⟩ ∧ t'.pv = s.pv ∧ t'.cc.length = s.cc.length ∧
      ∀ j, aget t'.cc j = aget s.cc j ∨
        (value ∉ (aget s.pv cell).getD [] ∧ aget s.cc j = some [] ∧
          aget t'.cc j = none)) := by
  obtain ⟨hpl, hcl, hpv, hccs, hccb⟩ := hw
  intro ps
  induction ps with
  | nil =>
    intro moves affOpts t core debt
    constructor
    · intro u t' hE
      rw [svAffected] at hE
      cases hE
      exact ⟨rfl, rfl, core, debt, fun r hr => hr, fun pr hpr => hpr,
        fun q hq => absurd hq (List.not_mem_nil q), fun q hq => hq⟩
    · intro e t' hE
      rw [svAffected] at hE
      cases hE
  | cons p rest ih =>
    intro moves affOpts t core debt
    cases hpvp : t.pvGet p with
    | none =>
      have hstep : svAffected n value cell maybeOpts (p :: rest) moves affOpts t
          = svAffected n value cell maybeOpts rest moves affOpts t := by
        rw [svAffected, hpvp]
      rw [hstep]
      have debtR : SvDebt n value cell s moves affOpts rest t := by
        intro r hr
        rcases debt r hr with h | ⟨h1, h2 | ⟨h3, h4, h5⟩⟩
        · exact Or.inl h
        · exact Or.inr ⟨h1, Or.inl h2⟩
        · rcases List.mem_cons.mp h4 with rfl | h4
          · exfalso
            rw [show aget t.pv r.2.1 = t.pvGet r.2.1 from rfl, hpvp] at h5
            cases h5
          · exact Or.inr ⟨h1, Or.inr ⟨h3, h4, h5⟩⟩
      obtain ⟨okIH, errIH⟩ := ih moves affOpts t core debtR
      refine ⟨?_, errIH⟩
      intro u t' hE
      obtain ⟨k1, k2, k3, k4, k5, k6, k7, k8⟩ := okIH u t' hE
      refine ⟨k1, k2, k3, k4, k5, k6, ?_, k8⟩
      intro q hq hval
      rcases List.mem_cons.mp hq with rfl | hq'
      · rw [hpvp] at hval
        simp at hval
      · exact k7 q hq' hval
    | some vals =>
      have hpne : p ≠ cell := by
        intro he
        rw [he] at hpvp
        rw [show t.pvGet cell = aget t.pv cell from rfl, core.pvCell] at hpvp
        cases hpvp
      have hplt : p < n * n * (n * n) := by
        by_contra hge
        rw [show t.pvGet p = aget t.pv p from rfl,
          aget_oob (by rw [core.pvlen, hpl]; omega)] at hpvp
        cases hpvp
      obtain ⟨hvalsS, hvalsB⟩ := core.wfPV p vals hpvp
      by_cases hcont : value ∈ vals
      · -- the value is removed from the peer's possible values
        have hcont' : vals.contains value = true := by
          have h0 : vals.contains value = decide (value ∈ vals) :=
            List.elem_eq_mem _ _
          rw [h0]
          exact decide_eq_true hcont
        have hsp : value ∈ (aget s.pv p).getD [] := by
          have := (core.toSvCoreNA.pv_mem p value hpne).mp (by
            rw [show aget t.pv p = t.pvGet p from rfl, hpvp]
            exact hcont)
          exact this.1
        -- the updated possible-values slot
        have hplen : p < t.pv.length := by rw [core.pvlen, hpl]; exact hplt
        have coreNA1 : SvCoreNA n value cell s moves (affOpts ++ [(p, value)])
            (t.pvSet p (some (serase value vals))) := by
          refine ⟨?_, ?_, ?_, ?_, ?_, ?_, ?_, ?_, ?_, ?_, ?_⟩
          · rw [pvSet_pv_length]; exact core.pvlen
          · show t.cc.length = _; exact core.cclen
          · intro j
            show insFold (recsCC n moves j) (aget t.cc j) = _ ∨ _
            exact core.restCC j
          · intro c hcne
            rw [recsPV_append, recsPV_singleton]
            by_cases hcp : p = c
            · subst hcp
              rw [if_pos rfl]
              rw [show aget (t.pvSet p (some (serase value vals))).pv p
                = some (serase value vals) from pvGet_pvSet_self hplen _]
              have hold := core.restPV p hcne
              rw [show aget t.pv p = t.pvGet p from rfl, hpvp] at hold
              have htgt : ∃ tl, aget s.pv p = some tl := by
                cases hx : aget s.pv p with
                | none =>
                  rw [hx] at hold
                  have := insFold_isSome (recsPV affOpts p) (some vals)
                  rw [hold] at this
                  simp at this
                | some tl => exact ⟨tl, rfl⟩
              obtain ⟨tl, htl⟩ := htgt
              rw [htl] at hold ⊢
              have htlS : SSorted tl := (hpv p tl htl).1
              exact insFold_serase_append hvalsS htlS hcont hold
            · rw [if_neg hcp, List.append_nil]
              rw [show aget (t.pvSet p (some (serase value vals))).pv c
                = aget t.pv c from pvGet_pvSet_ne hcp _]
              exact core.restPV c hcne
          · intro r hr
            show r.2.1 ∉ (aget t.cc _).getD []
            exact core.remCC r hr
          · intro pr hpr
            rcases List.mem_append.mp hpr with hpr | hpr
            · have hold := core.remPV pr hpr
              by_cases hcp : p = pr.1
              · rw [← hcp]
                rw [show aget (t.pvSet p (some (serase value vals))).pv p
                  = some (serase value vals) from pvGet_pvSet_self hplen _]
                rw [← hcp, show aget t.pv p = t.pvGet p from rfl, hpvp] at hold
                intro hmm
                exact hold ((mem_serase hvalsS).mp hmm).1
              · rw [show aget (t.pvSet p (some (serase value vals))).pv pr.1
                  = aget t.pv pr.1 from pvGet_pvSet_ne hcp _]
                exact hold
            · rw [List.mem_singleton] at hpr
              subst hpr
              show value ∉ _
              rw [show aget (t.pvSet p (some (serase value vals))).pv p
                = some (serase value vals) from pvGet_pvSet_self hplen _]
              intro hmm
              exact ((mem_serase hvalsS).mp hmm).2 rfl
          · rw [show aget (t.pvSet p (some (serase value vals))).pv cell
              = aget t.pv cell from pvGet_pvSet_ne hpne _]
            exact core.pvCell
          · intro c l hl
            by_cases hcp : p = c
            · subst hcp
              rw [show aget (t.pvSet p (some (serase value vals))).pv p
                = some (serase value vals) from pvGet_pvSet_self hplen _] at hl
              cases hl
              exact ⟨serase_sorted hvalsS,
                fun w hw => hvalsB w ((mem_serase hvalsS).mp hw).1⟩
            · rw [show aget (t.pvSet p (some (serase value vals))).pv c
                = aget t.pv c from pvGet_pvSet_ne hcp _] at hl
              exact core.wfPV c l hl
          · show ∀ j l, aget t.cc j = some l → _
            exact core.wfCC
          · show ∀ blk w l, _ → _ → _ → aget t.cc _ = some l → _
            exact core.wfCCB
          · show ∀ r ∈ moves, _
            exact core.balMv
        have exc1 : ∀ pr ∈ affOpts ++ [(p, value)], pr ≠ (p, value) →
            pr.1 ≠ cell ∧ pr.1 < n * n * (n * n) ∧
            ∀ blk ∈ blocksOf n pr.1, (pr.2, pr.1, blk) ∈ moves := by
          intro pr hpr hprne
          rcases List.mem_append.mp hpr with hpr | hpr
          · exact core.balAff pr hpr
          · rw [List.mem_singleton] at hpr
            exact absurd hpr hprne
        have debt1 : SvDebt n value cell s moves (affOpts ++ [(p, value)]) rest
            (t.pvSet p (some (serase value vals))) := by
          intro r hr
          rcases debt r hr with h | ⟨h1, h2 | ⟨h3, h4, h5⟩⟩
          · exact Or.inl h
          · exact Or.inr ⟨h1, Or.inl (List.mem_append.mpr (Or.inl h2))⟩
          · by_cases hrp : r.2.1 = p
            · refine Or.inr ⟨h1, Or.inl (List.mem_append.mpr (Or.inr ?_))⟩
              rw [List.mem_singleton, hrp, h3]
            · rcases List.mem_cons.mp h4 with he | h4
              · exact absurd he hrp
              · refine Or.inr ⟨h1, Or.inr ⟨h3, h4, ?_⟩⟩
                rw [show aget (t.pvSet p (some (serase value vals))).pv r.2.1
                  = aget t.pv r.2.1 from pvGet_pvSet_ne (fun he => hrp he.symm) _]
                exact h5
        obtain ⟨g1, g2, g3, g4, g5, g6⟩ := svPeerBlocks_spec hn hcell hv1 hv2
          ⟨hpl, hcl, hpv, hccs, hccb⟩ hc hpne hplt hsp
          (List.mem_append.mpr (Or.inr (List.mem_singleton.mpr rfl)))
          (blocksOf n p) moves (t.pvSet p (some (serase value vals))) rest
          (fun b2 hb2 => hb2) (blocksOf_pairwise_ne n p) coreNA1 exc1 debt1
        have core2 : SvCore n value cell s
            (svPeerBlocks value p (blocksOf n p)
              (moves, t.pvSet p (some (serase value vals))) n).1
            (affOpts ++ [(p, value)])
            (svPeerBlocks value p (blocksOf n p)
              (moves, t.pvSet p (some (serase value vals))) n).2 := by
          refine ⟨g2, ?_⟩
          intro pr hpr
          by_cases hprne : pr = (p, value)
          · subst hprne
            exact ⟨hpne, hplt, g6⟩
          · exact g3 pr hpr hprne
        have hstep : svAffected n value cell maybeOpts (p :: rest) moves affOpts t
            = if (serase value vals).isEmpty then
                (.error ⟨cell⟩, undoApply n
                  ⟨(svPeerBlocks value p (blocksOf n p)
                    (moves, t.pvSet p (some (serase value vals))) n).1, cell,
                    maybeOpts, affOpts ++ [(p, value)]⟩
                  (svPeerBlocks value p (blocksOf n p)
                    (moves, t.pvSet p (some (serase value vals))) n).2)
              else svAffected n value cell maybeOpts rest
                (svPeerBlocks value p (blocksOf n p)
                  (moves, t.pvSet p (some (serase value vals))) n).1
                (affOpts ++ [(p, value)])
                (svPeerBlocks value p (blocksOf n p)
                  (moves, t.pvSet p (some (serase value vals))) n).2 := by
          rw [svAffected, hpvp]
          dsimp only
          rw [if_pos hcont']
        rw [hstep]
        by_cases hie : (serase value vals).isEmpty
        · rw [if_pos hie]
          have hrest := core2.restore ⟨hpl, hcl, hpv, hccs, hccb⟩ hcell
          constructor
          · intro u t' hE
            cases hE
          · intro e t' hE
            cases hE
            rw [hmopts]
            exact ⟨rfl, hrest.1, hrest.2.1, hrest.2.2⟩
        · rw [if_neg hie]
          obtain ⟨okIH, errIH⟩ := ih _ _ _ core2 g4
          refine ⟨?_, errIH⟩
          intro u t' hE
          obtain ⟨k1, k2, k3, k4, k5, k6, k7, k8⟩ := okIH u t' hE
          have hpvEq : ∀ q, q ≠ p →
              aget (svPeerBlocks value p (blocksOf n p)
                (moves, t.pvSet p (some (serase value vals))) n).2.pv q
              = aget t.pv q := by
            intro q hqp
            rw [svPeerBlocks_pv]
            exact pvGet_pvSet_ne (fun he => hqp he.symm) _
          have hpvP : aget (svPeerBlocks value p (blocksOf n p)
                (moves, t.pvSet p (some (serase value vals))) n).2.pv p
              = some (serase value vals) := by
            rw [svPeerBlocks_pv]
            exact pvGet_pvSet_self hplen _
          refine ⟨k1, k2, k3, k4, fun r hr => k5 r (g5 r hr), ?_, ?_, ?_⟩
          · intro pr hpr
            exact k6 pr (List.mem_append.mpr (Or.inl hpr))
          · intro q hq hval
            by_cases hqp : q = p
            · rw [hqp]
              exact k6 (p, value)
                (List.mem_append.mpr (Or.inr (List.mem_singleton.mpr rfl)))
            · rcases List.mem_cons.mp hq with he | hq'
              · exact absurd he hqp
              · refine k7 q hq' ?_
                show value ∈ (aget (svPeerBlocks value p (blocksOf n p)
                  (moves, t.pvSet p (some (serase value vals))) n).2.pv q).getD []
                rw [hpvEq q hqp]
                exact hval
          · intro q hq
            have h3 := k8 q hq
            by_cases hqp : q = p
            · rw [hqp, hpvP] at h3
              exfalso
              have hse : serase value vals = [] := Option.some.inj h3
              apply hie
              rw [hse]
              rfl
            · rw [hpvEq q hqp] at h3
              exact h3
      · -- the value was not possible at the peer
        have hcont' : vals.contains value = false := by
          have h0 : vals.contains value = decide (value ∈ vals) :=
            List.elem_eq_mem _ _
          rw [h0]
          exact decide_eq_false hcont
        have hstep : svAffected n value cell maybeOpts (p :: rest) moves affOpts t
            = if vals.isEmpty then
                (.error ⟨cell⟩, undoApply n ⟨moves, cell, maybeOpts, affOpts⟩ t)
              else svAffected n value cell maybeOpts rest moves affOpts t := by
          rw [svAffected, hpvp]
          dsimp only
          rw [if_neg (by rw [hcont']; exact Bool.false_ne_true)]
        rw [hstep]
        by_cases hie : vals.isEmpty
        · rw [if_pos hie]
          have hrest := core.restore ⟨hpl, hcl, hpv, hccs, hccb⟩ hcell
          constructor
          · intro u t' hE
            cases hE
          · intro e t' hE
            cases hE
            rw [hmopts]
            exact ⟨rfl, hrest.1, hrest.2.1, hrest.2.2⟩
        · rw [if_neg hie]
          have debtR : SvDebt n value cell s moves affOpts rest t := by
            intro r hr
            rcases debt r hr with h | ⟨h1, h2 | ⟨h3, h4, h5⟩⟩
            · exact Or.inl h
            · exact Or.inr ⟨h1, Or.inl h2⟩
            · rcases List.mem_cons.mp h4 with he | h4
              · exfalso
                rw [he, show aget t.pv p = t.pvGet p from rfl, hpvp] at h5
                exact hcont h5
              · exact Or.inr ⟨h1, Or.inr ⟨h3, h4, h5⟩⟩
          obtain ⟨okIH, errIH⟩ := ih moves affOpts t core debtR
          refine ⟨?_, errIH⟩
          intro u t' hE
          obtain ⟨k1, k2, k3, k4, k5, k6, k7, k8⟩ := okIH u t' hE
          refine ⟨k1, k2, k3, k4, k5, k6, ?_, k8⟩
          intro q hq hval
          rcases List.mem_cons.mp hq with he | hq'
          · exfalso
            rw [he, hpvp] at hval
            exact hcont hval
          · exact k7 q hq' hval

theorem setValue_spec {n value cell : Nat} {s : Cache}
    (hw : WFCache n s) (hc : ConsCache n s)
    (hcell : cell < n * n * (n * n)) (hv1 : 1 ≤ value) (hv2 : value ≤ n * n) :
    (∀ u t', setValue n value cell s = (.ok u, t') →
      u.optCell = cell ∧ u.opts = aget s.pv cell ∧
      SvCore n value cell s u.moves u.affOpts t' ∧
      SvDebt n value cell s u.moves u.affOpts [] t' ∧
      (∀ w ∈ (aget s.pv cell).getD [], ∀ blk ∈ blocksOf n cell,
        (w, cell, blk) ∈ u.moves) ∧
      (∀ q ∈ affCells n cell, q ≠ cell → value ∈ (aget s.pv q).getD [] →
        (q, value) ∈ u.affOpts) ∧
      (∀ q, q ≠ cell → aget t'.pv q = some [] → aget s.pv q = some [])) ∧
    (∀ e t', setValue n value cell s = (.error e, t') →
      e = ⟨cell⟩ ∧ t'.pv = s.pv ∧ t'.cc.length = s.cc.length ∧
      ∀ j, aget t'.cc j = aget s.cc j ∨
        (value ∉ (aget s.pv cell).getD [] ∧ aget s.cc j = some [] ∧
          aget t'.cc j = none)) := by
  obtain ⟨hpl, hcl, hpv, hccs, hccb⟩ := hw
  have hn : 0 < n := by
    rcases Nat.eq_zero_or_pos n with rfl | h
    · omega
    · exact h
  have core0 : SvCore n value cell s [] [] (s.pvSet cell none) := by
    refine ⟨⟨?_, ?_, ?_, ?_, ?_, ?_, ?_, ?_, ?_, ?_, ?_⟩, ?_⟩
    · rw [pvSet_pv_length]
    · rfl
    · intro j
      exact Or.inl rfl
    · intro c hcne
      show insFold [] (aget (s.pvSet cell none).pv c) = _
      rw [show insFold [] (aget (s.pvSet cell none).pv c)
        = aget (s.pvSet cell none).pv c from rfl]
      exact pvGet_pvSet_ne (fun he => hcne he.symm) _
    · intro r hr; cases hr
    · intro pr hpr; cases hpr
    · show (s.pvSet cell none).pvGet cell = none
      exact pvGet_pvSet_self (by rw [hpl]; exact hcell) _
    · intro c l hl
      by_cases hcne : cell = c
      · subst hcne
        rw [show aget (s.pvSet cell none).pv cell = none from
          pvGet_pvSet_self (by rw [hpl]; exact hcell) _] at hl
        cases hl
      · rw [show aget (s.pvSet cell none).pv c = aget s.pv c from
          pvGet_pvSet_ne hcne _] at hl
        exact hpv c l hl
    · intro j l hl
      exact hccs j l hl
    · intro blk w l hv h1 h2 hl
      exact hccb blk w l hv h1 h2 hl
    · intro r hr; cases hr
    · intro pr hpr; cases hpr
  have debt0 : SvDebt n value cell s [] [] (affCells n cell)
      (s.pvSet cell none) := by
    intro r hr; cases hr
  obtain ⟨b1, b2, b3, b4, b5⟩ := svBlocks_spec hn hcell hv1 hv2
    ⟨hpl, hcl, hpv, hccs, hccb⟩ hc (show s.pvGet cell = aget s.pv cell from rfl)
    (blocksOf n cell) [] (s.pvSet cell none) (fun b hb => hb)
    (blocksOf_pairwise_ne n cell) (fun b hb w hw1 hw2 => rfl) core0 debt0
  obtain ⟨okA, errA⟩ := svAffected_spec hn hcell hv1 hv2
    ⟨hpl, hcl, hpv, hccs, hccb⟩ hc
    (show s.pvGet cell = aget s.pv cell from rfl) (affCells n cell)
    (svBlocks n value cell (s.pvGet cell) (blocksOf n cell)
      ([], s.pvSet cell none)).1 []
    (svBlocks n value cell (s.pvGet cell) (blocksOf n cell)
      ([], s.pvSet cell none)).2 b2 b3
  have hsv : setValue n value cell s
      = svAffected n value cell (s.pvGet cell) (affCells n cell)
        (svBlocks n value cell (s.pvGet cell) (blocksOf n cell)
          ([], s.pvSet cell none)).1 []
        (svBlocks n value cell (s.pvGet cell) (blocksOf n cell)
          ([], s.pvSet cell none)).2 := rfl
  constructor
  · intro u t' hE
    rw [hsv] at hE
    obtain ⟨k1, k2, k3, k4, k5, k6, k7, k8⟩ := okA u t' hE
    have hpvtop : ∀ q, q ≠ cell →
        (svBlocks n value cell (s.pvGet cell) (blocksOf n cell)
          ([], s.pvSet cell none)).2.pvGet q = aget s.pv q := by
      intro q hqc
      show aget (svBlocks n value cell (s.pvGet cell) (blocksOf n cell)
        ([], s.pvSet cell none)).2.pv q = aget s.pv q
      rw [svBlocks_pv]
      exact pvGet_pvSet_ne (fun he => hqc he.symm) _
    refine ⟨k1, k2, k3, k4, ?_, ?_, ?_⟩
    · intro w hwm blk hblk
      exact k5 _ (b5 w hwm blk hblk (Or.inr hblk))
    · intro q hq hqc hval
      refine k7 q hq ?_
      rw [hpvtop q hqc]
      exact hval
    · intro q hqc hempty
      have h3 := k8 q hempty
      rw [show aget (svBlocks n value cell (s.pvGet cell) (blocksOf n cell)
        ([], s.pvSet cell none)).2.pv q
        = (svBlocks n value cell (s.pvGet cell) (blocksOf n cell)
          ([], s.pvSet cell none)).2.pvGet q from rfl, hpvtop q hqc] at h3
      exact h3
  · intro e t' hE
    rw [hsv] at hE
    exact errA e t' hE

theorem setValue_err_full {n value cell : Nat} {s : Cache}
    {e : NoCadidatesLeftError} {t' : Cache}
    (hw : WFCache n s) (hc : ConsCache n s)
    (hcell : cell < n * n * (n * n)) (hv1 : 1 ≤ value) (hv2 : value ≤ n * n)
    (hE : setValue n value cell s = (.error e, t')) :
    e = ⟨cell⟩ ∧ WFCache n t' ∧ ConsCache n t' ∧
    (value ∈ (aget s.pv cell).getD [] → t' = s) := by
  obtain ⟨k1, k2, k3, k4⟩ := (setValue_spec hw hc hcell hv1 hv2).2 e t' hE
  obtain ⟨hpl, hcl, hpv, hccs, hccb⟩ := hw
  refine ⟨k1, ⟨?_, ?_, ?_, ?_, ?_⟩, ?_, ?_⟩
  · rw [k2]; exact hpl
  · rw [k3]; exact hcl
  · intro c l hl
    rw [show t'.pvGet c = aget t'.pv c from rfl, k2] at hl
    exact hpv c l hl
  · intro j l hl
    rcases k4 j with h | ⟨_, _, h3⟩
    · rw [h] at hl; exact hccs j l hl
    · rw [h3] at hl; cases hl
  · intro blk w l hvb h1 h2 hl
    rw [show Cache.ccGet n t' blk w = aget t'.cc (keyIdx n blk w) from rfl] at hl
    rcases k4 (keyIdx n blk w) with h | ⟨_, _, h3⟩
    · rw [h] at hl
      exact hccb blk w l hvb h1 h2 hl
    · rw [h3] at hl; cases hl
  · intro q hq w hw1 hw2 blk hblk
    have horig := hc q hq w hw1 hw2 blk hblk
    rw [Cache.ccGet] at horig
    show w ∈ ((t'.pvGet q).getD []) ↔ q ∈ ((Cache.ccGet n t' blk w).getD [])
    rw [show t'.pvGet q = aget t'.pv q from rfl, k2,
      show Cache.ccGet n t' blk w = aget t'.cc (keyIdx n blk w) from rfl]
    rcases k4 (keyIdx n blk w) with h | ⟨_, h2e, h3⟩
    · rw [h]; exact horig
    · rw [h3]
      rw [h2e] at horig
      constructor
      · intro hm
        have := horig.mp hm
        simp at this
      · intro hm
        simp at hm
  · intro hvin
    refine cache_ext ?_ ?_ ?_ ?_
    · rw [k2]
    · exact k3
    · intro j; rw [k2]
    · intro j
      rcases k4 j with h | ⟨hvnot, _, _⟩
      · exact h
      · exact absurd hvin hvnot

theorem setValue_ok_full {n value cell : Nat} {s : Cache}
    {u : UndoSetValue} {t' : Cache}
    (hw : WFCache n s) (hc : ConsCache n s)
    (hcell : cell < n * n * (n * n)) (hv1 : 1 ≤ value) (hv2 : value ≤ n * n)
    (hE : setValue n value cell s = (.ok u, t')) :
    WFCache n t' ∧ ConsCache n t' ∧ BalToken n u ∧
    u.optCell = cell ∧ t'.pvGet u.optCell = none ∧
    (value ∈ (aget s.pv cell).getD [] → undoApply n u t' = s) := by
  obtain ⟨k1, k2, k3, k4, k5, k6, k7⟩ := (setValue_spec hw hc hcell hv1 hv2).1 u t' hE
  obtain ⟨hpl, hcl, hpv, hccs, hccb⟩ := hw
  have hn : 0 < n := by
    rcases Nat.eq_zero_or_pos n with rfl | h
    · omega
    · exact h
  have hWF : WFCache n t' := by
    refine ⟨?_, ?_, ?_, ?_, ?_⟩
    · rw [k3.pvlen]; exact hpl
    · rw [k3.cclen]; exact hcl
    · exact k3.wfPV
    · exact k3.wfCC
    · intro blk w l hvb h1 h2 hl
      exact k3.wfCCB blk w l hvb h1 h2 hl
  have hBal : BalToken n u := by
    refine ⟨?_, ?_, ?_, ?_, ?_⟩
    · rw [k1]; exact hcell
    · intro l hl
      rw [k2] at hl
      exact hpv cell l hl
    · intro pr hpr
      obtain ⟨e1, e2, e3⟩ := k3.balAff pr hpr
      exact ⟨by rw [k1]; exact e1, e2, e3⟩
    · intro w hwm blk hblk
      rw [k2] at hwm
      rw [k1] at hblk
      rw [k1]
      exact k5 w hwm blk hblk
    · intro r hr
      obtain ⟨m1, m2, m3, m4⟩ := k3.balMv r hr
      refine ⟨m1, m2, m3, m4, ?_⟩
      rcases k4 r hr with ⟨d1, d2⟩ | ⟨d1, d2 | ⟨_, d4, _⟩⟩
      · exact Or.inl ⟨by rw [k1]; exact d1, by rw [k2]; exact d2⟩
      · exact Or.inr ⟨by rw [k1]; exact d1, d2⟩
      · cases d4
  have hCons : ConsCache n t' := by
    intro q hq w hw1 hw2 blk hblk
    have hvq := validBlock_of_mem_blocksOf hn hq hblk
    have hccm := k3.toSvCoreNA.cc_mem (keyIdx n blk w) q
    have hrec_iff : q ∈ recsCC n u.moves (keyIdx n blk w)
        ↔ (w, q, blk) ∈ u.moves := by
      constructor
      · intro h
        rcases mem_recsCC.mp h with ⟨⟨r1, r21, r22⟩, hrm, hkeq, hr21⟩
        obtain ⟨m1, m2, m3, m4⟩ := k3.balMv _ hrm
        have hr21' : r21 = q := hr21
        subst hr21'
        have hinj := keyIdx_inj (validBlock_of_mem_blocksOf hn m2 m1) hvq
          m3 m4 hw1 hw2 hkeq
        have he1 : r22 = blk := hinj.1
        have he2 : r1 = w := hinj.2
        subst he1; subst he2
        exact hrm
      · intro h
        exact mem_recsCC.mpr ⟨(w, q, blk), h, rfl, rfl⟩
    show w ∈ ((t'.pvGet q).getD []) ↔ q ∈ ((Cache.ccGet n t' blk w).getD [])
    rw [show Cache.ccGet n t' blk w = aget t'.cc (keyIdx n blk w) from rfl]
    by_cases hqc : q = cell
    · subst hqc
      rw [show t'.pvGet q = aget t'.pv q from rfl, k3.pvCell]
      refine iff_of_false (by simp) ?_
      intro hmem
      obtain ⟨hs1, hs2⟩ := hccm.mp hmem
      by_cases hwo : w ∈ (aget s.pv q).getD []
      · exact hs2 (hrec_iff.mpr (k5 w hwo blk hblk))
      · have horig := hc q hq w hw1 hw2 blk hblk
        rw [Cache.ccGet] at horig
        exact hwo (horig.mpr hs1)
    · have hpvm := k3.toSvCoreNA.pv_mem q w hqc
      have haff_iff : w ∈ recsPV u.affOpts q ↔ (q, w) ∈ u.affOpts := by
        constructor
        · intro h
          rcases mem_recsPV.mp h with ⟨⟨a1, a2⟩, ham, h1, h2⟩
          have h1' : a1 = q := h1
          have h2' : a2 = w := h2
          subst h1'; subst h2'
          exact ham
        · intro h
          exact mem_recsPV.mpr ⟨(q, w), h, rfl, rfl⟩
      rw [show t'.pvGet q = aget t'.pv q from rfl]
      have horig := hc q hq w hw1 hw2 blk hblk
      rw [Cache.ccGet] at horig
      constructor
      · intro hmem
        obtain ⟨hs1, hs2⟩ := hpvm.mp hmem
        refine hccm.mpr ⟨horig.mp hs1, ?_⟩
        intro hrec
        have hmv := hrec_iff.mp hrec
        rcases k4 _ hmv with ⟨d1, _⟩ | ⟨_, d2 | ⟨_, d4, _⟩⟩
        · exact hqc d1
        · exact hs2 (haff_iff.mpr d2)
        · cases d4
      · intro hmem
        obtain ⟨hs1, hs2⟩ := hccm.mp hmem
        refine hpvm.mpr ⟨horig.mpr hs1, ?_⟩
        intro haf
        have haffm := haff_iff.mp haf
        obtain ⟨e1, e2, e3⟩ := k3.balAff _ haffm
        exact hs2 (hrec_iff.mpr (e3 blk hblk))
  refine ⟨hWF, hCons, hBal, k1, by rw [k1]; exact k3.pvCell, ?_⟩
  intro hvin
  have hu : u = ⟨u.moves, cell, aget s.pv cell, u.affOpts⟩ := by
    rcases u with ⟨um, uc, uo, ua⟩
    have k1' : uc = cell := k1
    have k2' : uo = aget s.pv cell := k2
    rw [k1', k2']
  rw [hu]
  have hrest := k3.restore ⟨hpl, hcl, hpv, hccs, hccb⟩ hcell
  refine cache_ext ?_ ?_ ?_ ?_
  · rw [hrest.1]
  · exact hrest.2.1
  · intro j; rw [hrest.1]
  · intro j
    rcases hrest.2.2 j with h | ⟨hvnot, _, _⟩
    · exact h
    · exact absurd hvin hvnot

/-- Facts about a successful `set_value` on top of `setValue_ok_full`, used by
the solver-level invariant: the token records the popped option set, the
possible-values map only shrinks (slot-wise and member-wise), the bucket map
only shrinks member-wise, every `affected_cell_options` cell had a live
possible-values entry, every `moves` record points at the set cell or an
affected cell, peers that held the value are recorded, and no entry is
emptied. -/
theorem setValue_ok_extra {n value cell : Nat} {s : Cache}
    {u : UndoSetValue} {t' : Cache}
    (hw : WFCache n s) (hc : ConsCache n s)
    (hcell : cell < n * n * (n * n)) (hv1 : 1 ≤ value) (hv2 : value ≤ n * n)
    (hE : setValue n value cell s = (.ok u, t')) :
    u.opts = aget s.pv cell ∧
    (∀ q, aget s.pv q = none → aget t'.pv q = none) ∧
    (∀ q w, w ∈ (aget t'.pv q).getD [] → w ∈ (aget s.pv q).getD []) ∧
    (∀ j q, q ∈ (aget t'.cc j).getD [] → q ∈ (aget s.cc j).getD []) ∧
    (∀ pr ∈ u.affOpts, (aget s.pv pr.1).isSome = true) ∧
    (∀ r ∈ u.moves, r.2.1 = cell ∨ (r.2.1, r.1) ∈ u.affOpts) ∧
    (∀ q ∈ affCells n cell, q ≠ cell → value ∈ (aget s.pv q).getD [] →
      (q, value) ∈ u.affOpts) ∧
    (∀ q, q ≠ cell → aget t'.pv q = some [] → aget s.pv q = some []) ∧
    (∀ pr ∈ u.affOpts, pr.2 ∉ (aget t'.pv pr.1).getD []) ∧
    (∀ pr ∈ u.affOpts, pr.2 ∈ (aget s.pv pr.1).getD []) := by
  obtain ⟨k1, k2, k3, k4, k5, k6, k7⟩ :=
    (setValue_spec hw hc hcell hv1 hv2).1 u t' hE
  refine ⟨k2, ?_, ?_, ?_, ?_, ?_, k6, k7, k3.toSvCoreNA.remPV, ?_⟩
  · intro q hq
    by_cases hqc : q = cell
    · rw [hqc]
      exact k3.pvCell
    · have hrest := k3.restPV q hqc
      rw [hq] at hrest
      cases hx : aget t'.pv q with
      | none => rfl
      | some l =>
        exfalso
        have hS := insFold_isSome (recsPV u.affOpts q) (aget t'.pv q)
        rw [hrest, hx] at hS
        simp at hS
  · intro q w hw2
    by_cases hqc : q = cell
    · rw [hqc, k3.pvCell] at hw2
      simp at hw2
    · exact ((k3.toSvCoreNA.pv_mem q w hqc).mp hw2).1
  · intro j q hq
    exact ((k3.toSvCoreNA.cc_mem j q).mp hq).1
  · intro pr hpr
    obtain ⟨e1, _, _⟩ := k3.balAff pr hpr
    have hrest := k3.restPV pr.1 e1
    have hS := insFold_isSome (recsPV u.affOpts pr.1) (aget t'.pv pr.1)
    rw [hrest] at hS
    have hne : (recsPV u.affOpts pr.1).isEmpty = false := by
      have hmm : pr.2 ∈ recsPV u.affOpts pr.1 := mem_recsPV.mpr ⟨pr, hpr, rfl, rfl⟩
      cases hrp : recsPV u.affOpts pr.1 with
      | nil => rw [hrp] at hmm; cases hmm
      | cons a l => rfl
    rw [hne] at hS
    simp at hS
    exact hS
  · intro r hr
    rcases k4 r hr with ⟨d1, _⟩ | ⟨_, d2 | ⟨_, d4, _⟩⟩
    · exact Or.inl d1
    · exact Or.inr d2
    · cases d4
  · intro pr hpr
    obtain ⟨e1, _, _⟩ := k3.balAff pr hpr
    have hrec : pr.2 ∈ recsPV u.affOpts pr.1 :=
      mem_recsPV.mpr ⟨pr, hpr, rfl, rfl⟩
    have hmm := (insFold_mem (recsPV u.affOpts pr.1) (aget t'.pv pr.1)
      pr.2).mpr (Or.inr hrec)
    rw [k3.restPV pr.1 e1] at hmm
    exact hmm

/-- Facts about a failed `set_value`: the possible-values map is untouched
and the bucket map only shrinks member-wise. -/
theorem setValue_err_extra {n value cell : Nat} {s : Cache}
    {e : NoCadidatesLeftError} {t' : Cache}
    (hw : WFCache n s) (hc : ConsCache n s)
    (hcell : cell < n * n * (n * n)) (hv1 : 1 ≤ value) (hv2 : value ≤ n * n)
    (hE : setValue n value cell s = (.error e, t')) :
    t'.pv = s.pv ∧
    (∀ j q, q ∈ (aget t'.cc j).getD [] → q ∈ (aget s.cc j).getD []) := by
  obtain ⟨k1, k2, k3, k4⟩ := (setValue_spec hw hc hcell hv1 hv2).2 e t' hE
  refine ⟨k2, ?_⟩
  intro j q hq
  rcases k4 j with h | ⟨_, _, h3⟩
  · rw [← h]
    exact hq
  · rw [h3] at hq
    simp at hq

/-! ## Claim C1: the cache consistency invariant holds at every reachable state -/

theorem reach_WF_Cons {b : Board} {s : Cache} (h : Reach b s) :
    WFCache b.base s ∧ ConsCache b.base s := by
  induction h with
  | init =>
    rcases Nat.eq_zero_or_pos b.base with h0 | hn
    · constructor
      · refine ⟨fromBoard_pv_length b, fromBoard_cc_length b, ?_, ?_, ?_⟩
        · intro c l hl
          rw [Cache.pvGet, aget_oob (by rw [fromBoard_pv_length, h0]; omega)] at hl
          cases hl
        · intro j l hl
          rw [aget_oob (by rw [fromBoard_cc_length, h0]; omega)] at hl
          cases hl
        · intro blk v l hvb h1 h2 hl
          rw [Cache.ccGet,
            aget_oob (by rw [fromBoard_cc_length, h0]; omega)] at hl
          cases hl
      · intro c hcb
        rw [h0] at hcb
        omega
    · exact ⟨fromBoard_WF hn, fromBoard_Cons hn⟩
  | setOk hre hcb hv1 hv2 hE ih =>
    obtain ⟨hw, hcons⟩ := ih
    obtain ⟨hWF, hCons, _, _, _, _⟩ := setValue_ok_full hw hcons hcb hv1 hv2 hE
    exact ⟨hWF, hCons⟩
  | setErr hre hcb hv1 hv2 hE ih =>
    obtain ⟨hw, hcons⟩ := ih
    obtain ⟨_, hWF, hCons, _⟩ := setValue_err_full hw hcons hcb hv1 hv2 hE
    exact ⟨hWF, hCons⟩
  | undo hre hbal hnone ih =>
    obtain ⟨hw, hcons⟩ := ih
    exact ⟨undoApply_WF hw hbal, undoApply_Cons hw hcons hbal hnone⟩
  | removeCand hre ih =>
    obtain ⟨hw, hcons⟩ := ih
    exact ⟨removeCandidate_WF hw, removeCandidate_Cons hw hcons⟩
  | reset hre hcb hso hbo hsub ih =>
    obtain ⟨hw, hcons⟩ := ih
    exact ⟨resetCandidates_WF hw hcb hso hbo,
      resetCandidates_Cons hw hcons hcb hso hbo hsub⟩

/-- **C1.** For every cache state reachable from `CandidateCache::from_board`
by the call sequences the solver issues (`set_value` — successful or failed —
`undo` of balanced tokens, `remove_candidate`, and `reset_candidates`), and
for every cell `c`, value `v` in `1..=n²` and block `r` containing `c`:
`v ∈ possible_values[c]` iff `c ∈ candidate_cells[(r, v)]`. -/
theorem c1_cache_consistency {b : Board} {s : Cache} (h : Reach b s) :
    ∀ c, c < b.base * b.base * (b.base * b.base) →
    ∀ v, 1 ≤ v → v ≤ b.base * b.base →
    ∀ blk, blk ∈ blocksOf b.base c →
    (v ∈ (s.pvGet c).getD [] ↔ c ∈ (Cache.ccGet b.base s blk v).getD []) :=
  (reach_WF_Cons h).2

theorem c1_cache_consistency_witness :
    3 ∈ ((Cache.fromBoard (Board.empty 2)).pvGet 5).getD [] ↔
    5 ∈ (Cache.ccGet 2 (Cache.fromBoard (Board.empty 2)) (Block.line 1) 3).getD [] :=
  c1_cache_consistency (Reach.init : Reach (Board.empty 2) _)
    5 (by decide) 3 (by decide) (by decide) (Block.line 1) (by decide)

/-! ## Claim C2: `set_value` / `undo` round-trip on a freshly built cache -/

/-- **C2.** For every cache built by `CandidateCache::from_board` and every
legal `(value, cell)` pair (the value is among the cell's possible values) for
which `set_value` returns `Ok(token)`, `undo(token)` restores the cache to a
state equal, field by field, to the state before the call.  (`set_value` and
`undo` take no grid argument at all — the `Board` is a separate structure the
cache operations never touch — so the grid is unchanged across the pair of
calls by construction.) -/
theorem c2_roundtrip {b : Board} {value cell : Nat} {u : UndoSetValue}
    {t' : Cache}
    (hlegal : value ∈ ((Cache.fromBoard b).pvGet cell).getD [])
    (hE : setValue b.base value cell (Cache.fromBoard b) = (.ok u, t')) :
    undoApply b.base u t' = Cache.fromBoard b := by
  have hsome : ∃ l, (Cache.fromBoard b).pvGet cell = some l := by
    cases hx : (Cache.fromBoard b).pvGet cell with
    | none => rw [hx] at hlegal; cases hlegal
    | some l => exact ⟨l, rfl⟩
  obtain ⟨l, hl⟩ := hsome
  have hcell : cell < b.base * b.base * (b.base * b.base) := by
    by_contra hge
    rw [Cache.pvGet, aget_oob (by rw [fromBoard_pv_length]; omega)] at hl
    cases hl
  have hn : 0 < b.base := by
    rcases Nat.eq_zero_or_pos b.base with h0 | h
    · rw [h0] at hcell; omega
    · exact h
  have hw := fromBoard_WF hn
  have hlegal' : value ∈ l := by
    rw [hl] at hlegal
    exact hlegal
  have hbounds := (hw.2.2.1 cell l hl).2 value hlegal'
  exact (setValue_ok_full hw (fromBoard_Cons hn) hcell hbounds.1
    hbounds.2 hE).2.2.2.2.2 hlegal

set_option maxHeartbeats 2000000 in
theorem c2_roundtrip_witness :
    undoApply 1
      (match (setValue 1 1 0 (Cache.fromBoard (Board.empty 1))).1 with
        | .ok u => u
        | .error _ => ⟨[], 0, none, []⟩)
      (setValue 1 1 0 (Cache.fromBoard (Board.empty 1))).2
      = Cache.fromBoard (Board.empty 1) := by
  refine c2_roundtrip (show (1 : Nat) ∈
    ((Cache.fromBoard (Board.empty 1)).pvGet 0).getD [] by decide) ?_
  decide

/-! ## Claim C5: `set_value` error behaviour -/

set_option maxHeartbeats 4000000 in
/-- The original claim is wrong about the error payload: here a peer cell
(index 5, whose only candidate is the assigned value 4) has its candidate set
emptied during `set_value(4, cell 9)`, yet the returned error carries the
*assigned* cell 9, not the offending peer 5 (`NoCadidatesLeftError(cell)` at
`candidate_cache.rs:172`).  The rollback part of the claim does hold: the
post-call cache equals the pre-call cache. -/
theorem c5_counterexample :
    (setValue 2 4 9 (Cache.fromBoard c5Board)).1
        = .error ⟨9⟩ ∧
    ((Cache.fromBoard c5Board).pvGet 5).getD [] = [4] ∧
    Peer 2 9 5 ∧ (9 : Nat) ≠ 5 ∧
    (setValue 2 4 9 (Cache.fromBoard c5Board)).2 = Cache.fromBoard c5Board := by
  refine ⟨by decide, by decide, Or.inr (Or.inl rfl), by decide, by decide⟩

/-- **C5 (corrected).** If, during `set_value(value, cell)` on a well-formed
consistent cache with `value` among `cell`'s possible values, any peer cell's
candidate set becomes empty, the call undoes every change it made — the cache
after the call equals the cache before — and returns `NoCadidatesLeftError`
carrying the *assigned* cell (not the emptied peer). -/
theorem c5_error_rollback {n value cell : Nat} {s : Cache}
    {e : NoCadidatesLeftError} {t' : Cache}
    (hw : WFCache n s) (hc : ConsCache n s)
    (hvin : value ∈ (s.pvGet cell).getD [])
    (hE : setValue n value cell s = (.error e, t')) :
    t' = s ∧ e.cell = cell := by
  have hsome : ∃ l, s.pvGet cell = some l := by
    cases hx : s.pvGet cell with
    | none => rw [hx] at hvin; cases hvin
    | some l => exact ⟨l, rfl⟩
  obtain ⟨l, hl⟩ := hsome
  have hcell : cell < n * n * (n * n) := by
    by_contra hge
    rw [Cache.pvGet, aget_oob (by rw [hw.1]; omega)] at hl
    cases hl
  have hvin' : value ∈ l := by
    rw [hl] at hvin
    exact hvin
  have hbounds := (hw.2.2.1 cell l hl).2 value hvin'
  have hfull := setValue_err_full hw hc hcell hbounds.1 hbounds.2 hE
  exact ⟨hfull.2.2.2 hvin, by rw [hfull.1]⟩

set_option maxHeartbeats 4000000 in
theorem c5_error_rollback_witness :
    (setValue 2 4 9 (Cache.fromBoard c5Board)).2 = Cache.fromBoard c5Board ∧
    (NoCadidatesLeftError.mk 9).cell = 9 :=
  c5_error_rollback (fromBoard_WF (by decide)) (fromBoard_Cons (by decide))
    (show (4 : Nat) ∈ ((Cache.fromBoard c5Board).pvGet 9).getD [] by decide)
    (show setValue 2 4 9 (Cache.fromBoard c5Board)
      = (.error ⟨9⟩, (setValue 2 4 9 (Cache.fromBoard c5Board)).2) by decide)

/-! ## Claim C9: the uniqueness check probes exactly the recorded guesses -/

/-- **C9.** For every puzzle (in particular every puzzle produced by
`generate`), `is_solution_unique()` returns `false` exactly when some recorded
guess cell `c` with recorded alternative values has an alternative `v` such
that placing `v` at `c` on a copy of `board()` yields a board on which
`solve()` succeeds; otherwise it returns `true`.  The check consults only the
recorded `guesses` map — no other cell or value is ever tried. -/
theorem c9_unique_check (fuel : Nat) (p : Puzzle) :
    isSolutionUnique fuel p = false ↔
      ∃ cg, cg ∈ p.guesses ∧ ∃ v, v ∈ cg.2 ∧
        ((dsolve fuel (p.board.setCell cg.1 v)).map SR.isOk).getD false = true := by
  rw [isSolutionUnique]
  simp only [List.all_eq_false, Bool.not_eq_true, Bool.not_eq_false,
    Bool.not_eq_false', List.any_eq_true]

/-! ## Claim C3: solution validity after a successful solve -/

/-- **C3** fails on the crate's own `test_solved` fixture: on the fully filled
9×9 board whose every row reads `123456789`, `solve()` returns `Ok` and leaves
the board unchanged, although the board violates the claimed validity — cells
0 and 9 are two distinct cells of the same column (column 0) both holding the
value 1, so that column does not contain each value exactly once.  (The solver
only checks that no *open* cell has an empty candidate set; a board with no
open cells passes vacuously and is declared solved at once.) -/
theorem c3_solve_accepts_invalid :
    ((dsolve 1 rowsBoard).map SR.isOk).getD false = true ∧
    ((dsolve 1 rowsBoard).map SR.board).getD (Board.empty 3) = rowsBoard ∧
    rowsBoard.get 0 = some 1 ∧ rowsBoard.get 9 = some 1 ∧
    colOf 3 0 = colOf 3 9 ∧ (0 : Nat) ≠ 9 := by
  refine ⟨?_, ?_, by decide, by decide, by decide, by decide⟩
  · decide
  · decide

/-! ## Claim C6: duplicate-containing boards -/

/-- The universal statement of **C6** is false: the fully filled 9×9 board
whose every row reads `123456789` contains two identical values in one column
(cells 0 and 9, both in column 0, both holding 1), yet `solve()` returns `Ok`,
not `UnsolvableError`. -/
theorem c6_counterexample :
    ((dsolve 1 rowsBoardC6).map SR.isOk).getD false = true ∧
    rowsBoardC6.get 0 = some 1 ∧ rowsBoardC6.get 9 = some 1 ∧
    colOf 3 0 = colOf 3 9 ∧ (0 : Nat) ≠ 9 := by
  refine ⟨?_, by decide, by decide, by decide, by decide⟩
  decide

/-- **C6 (corrected).** Whenever some in-range cell of the input board has an
empty set of legal candidates (as happens for duplicate-containing boards with
a suitably constrained open cell — e.g. a board carrying `1 2 3` in its first
line whose cell `(0,3)` sees all nine values), `solve()` returns
`UnsolvableError` from its entry check, without a panic and with the board and
a freshly built cache untouched.  Fully filled duplicate-containing boards,
however, escape this check and are declared solved (see the counterexample
above), so the original universal claim had to be weakened. -/
theorem c6_dead_cell_unsolvable {b : Board} {c : Nat} (fuel : Nat)
    (hc : c < b.base * b.base * (b.base * b.base))
    (hdead : legalValues b c = some []) :
    dsolve fuel b = some (.unsolvable ⟨b, Cache.fromBoard b, []⟩) := by
  have hany : (Cache.fromBoard b).pv.any (fun e => e == some []) = true := by
    rw [List.any_eq_true]
    refine ⟨legalValues b c, ?_, ?_⟩
    · show legalValues b c ∈ (Cache.fromBoard b).pv
      have hpv : (Cache.fromBoard b).pv
          = (List.range (b.base * b.base * (b.base * b.base))).map
            (fun q => legalValues b q) := rfl
      rw [hpv]
      exact List.mem_map.mpr ⟨c, List.mem_range.mpr hc, rfl⟩
    · rw [hdead]
      rfl
  show (if (Cache.fromBoard b).pv.any (fun e => e == some []) = true
      then some (SR.unsolvable ⟨b, Cache.fromBoard b, []⟩)
      else solveLoop (fun _ => canonicalOrd b.base) (fun _ => noPick) fuel
        ⟨b, Cache.fromBoard b, []⟩)
    = some (SR.unsolvable ⟨b, Cache.fromBoard b, []⟩)
  rw [if_pos hany]

theorem c6_dead_cell_unsolvable_witness :
    dsolve 0 deadCellBoard
      = some (.unsolvable ⟨deadCellBoard, Cache.fromBoard deadCellBoard, []⟩) :=
  @c6_dead_cell_unsolvable deadCellBoard 3 0 (by decide) (by decide)

/-! ## Claim C7: the guess step -/

theorem pairwise_enumFrom_fst {α : Type} (l : List α) :
    ∀ i, (l.enumFrom i).Pairwise (fun a b : Nat × α => a.1 < b.1) := by
  induction l with
  | nil => intro i; exact List.Pairwise.nil
  | cons x xs ih =>
    intro i
    rw [List.enumFrom_cons]
    refine List.Pairwise.cons ?_ (ih (i + 1))
    intro p hp
    have h1 := (List.mem_enumFrom hp).1
    show i < p.1
    omega

theorem pairwise_enum_fst {α : Type} (l : List α) :
    l.enum.Pairwise (fun a b : Nat × α => a.1 < b.1) :=
  pairwise_enumFrom_fst l 0

/-- Membership in the open-cell list the guess step folds over. -/
theorem mem_guessCand {s : Cache} {c : Nat} {vals : List Nat} :
    (c, vals) ∈ s.pv.enum.filterMap
        (fun ce => ce.2.map (fun vals => (ce.1, vals)))
      ↔ s.pvGet c = some vals := by
  rw [List.mem_filterMap]
  constructor
  · rintro ⟨⟨i, e⟩, hmem, hf⟩
    cases e with
    | none => cases hf
    | some l =>
      have h1 : ((i, l) : Nat × List Nat) = (c, vals) := Option.some.inj hf
      have h2 : i = c := congrArg Prod.fst h1
      have h3 : l = vals := congrArg Prod.snd h1
      subst h2; subst h3
      have hget := List.mem_enum_iff_getElem?.mp hmem
      rw [Cache.pvGet, aget_get_eq, List.get?_eq_getElem?]
      rw [show s.pv[(i, some l).1]? = s.pv[i]? from rfl] at hget
      rw [hget]
      rfl
  · intro h
    refine ⟨(c, some vals), ?_, rfl⟩
    rw [List.mem_enum_iff_getElem?]
    show s.pv[c]? = some (some vals)
    rw [← List.get?_eq_getElem?]
    rw [Cache.pvGet, aget_get_eq] at h
    cases hg : s.pv.get? c with
    | none => rw [hg] at h; cases h
    | some e =>
      rw [hg] at h
      have he : e = some vals := h
      rw [he]

theorem guessCand_pairwise (s : Cache) :
    (s.pv.enum.filterMap
        (fun ce => ce.2.map (fun vals => (ce.1, vals)))).Pairwise
      (fun a b : Nat × List Nat => a.1 < b.1) := by
  rw [List.pairwise_filterMap]
  refine List.Pairwise.imp ?_ (pairwise_enum_fst s.pv)
  intro a b hab x hx y hy
  cases ha : a.2 with
  | none => rw [ha] at hx; cases hx
  | some l =>
    rw [ha] at hx
    have hx1 : x = (a.1, l) := (Option.some.inj hx).symm
    cases hb : b.2 with
    | none => rw [hb] at hy; cases hy
    | some m =>
      rw [hb] at hy
      have hy1 : y = (b.1, m) := (Option.some.inj hy).symm
      rw [hx1, hy1]
      exact hab

/-- The running fold of `min_by_key`: the result is a member of the folded
list, has minimal `len()`, and — when the list carries strictly ascending cell
indices — is the *first* entry attaining the minimum (replacement happens only
on a strict decrease). -/
theorem foldMin_spec (rest : List (Nat × List Nat)) :
    ∀ x : Nat × List Nat,
      (rest.foldl (fun b y => if y.2.length < b.2.length then y else b) x)
          ∈ x :: rest ∧
      (∀ z ∈ x :: rest,
        (rest.foldl (fun b y => if y.2.length < b.2.length then y else b)
          x).2.length ≤ z.2.length) ∧
      ((x :: rest).Pairwise (fun a b => a.1 < b.1) →
        ∀ z ∈ x :: rest,
          z.2.length = (rest.foldl
            (fun b y => if y.2.length < b.2.length then y else b) x).2.length →
          (rest.foldl (fun b y => if y.2.length < b.2.length then y else b)
            x).1 ≤ z.1) := by
  induction rest with
  | nil =>
    intro x
    refine ⟨List.mem_singleton.mpr rfl, ?_, ?_⟩
    · intro z hz
      rw [List.mem_singleton] at hz
      subst hz
      exact Nat.le_refl _
    · intro _ z hz _
      rw [List.mem_singleton] at hz
      subst hz
      exact Nat.le_refl _
  | cons p ps ih =>
    intro x
    rw [List.foldl_cons]
    by_cases hlt : p.2.length < x.2.length
    · rw [if_pos hlt]
      obtain ⟨ihmem, ihmin, ihfirst⟩ := ih p
      refine ⟨List.mem_cons_of_mem x ihmem, ?_, ?_⟩
      · intro z hz
        rcases List.mem_cons.mp hz with h | h
        · subst h
          exact Nat.le_of_lt (Nat.lt_of_le_of_lt
            (ihmin p (List.mem_cons_self p ps)) hlt)
        · exact ihmin z h
      · intro hpw z hz hlen
        have hpw' := (List.pairwise_cons.mp hpw).2
        rcases List.mem_cons.mp hz with h | h
        · subst h
          have h1 := ihmin p (List.mem_cons_self p ps)
          omega
        · exact ihfirst hpw' z h hlen
    · rw [if_neg hlt]
      obtain ⟨ihmem, ihmin, ihfirst⟩ := ih x
      refine ⟨?_, ?_, ?_⟩
      · rcases List.mem_cons.mp ihmem with h | h
        · exact List.mem_cons.mpr (Or.inl h)
        · exact List.mem_cons_of_mem x (List.mem_cons_of_mem p h)
      · intro z hz
        rcases List.mem_cons.mp hz with h | h
        · subst h
          exact ihmin z (List.mem_cons_self z ps)
        · rcases List.mem_cons.mp h with h2 | h2
          · subst h2
            exact Nat.le_trans (ihmin x (List.mem_cons_self x ps))
              (Nat.le_of_not_lt hlt)
          · exact ihmin z (List.mem_cons_of_mem x h2)
      · intro hpw z hz hlen
        have hx1 := (List.pairwise_cons.mp hpw).1
        have htail := List.pairwise_cons.mp (List.pairwise_cons.mp hpw).2
        have hpw' : (x :: ps).Pairwise (fun a b : Nat × List Nat => a.1 < b.1) :=
          List.pairwise_cons.mpr
            ⟨fun w hw => hx1 w (List.mem_cons_of_mem p hw), htail.2⟩
        rcases List.mem_cons.mp hz with h | h
        · subst h
          exact ihfirst hpw' z (List.mem_cons_self z ps) hlen
        · rcases List.mem_cons.mp h with h2 | h2
          · subst h2
            have hle := ihmin x (List.mem_cons_self x ps)
            rcases Nat.eq_or_lt_of_le hle with heq | hlt2
            · have hfx := ihfirst hpw' x (List.mem_cons_self x ps) heq.symm
              have hxp := hx1 z (List.mem_cons_self z ps)
              omega
            · have hxp := Nat.le_of_not_lt hlt
              omega
          · exact ihfirst hpw' z (List.mem_cons_of_mem x h2) hlen

/-- Reduction of `guess` once the open-cell list is known to be nonempty. -/
theorem guessMove_eq_of_cand (pick : List Nat → Option Nat) {s : Cache}
    {x : Nat × List Nat} {rest : List (Nat × List Nat)}
    (hcand : s.pv.enum.filterMap (fun ce => ce.2.map (fun vals => (ce.1, vals)))
      = x :: rest) :
    guessMove pick s
      = ((rest.foldl (fun b y => if y.2.length < b.2.length then y else b) x).1,
         (pick (rest.foldl (fun b y => if y.2.length < b.2.length then y else b)
             x).2).getD
           ((rest.foldl (fun b y => if y.2.length < b.2.length then y else b)
             x).2.headD 0)) := by
  rw [guessMove]
  rw [hcand]

/-- The original claim is wrong about the randomized cell choice: on the
empty 4×4 board every open cell ties for the minimal candidate count (cells 0
and 5 both hold `[1,2,3,4]`), yet the guess lands on cell 0 under the
deterministic draw *and* under a draw that favours the last element — the rng
reaches only the value, never the cell, so no draw can move the guess to the
equally minimal cell 5. -/
theorem c7_counterexample :
    ((Cache.fromBoard empty4).pvGet 0).getD [] = [1, 2, 3, 4] ∧
    ((Cache.fromBoard empty4).pvGet 5).getD [] = [1, 2, 3, 4] ∧
    (guessMove noPick (Cache.fromBoard empty4)).1 = 0 ∧
    (guessMove (fun l => l.getLast?) (Cache.fromBoard empty4)).1 = 0 ∧
    (guessMove noPick (Cache.fromBoard empty4)).2 = 1 ∧
    (guessMove (fun l => l.getLast?) (Cache.fromBoard empty4)).2 = 4 := by
  exact ⟨by decide, by decide, by decide, by decide, by decide, by decide⟩

set_option maxHeartbeats 1000000 in
/-- **C7 (corrected).** The guess step always selects an open cell with the
fewest remaining candidates, and in *both* modes the tie is broken by
iteration order: the chosen cell is the first minimal-candidate cell of the
ascending iteration (least index) and is entirely independent of the rng —
`min_by_key` keeps the incumbent on ties and never consults the draw.  Only
the *value* is randomized: it is the rng draw over the chosen cell's
candidates when one is made, and the first candidate otherwise.  The claimed
uniform random choice among all minimal-candidate cells does not happen. -/
theorem c7_guess_characterization (pick : List Nat → Option Nat) (s : Cache)
    {c0 : Nat} {vals0 : List Nat} (h0 : s.pvGet c0 = some vals0) :
    ((s.pvGet (guessMove pick s).1).isSome = true) ∧
    (∀ c vals, s.pvGet c = some vals →
      ((s.pvGet (guessMove pick s).1).getD []).length ≤ vals.length) ∧
    (∀ c vals, s.pvGet c = some vals →
      vals.length = ((s.pvGet (guessMove pick s).1).getD []).length →
      (guessMove pick s).1 ≤ c) ∧
    ((guessMove pick s).1 = (guessMove noPick s).1) ∧
    ((guessMove pick s).2
      = (pick ((s.pvGet (guessMove pick s).1).getD [])).getD
          (((s.pvGet (guessMove pick s).1).getD []).headD 0)) := by
  have hmem0 : (c0, vals0) ∈ s.pv.enum.filterMap
      (fun ce => ce.2.map (fun vals => (ce.1, vals))) := mem_guessCand.mpr h0
  cases hcand : s.pv.enum.filterMap
      (fun ce => ce.2.map (fun vals => (ce.1, vals))) with
  | nil => rw [hcand] at hmem0; cases hmem0
  | cons x rest =>
    obtain ⟨hrmem, hrmin, hrfirst⟩ := foldMin_spec rest x
    have hpw : (x :: rest).Pairwise (fun a b : Nat × List Nat => a.1 < b.1) := by
      rw [← hcand]
      exact guessCand_pairwise s
    have hg := guessMove_eq_of_cand pick hcand
    have hgn := guessMove_eq_of_cand noPick hcand
    have hrpv : s.pvGet
        (rest.foldl (fun b y => if y.2.length < b.2.length then y else b) x).1
      = some (rest.foldl
          (fun b y => if y.2.length < b.2.length then y else b) x).2 := by
      apply mem_guessCand.mp
      rw [hcand]
      exact hrmem
    have hbv : (s.pvGet (guessMove pick s).1).getD []
        = (rest.foldl (fun b y => if y.2.length < b.2.length then y else b)
            x).2 := by
      rw [hg]
      dsimp only
      rw [hrpv]
      rfl
    refine ⟨?_, ?_, ?_, ?_, ?_⟩
    · rw [hg]
      dsimp only
      rw [hrpv]
      rfl
    · intro c vals hc
      have hmemc : (c, vals) ∈ x :: rest := by
        rw [← hcand]
        exact mem_guessCand.mpr hc
      have hm := hrmin (c, vals) hmemc
      rw [hbv]
      exact hm
    · intro c vals hc hlen
      have hmemc : (c, vals) ∈ x :: rest := by
        rw [← hcand]
        exact mem_guessCand.mpr hc
      rw [hbv] at hlen
      have hf := hrfirst hpw (c, vals) hmemc hlen
      rw [hg]
      exact hf
    · rw [hg, hgn]
    · rw [hg]
      dsimp only
      rw [hrpv]
      rfl

set_option maxHeartbeats 1000000 in
theorem c7_guess_characterization_witness :
    (((Cache.fromBoard empty4).pvGet
        (guessMove noPick (Cache.fromBoard empty4)).1).getD []).length
      ≤ ([1, 2, 3, 4] : List Nat).length ∧
    (guessMove noPick (Cache.fromBoard empty4)).1 ≤ 5 := by
  have h := c7_guess_characterization noPick (Cache.fromBoard empty4)
    (show (Cache.fromBoard empty4).pvGet 3 = some [1, 2, 3, 4] by decide)
  refine ⟨h.2.1 5 [1, 2, 3, 4] (by decide), ?_⟩
  exact h.2.2.1 5 [1, 2, 3, 4] (by decide) (by decide)

/-! ## Claim C4: determinism of the non-random solve -/

theorem psorted_nil : PSorted [] := List.Pairwise.nil

theorem psorted_cons {x : Nat × Nat} {xs : List (Nat × Nat)} :
    PSorted (x :: xs) ↔
      (∀ y ∈ xs, x.1 < y.1 ∨ (x.1 = y.1 ∧ x.2 < y.2)) ∧ PSorted xs := by
  simp [PSorted, List.pairwise_cons]

theorem pR_total {a x : Nat × Nat}
    (h1 : ¬(a.1 < x.1 ∨ (a.1 = x.1 ∧ a.2 < x.2))) (h2 : a ≠ x) :
    x.1 < a.1 ∨ (x.1 = a.1 ∧ x.2 < a.2) := by
  rw [Ne, Prod.ext_iff] at h2
  omega

theorem mem_pinsert {a b : Nat × Nat} {l : List (Nat × Nat)} :
    b ∈ pinsert a l ↔ b = a ∨ b ∈ l := by
  induction l with
  | nil => simp [pinsert]
  | cons x xs ih =>
    rw [pinsert]
    by_cases h1 : a.1 < x.1 ∨ (a.1 = x.1 ∧ a.2 < x.2)
    · rw [if_pos h1]; simp only [List.mem_cons]
    · rw [if_neg h1]
      by_cases h2 : a = x
      · rw [if_pos h2]; subst h2; simp only [List.mem_cons]; tauto
      · rw [if_neg h2]; simp only [List.mem_cons, ih]; tauto

theorem pinsert_psorted {a : Nat × Nat} {l : List (Nat × Nat)} (h : PSorted l) :
    PSorted (pinsert a l) := by
  induction l with
  | nil => simp [pinsert, PSorted]
  | cons x xs ih =>
    obtain ⟨hx, hxs⟩ := psorted_cons.mp h
    by_cases h1 : a.1 < x.1 ∨ (a.1 = x.1 ∧ a.2 < x.2)
    · rw [pinsert, if_pos h1, psorted_cons]
      refine ⟨?_, h⟩
      intro y hy
      rcases List.mem_cons.mp hy with rfl | hy
      · exact h1
      · have := hx y hy
        omega
    · by_cases h2 : a = x
      · subst h2
        rw [pinsert, if_neg h1, if_pos rfl]
        exact h
      · rw [pinsert, if_neg h1, if_neg h2, psorted_cons]
        refine ⟨?_, ih hxs⟩
        intro y hy
        rcases mem_pinsert.mp hy with rfl | hy
        · exact pR_total h1 h2
        · exact hx y hy

/-- Two `BTreeSet`-ordered pair lists with the same members are equal. -/
theorem psorted_ext {l l' : List (Nat × Nat)} (h : PSorted l) (h' : PSorted l')
    (hm : ∀ x, x ∈ l ↔ x ∈ l') : l = l' := by
  induction l generalizing l' with
  | nil =>
    cases l' with
    | nil => rfl
    | cons y ys => exact absurd ((hm y).mpr (List.mem_cons_self _ _)) (by simp)
  | cons x xs ih =>
    cases l' with
    | nil => exact absurd ((hm x).mp (List.mem_cons_self _ _)) (by simp)
    | cons y ys =>
      rw [PSorted, List.pairwise_cons] at h h'
      have hxy : x = y := by
        rcases List.mem_cons.mp ((hm x).mp (List.mem_cons_self _ _)) with h1 | h1
        · exact h1
        · rcases List.mem_cons.mp ((hm y).mpr (List.mem_cons_self _ _)) with h2 | h2
          · exact h2.symm
          · have ha := h.1 y h2
            have hb := h'.1 x h1
            rw [Prod.ext_iff]
            omega
      subst hxy
      have hxs : xs = ys := by
        refine ih h.2 h'.2 (fun z => ?_)
        constructor
        · intro hz
          rcases List.mem_cons.mp ((hm z).mp (List.mem_cons_of_mem _ hz))
            with rfl | h2
          · exact absurd hz (by intro hmem; have := h.1 z hmem; omega)
          · exact h2
        · intro hz
          rcases List.mem_cons.mp ((hm z).mpr (List.mem_cons_of_mem _ hz))
            with rfl | h2
          · exact absurd hz (by intro hmem; have := h'.1 z hmem; omega)
          · exact h2
      rw [hxs]

/-- The hidden-singles fold: the accumulated set stays sorted, and its members
are exactly the starting members plus one `(cell, value)` pair per probed
singleton bucket — in particular the result depends only on *which* keys the
probe order visits, not on their order or multiplicity. -/
theorem hsFold_spec (n : Nat) (s : Cache) :
    ∀ (ord : List (Block × Nat)) (acc : List (Nat × Nat)), PSorted acc →
      PSorted (ord.foldl (fun acc kv =>
        match Cache.ccGet n s kv.1 kv.2 with
        | some [c] => pinsert (c, kv.2) acc
        | _ => acc) acc) ∧
      ∀ p, p ∈ ord.foldl (fun acc kv =>
          match Cache.ccGet n s kv.1 kv.2 with
          | some [c] => pinsert (c, kv.2) acc
          | _ => acc) acc ↔
        p ∈ acc ∨ ∃ k, k ∈ ord ∧ Cache.ccGet n s k.1 k.2 = some [p.1] ∧
          p.2 = k.2 := by
  intro ord
  induction ord with
  | nil =>
    intro acc hacc
    refine ⟨hacc, fun p => ?_⟩
    simp
  | cons kv rest ih =>
    intro acc hacc
    rw [List.foldl_cons]
    cases hcg : Cache.ccGet n s kv.1 kv.2 with
    | none =>
      obtain ⟨ih1, ih2⟩ := ih acc hacc
      refine ⟨ih1, fun p => ?_⟩
      rw [ih2 p]
      constructor
      · rintro (hp | ⟨k, hk, hks⟩)
        · exact Or.inl hp
        · exact Or.inr ⟨k, List.mem_cons_of_mem kv hk, hks⟩
      · rintro (hp | ⟨k, hk, hk1, hk2⟩)
        · exact Or.inl hp
        · rcases List.mem_cons.mp hk with rfl | hk'
          · rw [hcg] at hk1
            cases hk1
          · exact Or.inr ⟨k, hk', hk1, hk2⟩
    | some cs =>
      cases cs with
      | nil =>
        obtain ⟨ih1, ih2⟩ := ih acc hacc
        refine ⟨ih1, fun p => ?_⟩
        rw [ih2 p]
        constructor
        · rintro (hp | ⟨k, hk, hks⟩)
          · exact Or.inl hp
          · exact Or.inr ⟨k, List.mem_cons_of_mem kv hk, hks⟩
        · rintro (hp | ⟨k, hk, hk1, hk2⟩)
          · exact Or.inl hp
          · rcases List.mem_cons.mp hk with rfl | hk'
            · rw [hcg] at hk1
              cases hk1
            · exact Or.inr ⟨k, hk', hk1, hk2⟩
      | cons c cs2 =>
        cases cs2 with
        | nil =>
          obtain ⟨ih1, ih2⟩ := ih (pinsert (c, kv.2) acc) (pinsert_psorted hacc)
          refine ⟨ih1, fun p => ?_⟩
          rw [ih2 p, mem_pinsert]
          constructor
          · rintro ((rfl | hp) | ⟨k, hk, hks⟩)
            · refine Or.inr ⟨kv, List.mem_cons_self kv rest, ?_, rfl⟩
              rw [hcg]
            · exact Or.inl hp
            · exact Or.inr ⟨k, List.mem_cons_of_mem kv hk, hks⟩
          · rintro (hp | ⟨k, hk, hk1, hk2⟩)
            · exact Or.inl (Or.inr hp)
            · rcases List.mem_cons.mp hk with rfl | hk'
              · rw [hcg] at hk1
                have hc : c = p.1 := List.head_eq_of_cons_eq (Option.some.inj hk1)
                refine Or.inl (Or.inl ?_)
                rw [Prod.ext_iff]
                exact ⟨hc.symm, hk2⟩
              · exact Or.inr ⟨k, hk', hk1, hk2⟩
        | cons c2 cs3 =>
          obtain ⟨ih1, ih2⟩ := ih acc hacc
          refine ⟨ih1, fun p => ?_⟩
          rw [ih2 p]
          constructor
          · rintro (hp | ⟨k, hk, hks⟩)
            · exact Or.inl hp
            · exact Or.inr ⟨k, List.mem_cons_of_mem kv hk, hks⟩
          · rintro (hp | ⟨k, hk, hk1, hk2⟩)
            · exact Or.inl hp
            · rcases List.mem_cons.mp hk with rfl | hk'
              · rw [hcg] at hk1
                cases Option.some.inj hk1
              · exact Or.inr ⟨k, hk', hk1, hk2⟩

/-- `hidden_singles` collects into a `BTreeSet`, so any two probe orders
visiting the same set of keys produce the same snapshot. -/
theorem hiddenSingles_perm {n : Nat} {ord ord' : List (Block × Nat)} (s : Cache)
    (h : ∀ k, k ∈ ord ↔ k ∈ ord') :
    hiddenSingles n ord s = hiddenSingles n ord' s := by
  obtain ⟨h1, h2⟩ := hsFold_spec n s ord [] psorted_nil
  obtain ⟨h1', h2'⟩ := hsFold_spec n s ord' [] psorted_nil
  refine psorted_ext h1 h1' (fun p => ?_)
  rw [hiddenSingles, hiddenSingles, h2 p, h2' p]
  simp only [List.not_mem_nil, false_or]
  constructor
  · rintro ⟨k, hk, hks⟩
    exact ⟨k, (h k).mp hk, hks⟩
  · rintro ⟨k, hk, hks⟩
    exact ⟨k, (h k).mpr hk, hks⟩

theorem solveIteration_ord_congr {ord ord' : List (Block × Nat)}
    (pick : List Nat → Option Nat) (s : SState)
    (h : ∀ k, k ∈ ord ↔ k ∈ ord') :
    solveIteration ord pick s = solveIteration ord' pick s := by
  rw [solveIteration, solveIteration, hiddenSingles_perm s.cache h]

theorem solveLoop_ord_congr (ords ords' : Nat → List (Block × Nat))
    (picks : Nat → List Nat → Option Nat)
    (h : ∀ i k, k ∈ ords i ↔ k ∈ ords' i) :
    ∀ fuel s, solveLoop ords picks fuel s = solveLoop ords' picks fuel s := by
  intro fuel
  induction fuel with
  | zero => intro s; rfl
  | succ fuel ih =>
    intro s
    rw [solveLoop]
    rw [solveLoop]
    rw [solveIteration_ord_congr (picks fuel) s (h fuel)]
    by_cases hall : (s.cache.pv.all Option.isNone) = true
    · rw [if_pos hall, if_pos hall]
    · rw [if_neg hall, if_neg hall]
      cases hit : solveIteration (ords' fuel) (picks fuel) s with
      | ok s' => exact ih s'
      | unsolvable s' => rfl

/-- **C4.** Non-random solving (`Board::solve`, which uses
`SudokuSolver::new`, so every rng draw is `None` — the `noPick` oracle) is
deterministic: the only run-to-run variation of the Rust program is the
unspecified `HashMap` iteration order probed by `hidden_singles`, and any two
probe-order families visiting the same key sets produce identical outcomes —
the same verdict, the same final board, cache and log.  `Board::solve` itself
is `dsolve`, the instance at the canonical probe order. -/
theorem c4_determinism (ords ords' : Nat → List (Block × Nat)) (fuel : Nat)
    (b : Board) (h : ∀ i k, k ∈ ords i ↔ k ∈ ords' i) :
    solveFull ords (fun _ => noPick) fuel b
      = solveFull ords' (fun _ => noPick) fuel b := by
  show (if (Cache.fromBoard b).pv.any (fun e => e == some []) = true
      then some (SR.unsolvable ⟨b, Cache.fromBoard b, []⟩)
      else solveLoop ords (fun _ => noPick) fuel ⟨b, Cache.fromBoard b, []⟩)
    = (if (Cache.fromBoard b).pv.any (fun e => e == some []) = true
      then some (SR.unsolvable ⟨b, Cache.fromBoard b, []⟩)
      else solveLoop ords' (fun _ => noPick) fuel ⟨b, Cache.fromBoard b, []⟩)
  by_cases hany : ((Cache.fromBoard b).pv.any (fun e => e == some [])) = true
  · rw [if_pos hany, if_pos hany]
  · rw [if_neg hany, if_neg hany]
    exact solveLoop_ord_congr ords ords' (fun _ => noPick) h fuel
      ⟨b, Cache.fromBoard b, []⟩

theorem c4_determinism_witness :
    solveFull (fun _ => canonicalOrd 2) (fun _ => noPick) 1 empty4
      = solveFull (fun _ => (canonicalOrd 2).reverse) (fun _ => noPick) 1
          empty4 :=
  c4_determinism (fun _ => canonicalOrd 2) (fun _ => (canonicalOrd 2).reverse)
    1 empty4 (fun _ _ => (List.mem_reverse).symm)

/-! ## Claim C10: board, legality and solver-state lemmas -/

theorem bget_setCell_ne {b : Board} {c q : Nat} (h : c ≠ q) (v : Nat) :
    (b.setCell c v).get q = b.get q := aget_set_ne h _

theorem bget_unset_ne {b : Board} {c q : Nat} (h : c ≠ q) :
    (b.unset c).get q = b.get q := aget_set_ne h _

theorem bget_unset_self (b : Board) (c : Nat) : (b.unset c).get c = none := by
  by_cases h : c < b.cells.length
  · exact aget_set_self h _
  · show aget (b.cells.set c none) c = none
    rw [List.set_eq_of_length_le (by omega)]
    exact aget_oob (by omega)

theorem unset_blen (b : Board) (c : Nat) :
    (b.unset c).cells.length = b.cells.length := by
  show (b.cells.set c none).length = _
  exact List.length_set b.cells c none

theorem setCell_blen (b : Board) (c v : Nat) :
    (b.setCell c v).cells.length = b.cells.length := by
  show (b.cells.set c (some v)).length = _
  exact List.length_set b.cells c _

theorem unset_setCell_same (b : Board) (c v : Nat) :
    (b.setCell c v).unset c = b.unset c := by
  show Board.mk b.base ((b.cells.set c (some v)).set c none)
    = Board.mk b.base (b.cells.set c none)
  rw [List.set_set]

theorem unset_comm (b : Board) (a c : Nat) :
    (b.unset a).unset c = (b.unset c).unset a := by
  by_cases h : a = c
  · rw [h]
  · show Board.mk b.base ((b.cells.set a none).set c none)
      = Board.mk b.base ((b.cells.set c none).set a none)
    rw [List.set_comm none none b.cells h]

theorem unsetAll_cons (a : Nat) (l : List Nat) (b : Board) :
    unsetAll (a :: l) b = unsetAll l (b.unset a) := rfl

theorem unsetAll_unset (l : List Nat) (b : Board) (c : Nat) :
    unsetAll l (b.unset c) = (unsetAll l b).unset c := by
  induction l generalizing b with
  | nil => rfl
  | cons a rest ih =>
    rw [unsetAll_cons, unsetAll_cons, unset_comm]
    exact ih (b.unset a)

theorem unsetAll_base (l : List Nat) (b : Board) :
    (unsetAll l b).base = b.base := by
  induction l generalizing b with
  | nil => rfl
  | cons a rest ih =>
    rw [unsetAll_cons]
    exact ih (b.unset a)

theorem legal_congr {b1 b2 : Board} (hb : b1.base = b2.base)
    (hg : ∀ p, b1.get p = b2.get p) (c : Nat) :
    legalValues b1 c = legalValues b2 c := by
  have hfun : (fun v => ! (affCells b2.base c).any (fun p => b1.get p == some v))
      = (fun v => ! (affCells b2.base c).any (fun p => b2.get p == some v)) := by
    funext v
    have hf2 : (fun p => b1.get p == some v) = (fun p => b2.get p == some v) := by
      funext p
      rw [hg p]
    rw [hf2]
  rw [legalValues, legalValues]
  rw [hg c, hb, hfun]

theorem legal_some_none {b : Board} {c : Nat} {l : List Nat}
    (h : legalValues b c = some l) : b.get c = none := by
  rw [legalValues] at h
  by_cases hs : (b.get c).isSome = true
  · rw [if_pos hs] at h
    cases h
  · cases hx : b.get c with
    | none => rfl
    | some v =>
      rw [hx] at hs
      simp at hs

theorem legal_unset_mono {b : Board} {c d v : Nat}
    (hv : v ∈ (legalValues b c).getD []) :
    v ∈ (legalValues (b.unset d) c).getD [] := by
  have hbc : b.get c = none := by
    cases hx : legalValues b c with
    | none =>
      rw [hx] at hv
      simp at hv
    | some l => exact legal_some_none hx
  have hbc2 : (b.unset d).get c = none := by
    by_cases hdc : d = c
    · rw [hdc]
      exact bget_unset_self b c
    · rw [bget_unset_ne hdc]
      exact hbc
  rw [mem_legal hbc] at hv
  rw [mem_legal hbc2]
  refine ⟨hv.1, hv.2.1, ?_⟩
  intro p hp
  by_cases hdp : d = p
  · rw [← hdp, bget_unset_self]
    intro he
    cases he
  · rw [bget_unset_ne hdp]
    exact hv.2.2 p hp

theorem legal_unsetAll_mono {b : Board} {c v : Nat} (l : List Nat)
    (hv : v ∈ (legalValues b c).getD []) :
    v ∈ (legalValues (unsetAll l b) c).getD [] := by
  induction l generalizing b with
  | nil => exact hv
  | cons a rest ih =>
    rw [unsetAll_cons]
    exact ih (legal_unset_mono hv)

theorem mem_serase_weak {a x : Nat} {l : List Nat} (h : x ∈ serase a l) :
    x ∈ l := by
  induction l with
  | nil => exact h
  | cons y ys ih =>
    rw [serase] at h
    by_cases hay : a = y
    · rw [if_pos hay] at h
      exact List.mem_cons_of_mem _ h
    · rw [if_neg hay] at h
      rcases List.mem_cons.mp h with rfl | h2
      · exact List.mem_cons_self _ _
      · exact List.mem_cons_of_mem _ (ih h2)

theorem mem_nakedSingles {s : Cache} {c v : Nat} :
    (c, v) ∈ nakedSingles s ↔ s.pvGet c = some [v] := by
  rw [nakedSingles, List.mem_filterMap]
  constructor
  · rintro ⟨⟨i, e⟩, hmem, hf⟩
    cases e with
    | none => cases hf
    | some l =>
      cases l with
      | nil => cases hf
      | cons w tail =>
        cases tail with
        | nil =>
          have h1 : ((i, w) : Nat × Nat) = (c, v) := Option.some.inj hf
          have h2 : i = c := congrArg Prod.fst h1
          have h3 : w = v := congrArg Prod.snd h1
          subst h2
          subst h3
          have hget := List.mem_enum_iff_getElem?.mp hmem
          rw [Cache.pvGet, aget_get_eq, List.get?_eq_getElem?]
          rw [show s.pv[((i : Nat), some [w]).1]? = s.pv[i]? from rfl] at hget
          rw [hget]
          rfl
        | cons w2 tail2 => cases hf
  · intro h
    refine ⟨(c, some [v]), ?_, rfl⟩
    rw [List.mem_enum_iff_getElem?]
    show s.pv[c]? = some (some [v])
    rw [← List.get?_eq_getElem?]
    rw [Cache.pvGet, aget_get_eq] at h
    cases hg : s.pv.get? c with
    | none =>
      rw [hg] at h
      cases h
    | some e =>
      rw [hg] at h
      have he : e = some [v] := h
      rw [he]

theorem mem_canonicalOrd {n : Nat} {kv : Block × Nat} (h : kv ∈ canonicalOrd n) :
    ValidBlock n kv.1 ∧ 1 ≤ kv.2 ∧ kv.2 ≤ n * n := by
  rw [canonicalOrd] at h
  rcases List.mem_map.mp h with ⟨k, hk, hkv⟩
  rw [List.mem_range] at hk
  have hn2 : 0 < n * n := by
    rcases Nat.eq_zero_or_pos (n * n) with h0 | hpos
    · rw [h0] at hk
      simp at hk
    · exact hpos
  subst hkv
  refine ⟨?_, ?_, ?_⟩
  · exact decodeBlock_valid ((Nat.div_lt_iff_lt_mul hn2).mpr hk)
  · show 1 ≤ k % (n * n) + 1
    omega
  · show k % (n * n) + 1 ≤ n * n
    have := Nat.mod_lt k hn2
    omega

theorem pv_not_all_isNone {s : Cache} (h : s.pv.all Option.isNone = false) :
    ∃ c vals, s.pvGet c = some vals := by
  rw [List.all_eq_false] at h
  obtain ⟨x, hx, hnx⟩ := h
  obtain ⟨i, hi, hix⟩ := List.mem_iff_getElem.mp hx
  cases hxv : x with
  | none =>
    rw [hxv] at hnx
    simp at hnx
  | some vals =>
    refine ⟨i, vals, ?_⟩
    rw [Cache.pvGet, aget_get_eq, List.get?_eq_getElem?]
    rw [List.getElem?_eq_getElem hi, hix, hxv]
    rfl

theorem nec_of_entry {s : Cache}
    (h : s.pv.any (fun e => e == some []) = false) : NoEmptyPV s := by
  intro c hc
  rw [List.any_eq_false] at h
  have hmem : (some [] : Option (List Nat)) ∈ s.pv := by
    rw [Cache.pvGet, aget_get_eq] at hc
    cases hg : s.pv.get? c with
    | none =>
      rw [hg] at hc
      cases hc
    | some e =>
      rw [hg] at hc
      have he : e = some [] := hc
      rw [← he]
      exact List.get?_mem hg
  have h2 := h _ hmem
  simp at h2

theorem tokenCells_opt (u : UndoSetValue) : u.optCell ∈ TokenCells u :=
  List.mem_cons_self _ _

theorem tokenCells_aff {u : UndoSetValue} {pr : Nat × Nat}
    (h : pr ∈ u.affOpts) : pr.1 ∈ TokenCells u :=
  List.mem_cons_of_mem _
    (List.mem_append.mpr (Or.inl (List.mem_map.mpr ⟨pr, h, rfl⟩)))

theorem tokenCells_mv {u : UndoSetValue} {r : Nat × Nat × Block}
    (h : r ∈ u.moves) : r.2.1 ∈ TokenCells u :=
  List.mem_cons_of_mem _
    (List.mem_append.mpr (Or.inr (List.mem_map.mpr ⟨r, h, rfl⟩)))

theorem peer_symm {n c p : Nat} (h : Peer n c p) : Peer n p c := by
  rcases h with h | h | h
  · exact Or.inl h.symm
  · exact Or.inr (Or.inl h.symm)
  · exact Or.inr (Or.inr h.symm)

/-- A failed `register_move` leaves board and log alone, restores the
possible-values map exactly, and preserves the solver invariant. -/
theorem registerMove_err_inv {b0 : Board} {strat : Strategy} {cell value : Nat}
    {s s' : SState} (inv : SolveInv b0 s)
    (hcb : cell < b0.base * b0.base * (b0.base * b0.base))
    (hv1 : 1 ≤ value) (hv2 : value ≤ b0.base * b0.base)
    (hE : registerMove strat cell value s = (false, s')) :
    SolveInv b0 s' ∧ s'.board = s.board ∧ s'.log = s.log ∧
      s'.cache.pv = s.cache.pv := by
  rw [registerMove] at hE
  cases hsv : setValue s.board.base value cell s.cache with
  | mk res c' =>
    rw [hsv] at hE
    cases res with
    | ok u =>
      dsimp only at hE
      simp at hE
    | error e =>
      dsimp only at hE
      have hs' : ({ s with cache := c' } : SState) = s' := congrArg Prod.snd hE
      have hsv' : setValue b0.base value cell s.cache = (.error e, c') := by
        rw [← inv.hbase]
        exact hsv
      obtain ⟨_, hWF, hCons, _⟩ :=
        setValue_err_full inv.hwf inv.hcons hcb hv1 hv2 hsv'
      obtain ⟨hpvE, hccShrink⟩ :=
        setValue_err_extra inv.hwf inv.hcons hcb hv1 hv2 hsv'
      have hMain : SolveInv b0 ({ s with cache := c' } : SState) := by
        refine ⟨inv.hbase, inv.hblen, inv.hdiff, hWF, hCons, ?_, ?_,
          inv.hlogCell, inv.hlogTok, inv.hlogTokCells, inv.hlogOptsNE,
          inv.hlogGuessOpts, ?_, inv.hlogDisj, inv.hkOpts, inv.hkAff⟩
        · intro g hg
          obtain ⟨h1, h2⟩ := inv.hoop g hg
          refine ⟨?_, ?_⟩
          · show aget c'.pv g = none
            rw [hpvE]
            exact h1
          · intro j hj
            exact h2 j (hccShrink j g hj)
        · intro c vals hc v hv
          refine inv.hcoh c vals ?_ v hv
          show aget s.cache.pv c = some vals
          rw [← hpvE]
          exact hc
        · intro m hm
          show aget c'.pv m.cell = none
          rw [hpvE]
          exact inv.hlogPvNone m hm
      rw [← hs']
      exact ⟨hMain, rfl, rfl, hpvE⟩

set_option maxHeartbeats 1000000 in
/-- A successful `register_move` preserves the solver invariant: the new log
entry's token is balanced, legal, and disjoint from every older entry, and
the cache facts carry over through the `set_value` shrink lemmas. -/
theorem registerMove_ok_inv {b0 : Board} {strat : Strategy} {cell value : Nat}
    {s s' : SState} (inv : SolveInv b0 s) (hnec : NoEmptyPV s.cache)
    (hb0c : b0.get cell = none)
    (hcb : cell < b0.base * b0.base * (b0.base * b0.base))
    (hv1 : 1 ≤ value) (hv2 : value ≤ b0.base * b0.base)
    (hguess : strat = Strategy.guess → (s.cache.pvGet cell).getD [] ≠ [])
    (hE : registerMove strat cell value s = (true, s')) :
    SolveInv b0 s' ∧ NoEmptyPV s'.cache ∧
      s'.board = s.board.setCell cell value ∧
      (∃ u, s'.log = ⟨strat, cell, value, u⟩ :: s.log) := by
  rw [registerMove] at hE
  cases hsv : setValue s.board.base value cell s.cache with
  | mk res c' =>
    rw [hsv] at hE
    cases res with
    | error e =>
      dsimp only at hE
      simp at hE
    | ok u =>
      dsimp only at hE
      have hs' : (⟨s.board.setCell cell value, c',
          ⟨strat, cell, value, u⟩ :: s.log⟩ : SState) = s' :=
        congrArg Prod.snd hE
      have hsv' : setValue b0.base value cell s.cache = (.ok u, c') := by
        rw [← inv.hbase]
        exact hsv
      obtain ⟨hWF, hCons, hBal, hOptCell, hPvOptNone, _⟩ :=
        setValue_ok_full inv.hwf inv.hcons hcb hv1 hv2 hsv'
      obtain ⟨hOpts, hPvNoneMono, hPvShrink, hCcShrink, hAffSome, hMvDebt,
        hAffRec, hNoNewEmpty, hRemPV, hAffValS⟩ :=
        setValue_ok_extra inv.hwf inv.hcons hcb hv1 hv2 hsv'
      have hPvCellNone : aget c'.pv cell = none := by
        rw [← hOptCell]
        exact hPvOptNone
      have hn : 0 < b0.base := by
        rcases Nat.eq_zero_or_pos b0.base with h0 | h
        · rw [h0] at hcb
          omega
        · exact h
      have hAffB0 : ∀ pr ∈ u.affOpts, b0.get pr.1 = none := by
        intro pr hpr
        cases hx : b0.get pr.1 with
        | none => rfl
        | some g =>
          exfalso
          have h1 := hAffSome pr hpr
          have h2 := (inv.hoop pr.1 (by rw [hx]; rfl)).1
          rw [show s.cache.pvGet pr.1 = aget s.cache.pv pr.1 from rfl] at h2
          rw [h2] at h1
          simp at h1
      have hNE : NoEmptyPV c' := by
        intro c hc
        by_cases hcc : c = cell
        · rw [hcc, show c'.pvGet cell = aget c'.pv cell from rfl,
            hPvCellNone] at hc
          cases hc
        · refine hnec c ?_
          rw [show s.cache.pvGet c = aget s.cache.pv c from rfl]
          exact hNoNewEmpty c hcc hc
      have hMain : SolveInv b0 (⟨s.board.setCell cell value,
          c', ⟨strat, cell, value, u⟩ :: s.log⟩ : SState) := by
        refine ⟨?_, ?_, ?_, hWF, hCons, ?_, ?_, ?_, ?_, ?_, ?_, ?_, ?_, ?_,
          ?_, ?_⟩
        · show (s.board.setCell cell value).base = b0.base
          exact inv.hbase
        · show (s.board.setCell cell value).cells.length = b0.cells.length
          rw [setCell_blen]
          exact inv.hblen
        · show ∀ c, (s.board.setCell cell value).get c ≠ b0.get c →
            c ∈ ((⟨strat, cell, value, u⟩ : MoveLog) :: s.log).map
              (fun m => m.cell)
          intro c hc
          rw [List.map_cons]
          by_cases hcc : c = cell
          · rw [hcc]
            exact List.mem_cons_self _ _
          · rw [bget_setCell_ne (fun he => hcc he.symm) value] at hc
            exact List.mem_cons_of_mem _ (inv.hdiff c hc)
        · show ∀ g, (b0.get g).isSome = true → OutOfPlay c' g
          intro g hg
          obtain ⟨h1, h2⟩ := inv.hoop g hg
          refine ⟨?_, ?_⟩
          · show aget c'.pv g = none
            exact hPvNoneMono g h1
          · intro j hj
            exact h2 j (hCcShrink j g hj)
        · show ∀ c vals, c'.pvGet c = some vals → ∀ v ∈ vals,
            v ∈ (legalValues ((s.board.setCell cell value).unset c) c).getD []
          intro c vals hc v hv
          by_cases hcc : c = cell
          · rw [hcc, show c'.pvGet cell = aget c'.pv cell from rfl,
              hPvCellNone] at hc
            cases hc
          · have hvs : v ∈ (aget s.cache.pv c).getD [] := hPvShrink c v (by
              rw [show aget c'.pv c = c'.pvGet c from rfl, hc]
              exact hv)
            cases hx : s.cache.pvGet c with
            | none =>
              rw [show aget s.cache.pv c = s.cache.pvGet c from rfl, hx] at hvs
              simp at hvs
            | some vals0 =>
              have hv0 : v ∈ vals0 := by
                rw [show aget s.cache.pv c = s.cache.pvGet c from rfl, hx] at hvs
                exact hvs
              have hleg := inv.hcoh c vals0 hx v hv0
              have hclen : c < b0.base * b0.base * (b0.base * b0.base) := by
                by_contra hge
                rw [show s.cache.pvGet c = aget s.cache.pv c from rfl,
                  aget_oob (by rw [inv.hwf.1]; omega)] at hx
                cases hx
              obtain ⟨hg1, hg2, hg3⟩ :=
                (mem_legal (bget_unset_self s.board c)).mp hleg
              rw [mem_legal (bget_unset_self (s.board.setCell cell value) c)]
              refine ⟨hg1, hg2, ?_⟩
              intro p hp
              by_cases hpc2 : p = c
              · rw [hpc2, bget_unset_self]
                intro he
                cases he
              · rw [bget_unset_ne (fun he => hpc2 he.symm)]
                by_cases hpcell : p = cell
                · rw [hpcell]
                  by_cases hlen2 : cell < s.board.cells.length
                  · rw [show (s.board.setCell cell value).get cell = some value
                      from aget_set_self hlen2 _]
                    intro he
                    have hvv : value = v := Option.some.inj he
                    have hp2 : p ∈ affCells b0.base c := by
                      rw [show ((s.board.setCell cell value).unset c).base
                        = b0.base from inv.hbase] at hp
                      exact hp
                    rw [hpcell] at hp2
                    have hPeer := (mem_affCells hn hclen hcb).mp hp2
                    have hcaff : c ∈ affCells b0.base cell :=
                      (mem_affCells hn hcb hclen).mpr (peer_symm hPeer)
                    have hvalm : value ∈ (aget s.cache.pv c).getD [] := by
                      rw [hvv]
                      exact hvs
                    have hrec := hAffRec c hcaff hcc hvalm
                    refine hRemPV (c, value) hrec ?_
                    show value ∈ (aget c'.pv c).getD []
                    rw [show aget c'.pv c = c'.pvGet c from rfl, hc, hvv]
                    exact hv
                  · rw [show (s.board.setCell cell value).get cell = none from by
                      show aget (s.board.cells.set cell (some value)) cell = none
                      rw [List.set_eq_of_length_le (by omega)]
                      exact aget_oob (by omega)]
                    intro he
                    cases he
                · have h3 := hg3 p hp
                  rw [bget_unset_ne (fun he => hpc2 he.symm)] at h3
                  rw [bget_setCell_ne (fun he => hpcell he.symm) value]
                  exact h3
        · intro m hm
          rcases List.mem_cons.mp hm with rfl | hm'
          · exact ⟨hb0c, hcb⟩
          · exact inv.hlogCell m hm'
        · intro m hm
          rcases List.mem_cons.mp hm with rfl | hm'
          · exact ⟨hBal, hOptCell⟩
          · exact inv.hlogTok m hm'
        · intro m hm
          rcases List.mem_cons.mp hm with rfl | hm'
          · intro c hcTok
            rcases List.mem_cons.mp hcTok with rfl | hc2
            · rw [hOptCell]
              exact hb0c
            · rcases List.mem_append.mp hc2 with hc3 | hc3
              · rcases List.mem_map.mp hc3 with ⟨pr, hpr, rfl⟩
                exact hAffB0 pr hpr
              · rcases List.mem_map.mp hc3 with ⟨r, hrm, rfl⟩
                rcases hMvDebt r hrm with h | h
                · rw [h]
                  exact hb0c
                · exact hAffB0 (r.2.1, r.1) h
          · exact inv.hlogTokCells m hm'
        · intro m hm
          rcases List.mem_cons.mp hm with rfl | hm'
          · show u.opts ≠ some []
            rw [hOpts, show aget s.cache.pv cell = s.cache.pvGet cell from rfl]
            exact hnec cell
          · exact inv.hlogOptsNE m hm'
        · intro m hm hstrat
          rcases List.mem_cons.mp hm with rfl | hm'
          · show u.opts.getD [] ≠ []
            rw [hOpts]
            exact hguess hstrat
          · exact inv.hlogGuessOpts m hm' hstrat
        · intro m hm
          rcases List.mem_cons.mp hm with rfl | hm'
          · show aget c'.pv cell = none
            exact hPvCellNone
          · show aget c'.pv m.cell = none
            exact hPvNoneMono m.cell (inv.hlogPvNone m hm')
        · refine List.pairwise_cons.mpr ⟨?_, inv.hlogDisj⟩
          intro m' hm'
          refine ⟨?_, ?_⟩
          · intro pr hpr he
            have h1 := hAffSome pr hpr
            have h2 := inv.hlogPvNone m' hm'
            rw [show s.cache.pvGet m'.cell = aget s.cache.pv m'.cell
              from rfl] at h2
            rw [he, h2] at h1
            simp at h1
          · by_cases hcm : cell = m'.cell
            · left
              show u.opts = none
              rw [hOpts]
              have h2 := inv.hlogPvNone m' hm'
              rw [← hcm] at h2
              exact h2
            · right
              exact hcm
        · intro pre m post hsplit v hvm
          cases pre with
          | nil =>
            injection hsplit with h1 h2
            rw [← h1] at hvm
            have hvm2 : v ∈ u.opts.getD [] := hvm
            rw [hOpts] at hvm2
            cases hx : s.cache.pvGet cell with
            | none =>
              rw [show aget s.cache.pv cell = s.cache.pvGet cell from rfl,
                hx] at hvm2
              simp at hvm2
            | some l0 =>
              have hvl : v ∈ l0 := by
                rw [show aget s.cache.pv cell = s.cache.pvGet cell from rfl,
                  hx] at hvm2
                exact hvm2
              have hco := inv.hcoh cell l0 hx v hvl
              rw [← h1]
              show v ∈ (legalValues ((unsetAll (List.map (fun m2 : MoveLog => m2.cell) [])
                (s.board.setCell cell value)).unset cell) cell).getD []
              rw [show unsetAll (List.map (fun m2 : MoveLog => m2.cell) [])
                (s.board.setCell cell value) = s.board.setCell cell value
                from rfl]
              rw [unset_setCell_same]
              exact hco
          | cons mh pre' =>
            injection hsplit with h1 h2
            have hold := inv.hkOpts pre' m post h2 v hvm
            rw [List.map_cons, unsetAll_cons]
            rw [show mh.cell = cell from by rw [← h1]]
            rw [unset_setCell_same, unsetAll_unset, unset_comm]
            exact legal_unset_mono hold
        · intro pre m post hsplit pr hpr
          cases pre with
          | nil =>
            injection hsplit with h1 h2
            rw [← h1] at hpr
            have hpr2 : pr ∈ u.affOpts := hpr
            have hvalS := hAffValS pr hpr2
            cases hx : s.cache.pvGet pr.1 with
            | none =>
              rw [show aget s.cache.pv pr.1 = s.cache.pvGet pr.1 from rfl,
                hx] at hvalS
              simp at hvalS
            | some l1 =>
              have hvl : pr.2 ∈ l1 := by
                rw [show aget s.cache.pv pr.1 = s.cache.pvGet pr.1 from rfl,
                  hx] at hvalS
                exact hvalS
              have hco := inv.hcoh pr.1 l1 hx pr.2 hvl
              rw [← h1]
              show pr.2 ∈ (legalValues (((unsetAll
                (List.map (fun m2 : MoveLog => m2.cell) [])
                (s.board.setCell cell value)).unset cell).unset pr.1)
                pr.1).getD []
              rw [show unsetAll (List.map (fun m2 : MoveLog => m2.cell) [])
                (s.board.setCell cell value) = s.board.setCell cell value
                from rfl]
              rw [unset_setCell_same, unset_comm]
              exact legal_unset_mono hco
          | cons mh pre' =>
            injection hsplit with h1 h2
            have hold := inv.hkAff pre' m post h2 pr hpr
            rw [List.map_cons, unsetAll_cons]
            rw [show mh.cell = cell from by rw [← h1]]
            rw [unset_setCell_same, unsetAll_unset]
            rw [unset_comm (unsetAll (List.map (fun m2 : MoveLog => m2.cell) pre')
              s.board) cell m.cell]
            rw [unset_comm ((unsetAll (List.map (fun m2 : MoveLog => m2.cell) pre')
              s.board).unset m.cell) cell pr.1]
            exact legal_unset_mono hold
      rw [← hs']
      exact ⟨hMain, hNE, rfl, ⟨u, rfl⟩⟩

theorem unset_unset_same (b : Board) (c : Nat) :
    (b.unset c).unset c = b.unset c := by
  show Board.mk b.base ((b.cells.set c none).set c none)
    = Board.mk b.base (b.cells.set c none)
  rw [List.set_set]

theorem recsPV_eq_nil {affOpts : List (Nat × Nat)} {q : Nat}
    (h : ∀ pr ∈ affOpts, pr.1 ≠ q) : recsPV affOpts q = [] := by
  rw [recsPV]
  rw [List.filter_eq_nil.mpr ?_]
  · rfl
  · intro pr hpr
    simp only [beq_iff_eq]
    exact h pr hpr

set_option maxHeartbeats 1600000 in
/-- Popping one move (`undo_move` inside `backtrack`): the board forgets the
move's cell and the cache undo restores exactly what the token recorded; the
solver invariant carries to the shortened log, the restored possible-values
entry of the popped cell is the token's recorded option set, and no entry is
left empty. -/
theorem pop_inv {b0 : Board} {m : MoveLog} {rest : List MoveLog}
    {board : Board} {cache : Cache}
    (inv : SolveInv b0 ⟨board, cache, m :: rest⟩) (hnec : NoEmptyPV cache) :
    SolveInv b0 ⟨board.unset m.cell,
      undoApply b0.base m.undoCandidates cache, rest⟩ ∧
    NoEmptyPV (undoApply b0.base m.undoCandidates cache) ∧
    (undoApply b0.base m.undoCandidates cache).pvGet m.cell
      = m.undoCandidates.opts := by
  obtain ⟨hBal, hOptCell⟩ := inv.hlogTok m (List.mem_cons_self m rest)
  obtain ⟨hb0m, hmlt⟩ := inv.hlogCell m (List.mem_cons_self m rest)
  have htokcells := inv.hlogTokCells m (List.mem_cons_self m rest)
  have hoptsne := inv.hlogOptsNE m (List.mem_cons_self m rest)
  have hpvnone := inv.hlogPvNone m (List.mem_cons_self m rest)
  obtain ⟨hdHead, hdTail⟩ := List.pairwise_cons.mp inv.hlogDisj
  have hn : 0 < b0.base := by
    rcases Nat.eq_zero_or_pos b0.base with h0 | h
    · rw [h0] at hmlt
      omega
    · exact h
  have hafflen : ∀ r ∈ m.undoCandidates.affOpts, r.1 < cache.pv.length := by
    intro r hr
    rw [inv.hwf.1]
    exact (hBal.2.2.1 r hr).2.1
  have hmvkey : ∀ r ∈ m.undoCandidates.moves,
      keyIdx b0.base r.2.2 r.1 < cache.cc.length := by
    intro r hr
    obtain ⟨hblk, hlt, h1, h2, _⟩ := hBal.2.2.2.2 r hr
    rw [inv.hwf.2.1]
    exact keyIdx_lt (validBlock_of_mem_blocksOf hn hlt hblk) h1 h2
  have hpv_slot : ∀ q, aget (undoApply b0.base m.undoCandidates cache).pv q
      = insFold (recsPV m.undoCandidates.affOpts q)
          (aget (undoOpts m.undoCandidates cache).pv q) :=
    fun q => undoApply_pv_aget hafflen q
  have hcc_slot : ∀ j, aget (undoApply b0.base m.undoCandidates cache).cc j
      = insFold (recsCC b0.base m.undoCandidates.moves j)
          (aget cache.cc j) :=
    fun j => undoApply_cc_aget hmvkey j
  have hbase_slot : ∀ q, q ≠ m.undoCandidates.optCell →
      aget (undoOpts m.undoCandidates cache).pv q = aget cache.pv q := by
    intro q hq
    cases ho : m.undoCandidates.opts with
    | none => rw [undoOpts_none ho]
    | some o =>
      rw [undoOpts_some ho]
      exact pvGet_pvSet_ne (fun he => hq he.symm) _
  have hrnil_opt : recsPV m.undoCandidates.affOpts m.cell = [] := by
    refine recsPV_eq_nil ?_
    intro pr hpr he
    have h1 := (hBal.2.2.1 pr hpr).1
    rw [hOptCell] at h1
    exact h1 he
  have hslot_opt : aget (undoApply b0.base m.undoCandidates cache).pv m.cell
      = m.undoCandidates.opts := by
    rw [hpv_slot m.cell, hrnil_opt, insFold_none_nil]
    cases ho : m.undoCandidates.opts with
    | none =>
      rw [undoOpts_none ho]
      exact hpvnone
    | some o =>
      rw [undoOpts_some ho, ← hOptCell]
      exact pvGet_pvSet_self (by rw [inv.hwf.1]; exact hBal.1) _
  have hAffB0 : ∀ pr ∈ m.undoCandidates.affOpts, b0.get pr.1 = none :=
    fun pr hpr => htokcells pr.1 (tokenCells_aff hpr)
  have hMvB0 : ∀ r ∈ m.undoCandidates.moves, b0.get r.2.1 = none :=
    fun r hr => htokcells r.2.1 (tokenCells_mv hr)
  have hslot_rest : ∀ m' ∈ rest,
      aget (undoApply b0.base m.undoCandidates cache).pv m'.cell = none := by
    intro m' hm'
    rw [hpv_slot m'.cell]
    rw [recsPV_eq_nil (hdHead m' hm').1]
    rw [insFold_none_nil]
    rcases (hdHead m' hm').2 with ho | hne
    · rw [undoOpts_none ho]
      exact inv.hlogPvNone m' (List.mem_cons_of_mem m hm')
    · rw [hbase_slot m'.cell (by rw [hOptCell]; exact fun he => hne he.symm)]
      exact inv.hlogPvNone m' (List.mem_cons_of_mem m hm')
  have hNE : NoEmptyPV (undoApply b0.base m.undoCandidates cache) := by
    intro c hc
    rw [show (undoApply b0.base m.undoCandidates cache).pvGet c
      = aget (undoApply b0.base m.undoCandidates cache).pv c from rfl,
      hpv_slot c] at hc
    cases hrp : recsPV m.undoCandidates.affOpts c with
    | cons a l =>
      have hmm : a ∈ ((insFold (recsPV m.undoCandidates.affOpts c)
          (aget (undoOpts m.undoCandidates cache).pv c)).getD []) := by
        refine (insFold_mem _ _ a).mpr (Or.inr ?_)
        rw [hrp]
        exact List.mem_cons_self a l
      rw [hc] at hmm
      simp at hmm
    | nil =>
      rw [hrp, insFold_none_nil] at hc
      by_cases hco : c = m.undoCandidates.optCell
      · cases ho : m.undoCandidates.opts with
        | none =>
          rw [undoOpts_none ho] at hc
          exact hnec c hc
        | some o =>
          rw [undoOpts_some ho, hco] at hc
          rw [show aget (cache.pvSet m.undoCandidates.optCell (some o)).pv
            m.undoCandidates.optCell = some o from
            pvGet_pvSet_self (by rw [inv.hwf.1]; exact hBal.1) _] at hc
          rw [← hc] at hoptsne
          exact hoptsne ho
      · rw [hbase_slot c hco] at hc
        exact hnec c hc
  refine ⟨?_, hNE, hslot_opt⟩
  refine ⟨?_, ?_, ?_, undoApply_WF inv.hwf hBal,
    undoApply_Cons inv.hwf inv.hcons hBal (by rw [hOptCell]; exact hpvnone),
    ?_, ?_, ?_, ?_, ?_, ?_, ?_, ?_, hdTail, ?_, ?_⟩
  · exact inv.hbase
  · show (board.unset m.cell).cells.length = b0.cells.length
    rw [unset_blen]
    exact inv.hblen
  · intro c hc
    by_cases hcm : c = m.cell
    · rw [hcm, bget_unset_self] at hc
      exact absurd hb0m.symm hc
    · rw [bget_unset_ne (fun he => hcm he.symm)] at hc
      have h2 := inv.hdiff c hc
      rw [List.map_cons] at h2
      rcases List.mem_cons.mp h2 with he | hmem
      · exact absurd he hcm
      · exact hmem
  · intro g hg
    obtain ⟨h1, h2⟩ := inv.hoop g hg
    have hgb0 : ¬ b0.get g = none := by
      intro he
      rw [he] at hg
      cases hg
    refine ⟨?_, ?_⟩
    · show aget (undoApply b0.base m.undoCandidates cache).pv g = none
      rw [hpv_slot g]
      rw [recsPV_eq_nil (fun pr hpr he =>
        hgb0 (by rw [← he]; exact hAffB0 pr hpr))]
      rw [insFold_none_nil]
      rw [hbase_slot g (by
        rw [hOptCell]
        intro he
        rw [he] at hgb0
        exact hgb0 hb0m)]
      exact h1
    · intro j hj
      rw [show aget (undoApply b0.base m.undoCandidates cache).cc j
        = insFold (recsCC b0.base m.undoCandidates.moves j) (aget cache.cc j)
        from hcc_slot j] at hj
      rcases (insFold_mem _ _ g).mp hj with hb | hb
      · exact h2 j hb
      · rcases mem_recsCC.mp hb with ⟨r, hrm, _, hr21⟩
        refine hgb0 ?_
        rw [← hr21]
        exact hMvB0 r hrm
  · intro c vals hc v hv
    rw [show (undoApply b0.base m.undoCandidates cache).pvGet c
      = aget (undoApply b0.base m.undoCandidates cache).pv c from rfl,
      hpv_slot c] at hc
    have hvm : v ∈ ((insFold (recsPV m.undoCandidates.affOpts c)
        (aget (undoOpts m.undoCandidates cache).pv c)).getD []) := by
      rw [hc]
      exact hv
    rcases (insFold_mem _ _ v).mp hvm with hb | hb
    · by_cases hco : c = m.undoCandidates.optCell
      · cases ho : m.undoCandidates.opts with
        | none =>
          rw [hco, undoOpts_none ho] at hb
          have hpvnone2 : aget cache.pv m.undoCandidates.optCell = none := by
            show cache.pvGet m.undoCandidates.optCell = none
            rw [hOptCell]
            exact hpvnone
          rw [hpvnone2] at hb
          simp at hb
        | some o =>
          rw [hco, undoOpts_some ho] at hb
          rw [show aget (cache.pvSet m.undoCandidates.optCell (some o)).pv
            m.undoCandidates.optCell = some o from
            pvGet_pvSet_self (by rw [inv.hwf.1]; exact hBal.1) _] at hb
          have hko := inv.hkOpts [] m rest rfl v (by rw [ho]; exact hb)
          show v ∈ (legalValues ((board.unset m.cell).unset c) c).getD []
          rw [hco, hOptCell, unset_unset_same]
          rw [show unsetAll (List.map (fun m2 : MoveLog => m2.cell) [])
            board = board from rfl] at hko
          exact hko
      · rw [hbase_slot c hco] at hb
        cases hx : cache.pvGet c with
        | none =>
          rw [show aget cache.pv c = cache.pvGet c from rfl, hx] at hb
          simp at hb
        | some vals0 =>
          have hv0 : v ∈ vals0 := by
            rw [show aget cache.pv c = cache.pvGet c from rfl, hx] at hb
            exact hb
          have hco2 := inv.hcoh c vals0 hx v hv0
          show v ∈ (legalValues ((board.unset m.cell).unset c) c).getD []
          rw [unset_comm]
          exact legal_unset_mono hco2
    · rcases mem_recsPV.mp hb with ⟨pr, hpr, hpr1, hpr2⟩
      have hka := inv.hkAff [] m rest rfl pr hpr
      rw [show unsetAll (List.map (fun m2 : MoveLog => m2.cell) []) board
        = board from rfl] at hka
      show v ∈ (legalValues ((board.unset m.cell).unset c) c).getD []
      rw [← hpr1, ← hpr2]
      exact hka
  · intro m' hm'
    exact inv.hlogCell m' (List.mem_cons_of_mem m hm')
  · intro m' hm'
    exact inv.hlogTok m' (List.mem_cons_of_mem m hm')
  · intro m' hm'
    exact inv.hlogTokCells m' (List.mem_cons_of_mem m hm')
  · intro m' hm'
    exact inv.hlogOptsNE m' (List.mem_cons_of_mem m hm')
  · intro m' hm' hstrat
    exact inv.hlogGuessOpts m' (List.mem_cons_of_mem m hm') hstrat
  · intro m' hm'
    exact hslot_rest m' hm'
  · intro pre m' post hsplit v hvm
    have hsplit2 : rest = pre ++ m' :: post := hsplit
    have hsplit' : m :: rest = (m :: pre) ++ m' :: post := by
      rw [hsplit2]
      rfl
    have hold := inv.hkOpts (m :: pre) m' post hsplit' v hvm
    rw [List.map_cons, unsetAll_cons] at hold
    exact hold
  · intro pre m' post hsplit pr hpr
    have hsplit2 : rest = pre ++ m' :: post := hsplit
    have hsplit' : m :: rest = (m :: pre) ++ m' :: post := by
      rw [hsplit2]
      rfl
    have hold := inv.hkAff (m :: pre) m' post hsplit' pr hpr
    rw [List.map_cons, unsetAll_cons] at hold
    exact hold

theorem rcFold_cc_shrink (n value cell : Nat) (bl : List Block) (t : Cache)
    (j q : Nat)
    (h : q ∈ (aget (bl.foldl (rcStep n value cell) t).cc j).getD []) :
    q ∈ (aget t.cc j).getD [] := by
  induction bl generalizing t with
  | nil => exact h
  | cons b rest ih =>
    rw [List.foldl_cons] at h
    have h2 := ih (rcStep n value cell t b) h
    rw [rcStep_cc_aget] at h2
    by_cases hj : keyIdx n b value = j ∧ keyIdx n b value < t.cc.length
    · rw [if_pos hj] at h2
      cases hx : aget t.cc j with
      | none =>
        rw [hx] at h2
        simp at h2
      | some l =>
        rw [hx] at h2
        exact mem_serase_weak h2
    · rw [if_neg hj] at h2
      exact h2

/-- `remove_candidate` preserves the solver invariant (board and log are not
consulted at all); the slot of the removed cell shrinks by exactly the value,
all other possible-values entries are untouched. -/
theorem removeCandidate_inv {b0 : Board} {value cell : Nat} {board : Board}
    {cache : Cache} {lg : List MoveLog}
    (inv : SolveInv b0 ⟨board, cache, lg⟩) :
    SolveInv b0 ⟨board, removeCandidate b0.base value cell cache, lg⟩ ∧
    (∀ c, c ≠ cell → (removeCandidate b0.base value cell cache).pvGet c
      = cache.pvGet c) ∧
    (∀ opts, cache.pvGet cell = some opts → value ∈ opts →
      (removeCandidate b0.base value cell cache).pvGet cell
        = some (serase value opts)) := by
  by_cases hmain : ∃ opts, cache.pvGet cell = some opts ∧ value ∈ opts
  · obtain ⟨opts, hx, hvin⟩ := hmain
    have hcb : cell < cache.pv.length := by
      by_contra hge
      rw [Cache.pvGet, aget_oob (by omega)] at hx
      cases hx
    have hrc := @removeCandidate_main b0.base value cell cache opts hx hvin
    have hpvf : (removeCandidate b0.base value cell cache).pv
        = (cache.pvSet cell (some (serase value opts))).pv := by
      rw [hrc]
      exact rcFold_pv b0.base value cell (blocksOf b0.base cell) _
    have hslot_ne : ∀ c, c ≠ cell →
        (removeCandidate b0.base value cell cache).pvGet c = cache.pvGet c := by
      intro c hc
      show aget (removeCandidate b0.base value cell cache).pv c = _
      rw [hpvf]
      exact pvGet_pvSet_ne (fun he => hc he.symm) _
    have hslot_cell : (removeCandidate b0.base value cell cache).pvGet cell
        = some (serase value opts) := by
      show aget (removeCandidate b0.base value cell cache).pv cell = _
      rw [hpvf]
      exact pvGet_pvSet_self hcb _
    have hccsh : ∀ j q,
        q ∈ (aget (removeCandidate b0.base value cell cache).cc j).getD [] →
        q ∈ (aget cache.cc j).getD [] := by
      intro j q hq
      rw [hrc] at hq
      have h2 := rcFold_cc_shrink b0.base value cell (blocksOf b0.base cell)
        _ j q hq
      rw [show aget (cache.pvSet cell (some (serase value opts))).cc j
        = aget cache.cc j from by rw [pvSet_cc]] at h2
      exact h2
    refine ⟨⟨inv.hbase, inv.hblen, inv.hdiff, removeCandidate_WF inv.hwf,
      removeCandidate_Cons inv.hwf inv.hcons, ?_, ?_, inv.hlogCell,
      inv.hlogTok, inv.hlogTokCells, inv.hlogOptsNE, inv.hlogGuessOpts, ?_,
      inv.hlogDisj, inv.hkOpts, inv.hkAff⟩, hslot_ne,
      fun opts2 hx2 _ => by
        rw [hx] at hx2
        rw [hslot_cell, Option.some.inj hx2]⟩
    · intro g hg
      obtain ⟨h1, h2⟩ := inv.hoop g hg
      have hgc : g ≠ cell := by
        intro he
        rw [he, hx] at h1
        cases h1
      refine ⟨?_, ?_⟩
      · rw [hslot_ne g hgc]
        exact h1
      · intro j hj
        exact h2 j (hccsh j g hj)
    · intro c vals hc v hv
      by_cases hcc : c = cell
      · rw [hcc, hslot_cell] at hc
        have hvv : v ∈ serase value opts := by
          rw [Option.some.inj hc]
          exact hv
        rw [hcc]
        exact inv.hcoh cell opts hx v (mem_serase_weak hvv)
      · rw [hslot_ne c hcc] at hc
        exact inv.hcoh c vals hc v hv
    · intro m' hm'
      by_cases hmc : m'.cell = cell
      · exfalso
        have := inv.hlogPvNone m' hm'
        rw [hmc, hx] at this
        cases this
      · rw [hslot_ne m'.cell hmc]
        exact inv.hlogPvNone m' hm'
  · have hid : removeCandidate b0.base value cell cache = cache := by
      refine removeCandidate_id ?_
      intro opts hp hvin
      exact hmain ⟨opts, hp, hvin⟩
    rw [hid]
    refine ⟨inv, fun c _ => rfl, ?_⟩
    intro opts hx hvin
    exact absurd ⟨opts, hx, hvin⟩ hmain

set_option maxHeartbeats 800000 in
/-- `reset_candidates(cell, legal-values-of-the-board)` preserves the solver
invariant when the reset entry covers whatever remained in the cache and its
cell is live in the cache (it is the just-undone guess cell).  The new entry
is exactly the legal set of the current board at the cell. -/
theorem resetCandidates_inv {b0 : Board} {cell : Nat} {board : Board}
    {cache : Cache} {lg : List MoveLog}
    (inv : SolveInv b0 ⟨board, cache, lg⟩)
    (hb0c : b0.get cell = none)
    (hcb : cell < b0.base * b0.base * (b0.base * b0.base))
    (hbne : board.get cell = none)
    (hsub : ∀ w ∈ (cache.pvGet cell).getD [],
      w ∈ (legalValues board cell).getD [])
    (hpvcell : (cache.pvGet cell).isSome = true) :
    SolveInv b0 ⟨board,
      resetCandidates b0.base cell ((legalValues board cell).getD [])
        cache, lg⟩ ∧
    (resetCandidates b0.base cell ((legalValues board cell).getD [])
        cache).pvGet cell = some ((legalValues board cell).getD []) ∧
    (∀ c, c ≠ cell →
      (resetCandidates b0.base cell ((legalValues board cell).getD [])
        cache).pvGet c = cache.pvGet c) := by
  have hbase : board.base = b0.base := inv.hbase
  have hso : SSorted ((legalValues board cell).getD []) := legal_sorted _ _
  have hbo : ∀ w ∈ (legalValues board cell).getD [],
      1 ≤ w ∧ w ≤ b0.base * b0.base := by
    intro w hw
    have := legal_bounds hw
    rw [hbase] at this
    exact this
  have hnd : ((legalValues board cell).getD []).Nodup :=
    List.Pairwise.imp Nat.ne_of_lt hso
  have hcb2 : cell < cache.pv.length := by
    rw [inv.hwf.1]
    exact hcb
  have hpvlen : (((legalValues board cell).getD []).foldl
      (addCandidate b0.base cell) cache).pv = cache.pv :=
    resetFold_pv b0.base cell _ cache
  have hslot_cell : (resetCandidates b0.base cell
      ((legalValues board cell).getD []) cache).pvGet cell
      = some ((legalValues board cell).getD []) := by
    show aget ((((legalValues board cell).getD []).foldl
      (addCandidate b0.base cell) cache).pvSet cell
        (some ((legalValues board cell).getD []))).pv cell = _
    refine pvGet_pvSet_self ?_ _
    rw [hpvlen]
    exact hcb2
  have hslot_ne : ∀ c, c ≠ cell →
      (resetCandidates b0.base cell ((legalValues board cell).getD [])
        cache).pvGet c = cache.pvGet c := by
    intro c hc
    show aget ((((legalValues board cell).getD []).foldl
      (addCandidate b0.base cell) cache).pvSet cell
        (some ((legalValues board cell).getD []))).pv c = _
    rw [show aget ((((legalValues board cell).getD []).foldl
      (addCandidate b0.base cell) cache).pvSet cell
        (some ((legalValues board cell).getD []))).pv c
      = aget (((legalValues board cell).getD []).foldl
        (addCandidate b0.base cell) cache).pv c from
        pvGet_pvSet_ne (fun he => hc he.symm) _, hpvlen]
    rfl
  have hccmem : ∀ j q,
      q ∈ (aget (resetCandidates b0.base cell
        ((legalValues board cell).getD []) cache).cc j).getD [] →
      q = cell ∨ q ∈ (aget cache.cc j).getD [] := by
    intro j q hq
    rw [show aget (resetCandidates b0.base cell
        ((legalValues board cell).getD []) cache).cc j
      = aget (((legalValues board cell).getD []).foldl
        (addCandidate b0.base cell) cache).cc j from by
        show aget ((_ : Cache).pvSet cell _).cc j = _
        rw [pvSet_cc]] at hq
    have hn0 : 0 < b0.base := by
      rcases Nat.eq_zero_or_pos b0.base with h0 | h0
      · rw [h0] at hcb
        omega
      · exact h0
    rw [resetFold_cc_aget cache j hn0 hcb hbo hnd] at hq
    by_cases he : ∃ v ∈ (legalValues board cell).getD [],
        ∃ b ∈ blocksOf b0.base cell, keyIdx b0.base b v = j ∧
          keyIdx b0.base b v < cache.cc.length
    · rw [if_pos he] at hq
      rcases mem_sinsert.mp hq with h | h
      · exact Or.inl h
      · exact Or.inr h
    · rw [if_neg he] at hq
      exact Or.inr hq
  refine ⟨⟨inv.hbase, inv.hblen, inv.hdiff,
    resetCandidates_WF inv.hwf hcb hso hbo,
    resetCandidates_Cons inv.hwf inv.hcons hcb hso hbo hsub, ?_, ?_,
    inv.hlogCell, inv.hlogTok, inv.hlogTokCells, inv.hlogOptsNE,
    inv.hlogGuessOpts, ?_, inv.hlogDisj, inv.hkOpts, inv.hkAff⟩,
    hslot_cell, hslot_ne⟩
  · intro g hg
    obtain ⟨h1, h2⟩ := inv.hoop g hg
    have hgc : g ≠ cell := by
      intro he
      rw [← he] at hpvcell
      rw [h1] at hpvcell
      cases hpvcell
    refine ⟨?_, ?_⟩
    · rw [hslot_ne g hgc]
      exact h1
    · intro j hj
      rcases hccmem j g hj with h | h
      · exact absurd h hgc
      · exact h2 j h
  · intro c vals hc v hv
    by_cases hcc : c = cell
    · rw [hcc, hslot_cell] at hc
      have hvv : v ∈ (legalValues board cell).getD [] := by
        rw [Option.some.inj hc]
        exact hv
      rw [hcc]
      have hcongr : legalValues (board.unset cell) cell
          = legalValues board cell := by
        refine @legal_congr (board.unset cell) board rfl ?_ cell
        intro p
        by_cases hpc : p = cell
        · rw [hpc, bget_unset_self, hbne]
        · rw [bget_unset_ne (fun he => hpc he.symm)]
      rw [hcongr]
      exact hvv
    · rw [hslot_ne c hcc] at hc
      exact inv.hcoh c vals hc v hv
  · intro m' hm'
    have hmc : m'.cell ≠ cell := by
      intro he
      have := inv.hlogPvNone m' hm'
      rw [he] at this
      rw [this] at hpvcell
      cases hpvcell
    rw [hslot_ne m'.cell hmc]
    exact inv.hlogPvNone m' hm'

/-- The guess retry loop preserves the solver invariant; when every remaining
candidate fails, the board, the log and the whole possible-values map are
exactly as before the loop (each failed `register_move` rolls its cache work
back and touches nothing else). -/
theorem tryGuesses_spec {b0 : Board} {cell : Nat} (gs : List Nat)
    (hb0c : b0.get cell = none)
    (hcb : cell < b0.base * b0.base * (b0.base * b0.base)) :
    ∀ s : SState, SolveInv b0 s → NoEmptyPV s.cache →
    (∀ g ∈ gs, 1 ≤ g ∧ g ≤ b0.base * b0.base) →
    (s.cache.pvGet cell).getD [] ≠ [] →
    (∀ s2, tryGuesses cell gs s = .ok s2 →
      SolveInv b0 s2 ∧ NoEmptyPV s2.cache) ∧
    (∀ s2, tryGuesses cell gs s = .error s2 →
      SolveInv b0 s2 ∧ NoEmptyPV s2.cache ∧ s2.board = s.board ∧
        s2.log = s.log ∧ s2.cache.pv = s.cache.pv) := by
  induction gs with
  | nil =>
    intro s inv hnec _ _
    refine ⟨?_, ?_⟩
    · intro s2 h
      rw [tryGuesses] at h
      cases h
    · intro s2 h
      rw [tryGuesses] at h
      rw [← Except.error.inj h]
      exact ⟨inv, hnec, rfl, rfl, rfl⟩
  | cons g gs' ih =>
    intro s inv hnec hgb hguess0
    cases hreg : registerMove Strategy.guess cell g s with
    | mk b1 s1 =>
      cases b1 with
      | true =>
        obtain ⟨invN, hnecN, _, _⟩ := registerMove_ok_inv inv hnec hb0c hcb
          (hgb g (List.mem_cons_self g gs')).1
          (hgb g (List.mem_cons_self g gs')).2 (fun _ => hguess0) hreg
        refine ⟨?_, ?_⟩
        · intro s2 h
          rw [tryGuesses, hreg] at h
          rw [← Except.ok.inj h]
          exact ⟨invN, hnecN⟩
        · intro s2 h
          rw [tryGuesses, hreg] at h
          cases h
      | false =>
        obtain ⟨inv1, hb1, hl1, hpv1⟩ := registerMove_err_inv inv hcb
          (hgb g (List.mem_cons_self g gs')).1
          (hgb g (List.mem_cons_self g gs')).2 hreg
        have hnec1 : NoEmptyPV s1.cache := by
          intro c
          show aget s1.cache.pv c ≠ some []
          rw [hpv1]
          exact hnec c
        have hguess1 : (s1.cache.pvGet cell).getD [] ≠ [] := by
          show (aget s1.cache.pv cell).getD [] ≠ []
          rw [hpv1]
          exact hguess0
        obtain ⟨ihOk, ihErr⟩ := ih s1 inv1 hnec1
          (fun g' hg' => hgb g' (List.mem_cons_of_mem g hg')) hguess1
        refine ⟨?_, ?_⟩
        · intro s2 h
          rw [tryGuesses, hreg] at h
          exact ihOk s2 h
        · intro s2 h
          rw [tryGuesses, hreg] at h
          obtain ⟨i2, n2, b2, l2, p2⟩ := ihErr s2 h
          exact ⟨i2, n2, by rw [b2, hb1], by rw [l2, hl1],
            by rw [p2, hpv1]⟩

set_option maxHeartbeats 1600000 in
/-- `SudokuSolver::backtrack` preserves the solver invariant, and when it
exhausts the move log (returns `None`) it has popped every logged move. -/
theorem backtrackAux_spec {b0 : Board} : ∀ (lg : List MoveLog) (board : Board)
    (cache : Cache), SolveInv b0 ⟨board, cache, lg⟩ → NoEmptyPV cache →
    ∀ res s2, backtrackAux lg board cache = (res, s2) →
      SolveInv b0 s2 ∧ NoEmptyPV s2.cache ∧ (res = none → s2.log = []) := by
  intro lg
  induction lg with
  | nil =>
    intro board cache inv hnec res s2 h
    rw [backtrackAux] at h
    injection h with h1 h2
    rw [← h1, ← h2]
    exact ⟨inv, hnec, fun _ => rfl⟩
  | cons m rest ih =>
    intro board cache inv hnec res s2 h
    obtain ⟨invP, hnecP, hslotP⟩ := pop_inv inv hnec
    obtain ⟨hb0m, hmlt⟩ := inv.hlogCell m (List.mem_cons_self m rest)
    have hbase : board.base = b0.base := inv.hbase
    rw [backtrackAux] at h
    cases hstrat : m.strat with
    | nakedSingle =>
      rw [hstrat] at h
      dsimp only at h
      rw [hbase] at h
      exact ih (board.unset m.cell) (undoApply b0.base m.undoCandidates cache)
        invP hnecP res s2 h
    | hiddenSingle =>
      rw [hstrat] at h
      dsimp only at h
      rw [hbase] at h
      exact ih (board.unset m.cell) (undoApply b0.base m.undoCandidates cache)
        invP hnecP res s2 h
    | guess =>
      rw [hstrat] at h
      dsimp only at h
      rw [hbase] at h
      have hguessopts := inv.hlogGuessOpts m (List.mem_cons_self m rest) hstrat
      cases hopts : m.undoCandidates.opts with
      | none =>
        rw [hopts] at hguessopts
        exact absurd rfl hguessopts
      | some l =>
        rw [hopts] at hguessopts
        have hlne : l ≠ [] := hguessopts
        have hslotC : (undoApply b0.base m.undoCandidates cache).pvGet m.cell
            = some l := by
          rw [hslotP, hopts]
        have hcond : (((undoApply b0.base m.undoCandidates
            cache).pvGet m.cell).getD []).isEmpty = false := by
          rw [hslotC]
          cases l with
          | nil => exact absurd rfl hlne
          | cons a t => rfl
        rw [hcond, if_neg (by decide : ¬(false = true))] at h
        have hkO := inv.hkOpts [] m rest rfl
        have hsubL : ∀ v ∈ l,
            v ∈ (legalValues (board.unset m.cell) m.cell).getD [] := by
          intro v hv
          have hx := hkO v (by rw [hopts]; exact hv)
          exact hx
        obtain ⟨inv2, hslot_ne2, hslot_main2⟩ :=
          @removeCandidate_inv b0 m.value m.cell (board.unset m.cell)
            (undoApply b0.base m.undoCandidates cache) rest invP
        have hid_or : (removeCandidate b0.base m.value m.cell
              (undoApply b0.base m.undoCandidates cache)).pvGet m.cell
              = some (serase m.value l) ∨
            (removeCandidate b0.base m.value m.cell
              (undoApply b0.base m.undoCandidates cache)).pvGet m.cell
              = some l := by
          by_cases hvm : m.value ∈ l
          · exact Or.inl (hslot_main2 l hslotC hvm)
          · refine Or.inr ?_
            rw [removeCandidate_id (fun opts hp => by
              rw [hslotC] at hp
              rw [← Option.some.inj hp]
              exact hvm)]
            exact hslotC
        have hsubMain : ∀ w ∈ (((removeCandidate b0.base m.value m.cell
              (undoApply b0.base m.undoCandidates cache)).pvGet
                m.cell).getD []),
            w ∈ (legalValues (board.unset m.cell) m.cell).getD [] := by
          rcases hid_or with hS | hS
          · rw [hS]
            intro w hw
            exact hsubL w (mem_serase_weak hw)
          · rw [hS]
            exact hsubL
        have hpvSome : ((removeCandidate b0.base m.value m.cell
            (undoApply b0.base m.undoCandidates cache)).pvGet
              m.cell).isSome = true := by
          rcases hid_or with hS | hS
          · rw [hS]
            rfl
          · rw [hS]
            rfl
        have hnec2c : ∀ c, c ≠ m.cell →
            (removeCandidate b0.base m.value m.cell
              (undoApply b0.base m.undoCandidates cache)).pvGet c
              ≠ some [] := by
          intro c hc
          rw [hslot_ne2 c hc]
          exact hnecP c
        cases hGv : ((removeCandidate b0.base m.value m.cell
            (undoApply b0.base m.undoCandidates cache)).pvGet
              m.cell).getD [] with
        | nil =>
          rw [hGv] at h
          rw [tryGuesses] at h
          dsimp only at h
          obtain ⟨inv4, hslotR, hslotRne⟩ :=
            @resetCandidates_inv b0 m.cell (board.unset m.cell)
              (removeCandidate b0.base m.value m.cell
                (undoApply b0.base m.undoCandidates cache)) rest inv2 hb0m
              hmlt (bget_unset_self board m.cell)
              (by
                intro w hw
                rw [hGv] at hw
                exact absurd hw (List.not_mem_nil w)) hpvSome
          have hlegne : (legalValues (board.unset m.cell) m.cell).getD []
              ≠ [] := by
            cases l with
            | nil => exact absurd rfl hlne
            | cons a t =>
              exact List.ne_nil_of_mem (hsubL a (List.mem_cons_self a t))
          have hnec4 : NoEmptyPV (resetCandidates b0.base m.cell
              ((legalValues (board.unset m.cell) m.cell).getD [])
              (removeCandidate b0.base m.value m.cell
                (undoApply b0.base m.undoCandidates cache))) := by
            intro c
            by_cases hc : c = m.cell
            · rw [hc, hslotR]
              intro he
              exact hlegne (Option.some.inj he)
            · rw [hslotRne c hc]
              exact hnec2c c hc
          exact ih (board.unset m.cell)
            (resetCandidates b0.base m.cell
              ((legalValues (board.unset m.cell) m.cell).getD [])
              (removeCandidate b0.base m.value m.cell
                (undoApply b0.base m.undoCandidates cache)))
            inv4 hnec4 res s2 h
        | cons g gs' =>
          rw [hGv] at h
          have hnec2 : NoEmptyPV (removeCandidate b0.base m.value m.cell
              (undoApply b0.base m.undoCandidates cache)) := by
            intro c
            by_cases hc : c = m.cell
            · rw [hc]
              intro he
              rw [he] at hGv
              simp at hGv
            · exact hnec2c c hc
          have hgb : ∀ g' ∈ g :: gs',
              1 ≤ g' ∧ g' ≤ b0.base * b0.base := by
            intro g' hg'
            have hmem : g' ∈ (legalValues (board.unset m.cell)
                m.cell).getD [] := by
              refine hsubMain g' ?_
              rw [hGv]
              exact hg'
            have hb := legal_bounds hmem
            rw [show (board.unset m.cell).base = b0.base from hbase] at hb
            exact hb
          have hguess0 : (((removeCandidate b0.base m.value m.cell
              (undoApply b0.base m.undoCandidates cache)).pvGet
                m.cell).getD []) ≠ [] := by
            rw [hGv]
            exact List.cons_ne_nil g gs'
          obtain ⟨tgOk, tgErr⟩ := tryGuesses_spec (g :: gs') hb0m hmlt
            (⟨board.unset m.cell, removeCandidate b0.base m.value m.cell
              (undoApply b0.base m.undoCandidates cache), rest⟩ : SState)
            inv2 hnec2 hgb hguess0
          cases hres : tryGuesses m.cell (g :: gs')
              (⟨board.unset m.cell, removeCandidate b0.base m.value m.cell
                (undoApply b0.base m.undoCandidates cache),
                rest⟩ : SState) with
          | ok s3 =>
            rw [hres] at h
            dsimp only at h
            injection h with h1 h2
            obtain ⟨i3, n3⟩ := tgOk s3 hres
            rw [← h2]
            refine ⟨i3, n3, ?_⟩
            intro hne
            rw [← h1] at hne
            simp at hne
          | error s3 =>
            rw [hres] at h
            dsimp only at h
            obtain ⟨i3, n3, b3, l3, p3⟩ := tgErr s3 hres
            have b3' : s3.board = board.unset m.cell := b3
            have p3' : s3.cache.pv = (removeCandidate b0.base m.value m.cell
              (undoApply b0.base m.undoCandidates cache)).pv := p3
            have l3' : s3.log = rest := l3
            have inv3' : SolveInv b0 ⟨s3.board, s3.cache, rest⟩ := by
              rw [← l3']
              exact i3
            have hslot3 : s3.cache.pvGet m.cell
                = (removeCandidate b0.base m.value m.cell
                  (undoApply b0.base m.undoCandidates cache)).pvGet
                    m.cell := by
              show aget s3.cache.pv m.cell = _
              rw [p3']
              rfl
            have hsub3 : ∀ w ∈ (s3.cache.pvGet m.cell).getD [],
                w ∈ (legalValues s3.board m.cell).getD [] := by
              intro w hw
              rw [hslot3] at hw
              rw [b3']
              exact hsubMain w hw
            have hpvSome3 : (s3.cache.pvGet m.cell).isSome = true := by
              rw [hslot3]
              exact hpvSome
            obtain ⟨inv4, hslotR, hslotRne⟩ :=
              @resetCandidates_inv b0 m.cell s3.board s3.cache rest inv3'
                hb0m hmlt (by rw [b3']; exact bget_unset_self board m.cell)
                hsub3 hpvSome3
            have hlegne : (legalValues s3.board m.cell).getD [] ≠ [] := by
              rw [b3']
              cases l with
              | nil => exact absurd rfl hlne
              | cons a t =>
                exact List.ne_nil_of_mem (hsubL a (List.mem_cons_self a t))
            have hnec4 : NoEmptyPV (resetCandidates b0.base m.cell
                ((legalValues s3.board m.cell).getD []) s3.cache) := by
              intro c
              by_cases hc : c = m.cell
              · rw [hc, hslotR]
                intro he
                exact hlegne (Option.some.inj he)
              · rw [hslotRne c hc]
                exact n3 c
            exact ih s3.board
              (resetCandidates b0.base m.cell
                ((legalValues s3.board m.cell).getD []) s3.cache)
              inv4 hnec4 res s2 h

/-- The batch loop of `solve_iteration` over naked/hidden singles preserves
the invariant; an unsolvable verdict can only come from `backtrack`
exhausting the log. -/
theorem runBatch_spec {b0 : Board} {strat : Strategy}
    (hstrat : strat ≠ Strategy.guess) : ∀ (l : List (Nat × Nat)),
    (∀ cv ∈ l, b0.get cv.1 = none ∧
      cv.1 < b0.base * b0.base * (b0.base * b0.base) ∧
      1 ≤ cv.2 ∧ cv.2 ≤ b0.base * b0.base) →
    ∀ s : SState, SolveInv b0 s → NoEmptyPV s.cache →
    (∀ s2, runBatch strat l s = .ok s2 →
      SolveInv b0 s2 ∧ NoEmptyPV s2.cache) ∧
    (∀ s2, runBatch strat l s = .unsolvable s2 →
      SolveInv b0 s2 ∧ s2.log = []) := by
  intro l
  induction l with
  | nil =>
    intro _ s inv hnec
    refine ⟨?_, ?_⟩
    · intro s2 h
      rw [runBatch] at h
      rw [← SR.ok.inj h]
      exact ⟨inv, hnec⟩
    · intro s2 h
      rw [runBatch] at h
      cases h
  | cons cv rest ihl =>
    intro hl s inv hnec
    obtain ⟨hb0c, hcb, hv1, hv2⟩ := hl cv (List.mem_cons_self cv rest)
    cases hreg : registerMove strat cv.1 cv.2 s with
    | mk b1 s1 =>
      cases b1 with
      | true =>
        obtain ⟨inv1, hnec1, _, _⟩ := registerMove_ok_inv inv hnec hb0c hcb
          hv1 hv2 (fun he => absurd he hstrat) hreg
        obtain ⟨ihOk, ihUn⟩ :=
          ihl (fun cv' h' => hl cv' (List.mem_cons_of_mem cv h')) s1 inv1 hnec1
        refine ⟨?_, ?_⟩
        · intro s2 h
          rw [runBatch, hreg] at h
          exact ihOk s2 h
        · intro s2 h
          rw [runBatch, hreg] at h
          exact ihUn s2 h
      | false =>
        obtain ⟨inv1, _, _, hpv1⟩ := registerMove_err_inv inv hcb hv1 hv2 hreg
        have inv1' : SolveInv b0 ⟨s1.board, s1.cache, s1.log⟩ := inv1
        have hnec1 : NoEmptyPV s1.cache := by
          intro c
          show aget s1.cache.pv c ≠ some []
          rw [hpv1]
          exact hnec c
        cases hbt : backtrackAux s1.log s1.board s1.cache with
        | mk ores s3 =>
          have hbtS := backtrackAux_spec s1.log s1.board s1.cache inv1' hnec1
            ores s3 hbt
          refine ⟨?_, ?_⟩
          · intro s2 h
            rw [runBatch, hreg] at h
            dsimp only at h
            rw [hbt] at h
            cases ores with
            | some c0 =>
              dsimp only at h
              rw [← SR.ok.inj h]
              exact ⟨hbtS.1, hbtS.2.1⟩
            | none =>
              dsimp only at h
              cases h
          · intro s2 h
            rw [runBatch, hreg] at h
            dsimp only at h
            rw [hbt] at h
            cases ores with
            | some c0 =>
              dsimp only at h
              cases h
            | none =>
              dsimp only at h
              rw [← SR.unsolvable.inj h]
              exact ⟨hbtS.1, hbtS.2.2 rfl⟩

theorem board_ext {b1 b2 : Board} (hb : b1.base = b2.base)
    (hl : b1.cells.length = b2.cells.length)
    (hg : ∀ c, b1.get c = b2.get c) : b1 = b2 := by
  cases b1 with
  | mk n1 c1 =>
    cases b2 with
    | mk n2 c2 =>
      have hn : n1 = n2 := hb
      have hc : c1 = c2 := by
        refine List.ext ?_
        intro i
        have hlen : c1.length = c2.length := hl
        have hgi : (c1.get? i).getD none = (c2.get? i).getD none := by
          have h1 := hg i
          rw [Board.get, Board.get, aget_get_eq, aget_get_eq] at h1
          exact h1
        by_cases hi : i < c1.length
        · rw [List.get?_eq_getElem?, List.get?_eq_getElem?] at hgi ⊢
          rw [List.getElem?_eq_getElem hi,
            List.getElem?_eq_getElem (by omega)] at hgi ⊢
          rw [Option.getD_some, Option.getD_some] at hgi
          rw [hgi]
        · rw [List.get?_eq_getElem?, List.get?_eq_getElem?,
            List.getElem?_eq_none (by omega), List.getElem?_eq_none (by omega)]
      rw [hn, hc]

set_option maxHeartbeats 1600000 in
/-- A full `solve_iteration` (naked singles, else hidden singles, else one
guess, with `backtrack` on contradiction) preserves the solver invariant; an
unsolvable verdict leaves the log empty. -/
theorem solveIteration_spec {b0 : Board} {s : SState} (inv : SolveInv b0 s)
    (hnec : NoEmptyPV s.cache)
    (hne : s.cache.pv.all Option.isNone = false) :
    (∀ s2, solveIteration (canonicalOrd b0.base) noPick s = .ok s2 →
      SolveInv b0 s2 ∧ NoEmptyPV s2.cache) ∧
    (∀ s2, solveIteration (canonicalOrd b0.base) noPick s = .unsolvable s2 →
      SolveInv b0 s2 ∧ s2.log = []) := by
  have hn : 0 < b0.base := by
    obtain ⟨c0, vals0, hpv0⟩ := pv_not_all_isNone hne
    have hlt : c0 < s.cache.pv.length := by
      by_contra hge
      rw [Cache.pvGet, aget_oob (by omega)] at hpv0
      cases hpv0
    have hlen := inv.hwf.1
    rcases Nat.eq_zero_or_pos b0.base with h0 | h
    · rw [h0] at hlen
      omega
    · exact h
  have hcell_facts : ∀ c vals, s.cache.pvGet c = some vals →
      b0.get c = none ∧ c < b0.base * b0.base * (b0.base * b0.base) ∧
      ∀ v ∈ vals, 1 ≤ v ∧ v ≤ b0.base * b0.base := by
    intro c vals hpv
    refine ⟨?_, ?_, (inv.hwf.2.2.1 c vals hpv).2⟩
    · cases hb : b0.get c with
      | none => rfl
      | some w =>
        have hoop := inv.hoop c (by rw [hb]; rfl)
        rw [hoop.1] at hpv
        cases hpv
    · by_contra hge
      have hlen := inv.hwf.1
      rw [Cache.pvGet, aget_oob (by omega)] at hpv
      cases hpv
  cases hns : nakedSingles s.cache with
  | cons a tl =>
    have hprops : ∀ cv ∈ a :: tl, b0.get cv.1 = none ∧
        cv.1 < b0.base * b0.base * (b0.base * b0.base) ∧
        1 ≤ cv.2 ∧ cv.2 ≤ b0.base * b0.base := by
      intro cv hcv
      have hm : cv ∈ nakedSingles s.cache := by
        rw [hns]
        exact hcv
      have hpv := mem_nakedSingles.mp hm
      obtain ⟨h1, h2, h3⟩ := hcell_facts cv.1 [cv.2] hpv
      exact ⟨h1, h2, h3 cv.2 (List.mem_cons_self cv.2 [])⟩
    obtain ⟨rbOk, rbUn⟩ := runBatch_spec
      (by decide : Strategy.nakedSingle ≠ Strategy.guess) (a :: tl) hprops
      s inv hnec
    refine ⟨?_, ?_⟩
    · intro s2 h
      rw [solveIteration] at h
      rw [hns, show List.isEmpty (a :: tl) = false from rfl,
        if_neg (by decide : ¬(false = true))] at h
      exact rbOk s2 h
    · intro s2 h
      rw [solveIteration] at h
      rw [hns, show List.isEmpty (a :: tl) = false from rfl,
        if_neg (by decide : ¬(false = true))] at h
      exact rbUn s2 h
  | nil =>
    have hbb : s.board.base = b0.base := inv.hbase
    cases hhs : hiddenSingles b0.base (canonicalOrd b0.base) s.cache with
    | cons a tl =>
      have hprops : ∀ cv ∈ a :: tl, b0.get cv.1 = none ∧
          cv.1 < b0.base * b0.base * (b0.base * b0.base) ∧
          1 ≤ cv.2 ∧ cv.2 ≤ b0.base * b0.base := by
        intro cv hcv
        have hm : cv ∈ hiddenSingles b0.base (canonicalOrd b0.base)
            s.cache := by
          rw [hhs]
          exact hcv
        rw [hiddenSingles] at hm
        rcases ((hsFold_spec b0.base s.cache (canonicalOrd b0.base) []
            List.Pairwise.nil).2 cv).mp hm with hnil | ⟨k, hkord, hcc, hveq⟩
        · exact absurd hnil (List.not_mem_nil cv)
        · obtain ⟨hvb, hk1, hk2⟩ := mem_canonicalOrd hkord
          have hcells := inv.hwf.2.2.2.2 k.1 k.2 [cv.1] hvb hk1 hk2 hcc
          have hblk := hcells cv.1 (List.mem_cons_self cv.1 [])
          have hlt := blockCells_subset_size hn hvb hblk
          refine ⟨?_, hlt, ?_, ?_⟩
          · cases hb : b0.get cv.1 with
            | none => rfl
            | some w =>
              have hoop := inv.hoop cv.1 (by rw [hb]; rfl)
              have hnot := hoop.2 (keyIdx b0.base k.1 k.2)
              rw [Cache.ccGet] at hcc
              rw [hcc] at hnot
              exact absurd (List.mem_cons_self cv.1 []) hnot
          · rw [hveq]
            exact hk1
          · rw [hveq]
            exact hk2
      obtain ⟨rbOk, rbUn⟩ := runBatch_spec
        (by decide : Strategy.hiddenSingle ≠ Strategy.guess) (a :: tl)
        hprops s inv hnec
      refine ⟨?_, ?_⟩
      · intro s2 h
        rw [solveIteration] at h
        rw [hns, if_pos (show List.isEmpty ([] : List (Nat × Nat)) = true from
          rfl), hbb, hhs] at h
        dsimp only at h
        rw [show List.isEmpty (a :: tl) = false from rfl,
          if_neg (by decide : ¬(false = true))] at h
        exact rbOk s2 h
      · intro s2 h
        rw [solveIteration] at h
        rw [hns, if_pos (show List.isEmpty ([] : List (Nat × Nat)) = true from
          rfl), hbb, hhs] at h
        dsimp only at h
        rw [show List.isEmpty (a :: tl) = false from rfl,
          if_neg (by decide : ¬(false = true))] at h
        exact rbUn s2 h
    | nil =>
      obtain ⟨c0, vals0, hpv0⟩ := pv_not_all_isNone hne
      have hc0mem : ((c0, vals0) : Nat × List Nat) ∈
          s.cache.pv.enum.filterMap
            (fun ce => ce.2.map (fun vals => (ce.1, vals))) :=
        mem_guessCand.mpr hpv0
      cases hcand : s.cache.pv.enum.filterMap
          (fun ce => ce.2.map (fun vals => (ce.1, vals))) with
      | nil =>
        rw [hcand] at hc0mem
        exact absurd hc0mem (List.not_mem_nil _)
      | cons x rest =>
        have hbestmem : (rest.foldl
            (fun b y => if y.2.length < b.2.length then y else b) x) ∈
            s.cache.pv.enum.filterMap
              (fun ce => ce.2.map (fun vals => (ce.1, vals))) := by
          rw [hcand]
          exact (foldMin_spec rest x).1
        have hpvb : s.cache.pvGet
            (rest.foldl (fun b y => if y.2.length < b.2.length then y else b)
              x).1 = some (rest.foldl
                (fun b y => if y.2.length < b.2.length then y else b) x).2 :=
          mem_guessCand.mp hbestmem
        have hblne : (rest.foldl
            (fun b y => if y.2.length < b.2.length then y else b) x).2
            ≠ [] := by
          intro he
          exact hnec _ (he ▸ hpvb)
        have hheadmem : (rest.foldl
            (fun b y => if y.2.length < b.2.length then y else b) x).2.headD 0
            ∈ (rest.foldl
              (fun b y => if y.2.length < b.2.length then y else b) x).2 := by
          cases hbl : (rest.foldl
              (fun b y => if y.2.length < b.2.length then y else b) x).2 with
          | nil => exact absurd hbl hblne
          | cons w tw => exact List.mem_cons_self w tw
        obtain ⟨hbB0, hbLT, hbBounds⟩ := hcell_facts _ _ hpvb
        have heq := guessMove_eq_of_cand noPick hcand
        have hfst : (guessMove noPick s.cache).1 = (rest.foldl
            (fun b y => if y.2.length < b.2.length then y else b) x).1 := by
          rw [heq]
        have hsnd : (guessMove noPick s.cache).2 = (rest.foldl
            (fun b y => if y.2.length < b.2.length then y else b)
              x).2.headD 0 := by
          rw [heq]
          rfl
        have hgb0 : b0.get (guessMove noPick s.cache).1 = none := by
          rw [hfst]
          exact hbB0
        have hglt : (guessMove noPick s.cache).1
            < b0.base * b0.base * (b0.base * b0.base) := by
          rw [hfst]
          exact hbLT
        have hgv1 : 1 ≤ (guessMove noPick s.cache).2 := by
          rw [hsnd]
          exact (hbBounds _ hheadmem).1
        have hgv2 : (guessMove noPick s.cache).2 ≤ b0.base * b0.base := by
          rw [hsnd]
          exact (hbBounds _ hheadmem).2
        have hgne : (s.cache.pvGet
            (guessMove noPick s.cache).1).getD [] ≠ [] := by
          rw [hfst, hpvb]
          exact hblne
        cases hreg : registerMove Strategy.guess (guessMove noPick s.cache).1
            (guessMove noPick s.cache).2 s with
        | mk b1 s1 =>
          cases b1 with
          | true =>
            obtain ⟨inv1, hnec1, _, _⟩ := registerMove_ok_inv inv hnec hgb0
              hglt hgv1 hgv2 (fun _ => hgne) hreg
            refine ⟨?_, ?_⟩
            · intro s2 h
              rw [solveIteration] at h
              rw [hns, if_pos (show List.isEmpty ([] : List (Nat × Nat))
                = true from rfl), hbb, hhs, if_pos (show List.isEmpty
                ([] : List (Nat × Nat)) = true from rfl)] at h
              dsimp only at h
              rw [hreg] at h
              rw [← SR.ok.inj h]
              exact ⟨inv1, hnec1⟩
            · intro s2 h
              rw [solveIteration] at h
              rw [hns, if_pos (show List.isEmpty ([] : List (Nat × Nat))
                = true from rfl), hbb, hhs, if_pos (show List.isEmpty
                ([] : List (Nat × Nat)) = true from rfl)] at h
              dsimp only at h
              rw [hreg] at h
              cases h
          | false =>
            obtain ⟨inv1, _, _, hpv1⟩ := registerMove_err_inv inv hglt hgv1
              hgv2 hreg
            have inv1' : SolveInv b0 ⟨s1.board, s1.cache, s1.log⟩ := inv1
            have hnec1 : NoEmptyPV s1.cache := by
              intro c
              show aget s1.cache.pv c ≠ some []
              rw [hpv1]
              exact hnec c
            cases hbt : backtrackAux s1.log s1.board s1.cache with
            | mk ores s3 =>
              have hbtS := backtrackAux_spec s1.log s1.board s1.cache inv1'
                hnec1 ores s3 hbt
              refine ⟨?_, ?_⟩
              · intro s2 h
                rw [solveIteration] at h
                rw [hns, if_pos (show List.isEmpty ([] : List (Nat × Nat))
                  = true from rfl), hbb, hhs, if_pos (show List.isEmpty
                  ([] : List (Nat × Nat)) = true from rfl)] at h
                dsimp only at h
                rw [hreg] at h
                dsimp only at h
                rw [hbt] at h
                cases ores with
                | some cc0 =>
                  dsimp only at h
                  rw [← SR.ok.inj h]
                  exact ⟨hbtS.1, hbtS.2.1⟩
                | none =>
                  dsimp only at h
                  cases h
              · intro s2 h
                rw [solveIteration] at h
                rw [hns, if_pos (show List.isEmpty ([] : List (Nat × Nat))
                  = true from rfl), hbb, hhs, if_pos (show List.isEmpty
                  ([] : List (Nat × Nat)) = true from rfl)] at h
                dsimp only at h
                rw [hreg] at h
                dsimp only at h
                rw [hbt] at h
                cases ores with
                | some cc0 =>
                  dsimp only at h
                  cases h
                | none =>
                  dsimp only at h
                  rw [← SR.unsolvable.inj h]
                  exact ⟨hbtS.1, hbtS.2.2 rfl⟩

/-- The solve loop preserves the invariant across iterations; if it ends in
`UnsolvableError` the final state satisfies the invariant with an empty move
log. -/
theorem solveLoop_spec {b0 : Board} : ∀ (fuel : Nat) (s : SState),
    SolveInv b0 s → NoEmptyPV s.cache →
    ∀ s2, solveLoop (fun _ => canonicalOrd b0.base) (fun _ => noPick) fuel s
        = some (SR.unsolvable s2) →
      SolveInv b0 s2 ∧ s2.log = [] := by
  intro fuel
  induction fuel with
  | zero =>
    intro s _ _ s2 h
    rw [solveLoop] at h
    cases h
  | succ f ihf =>
    intro s inv hnec s2 h
    rw [solveLoop] at h
    by_cases hall : s.cache.pv.all Option.isNone = true
    · rw [if_pos hall] at h
      exact SR.noConfusion (Option.some.inj h)
    · rw [if_neg hall] at h
      have hne : s.cache.pv.all Option.isNone = false := by
        cases hx : s.cache.pv.all Option.isNone with
        | true => exact absurd hx hall
        | false => rfl
      obtain ⟨itOk, itUn⟩ := solveIteration_spec inv hnec hne
      cases hit : solveIteration (canonicalOrd b0.base) noPick s with
      | ok s1 =>
        rw [hit] at h
        dsimp only at h
        exact ihf s1 (itOk s1 hit).1 (itOk s1 hit).2 s2 h
      | unsolvable s1 =>
        rw [hit] at h
        dsimp only at h
        rw [← SR.unsolvable.inj (Option.some.inj h)]
        exact itUn s1 hit

/-- The invariant at the start of `solve()`: a fresh solver built from the
input board. -/
theorem initial_inv {b : Board} (hn : 0 < b.base) :
    SolveInv b ⟨b, Cache.fromBoard b, []⟩ := by
  have hoopF : ∀ g, (b.get g).isSome = true → OutOfPlay (Cache.fromBoard b) g := by
    intro g hg
    have hleg : legalValues b g = none := by
      rw [legalValues]
      rw [if_pos hg]
    refine ⟨?_, ?_⟩
    · show (Cache.fromBoard b).pvGet g = none
      rw [fromBoard_pvGet]
      by_cases hglt : g < b.base * b.base * (b.base * b.base)
      · rw [if_pos hglt]
        exact hleg
      · rw [if_neg hglt]
    · intro j hmem
      by_cases hj : j < 3 * (b.base * b.base) * (b.base * b.base)
      · rw [fromBoard_cc_aget hj] at hmem
        by_cases he : ((blockCells b.base (decodeBlock b.base
            (j / (b.base * b.base)))).filter (fun c =>
              ((legalValues b c).getD []).contains
                (j % (b.base * b.base) + 1))).isEmpty = true
        · rw [if_pos he] at hmem
          exact absurd hmem (List.not_mem_nil g)
        · rw [if_neg he] at hmem
          have hflt := List.mem_filter.mp hmem
          have hcont := hflt.2
          rw [hleg] at hcont
          exact Bool.noConfusion (show false = true from hcont)
      · have hcl := fromBoard_cc_length b
        rw [aget_oob (by rw [hcl]; omega)] at hmem
        exact absurd hmem (List.not_mem_nil g)
  refine ⟨rfl, rfl, fun c hc => absurd rfl hc, fromBoard_WF hn,
    fromBoard_Cons hn, hoopF, ?_, ?_, ?_, ?_, ?_, ?_, ?_,
    List.Pairwise.nil, ?_, ?_⟩
  · intro c vals hpv v hv
    have hpv' : (Cache.fromBoard b).pvGet c = some vals := hpv
    rw [fromBoard_pvGet] at hpv'
    by_cases hclt : c < b.base * b.base * (b.base * b.base)
    · rw [if_pos hclt] at hpv'
      have hgc : b.get c = none := legal_some_none hpv'
      have hcongr : legalValues (b.unset c) c = legalValues b c := by
        refine @legal_congr (b.unset c) b rfl ?_ c
        intro p
        by_cases hpc : p = c
        · rw [hpc, bget_unset_self, hgc]
        · exact bget_unset_ne (fun he => hpc he.symm)
      show v ∈ (legalValues (b.unset c) c).getD []
      rw [hcongr, hpv']
      exact hv
    · rw [if_neg hclt] at hpv'
      cases hpv'
  · intro m hm
    exact absurd hm (List.not_mem_nil m)
  · intro m hm
    exact absurd hm (List.not_mem_nil m)
  · intro m hm
    exact absurd hm (List.not_mem_nil m)
  · intro m hm
    exact absurd hm (List.not_mem_nil m)
  · intro m hm
    exact absurd hm (List.not_mem_nil m)
  · intro m hm
    exact absurd hm (List.not_mem_nil m)
  · intro pre m post hsplit v hv
    cases pre with
    | nil => exact List.noConfusion hsplit
    | cons a t => exact List.noConfusion hsplit
  · intro pre m post hsplit pr hpr
    cases pre with
    | nil => exact List.noConfusion hsplit
    | cons a t => exact List.noConfusion hsplit

set_option maxHeartbeats 1000000 in
/-- **C10 (confirmed).** `Board::solve()` is atomic on failure: whenever the
non-random solve returns `Err(UnsolvableError)` — whether from the initial
zero-candidate entry check or because backtracking exhausted the move log —
the board carried by the final solver state equals the input board, cell by
cell. -/
theorem c10_failure_atomicity {fuel : Nat} {b : Board} {s2 : SState}
    (h : dsolve fuel b = some (SR.unsolvable s2)) : s2.board = b := by
  rw [dsolve, solveFull] at h
  by_cases hentry : (Cache.fromBoard b).pv.any (fun e => e == some []) = true
  · rw [if_pos hentry] at h
    rw [← SR.unsolvable.inj (Option.some.inj h)]
  · rw [if_neg hentry] at h
    have hany : (Cache.fromBoard b).pv.any (fun e => e == some [])
        = false := by
      cases hx : (Cache.fromBoard b).pv.any (fun e => e == some []) with
      | true => exact absurd hx hentry
      | false => rfl
    have hnec : NoEmptyPV (Cache.fromBoard b) := nec_of_entry hany
    by_cases hn : 0 < b.base
    · have inv0 : SolveInv b ⟨b, Cache.fromBoard b, []⟩ := initial_inv hn
      obtain ⟨invF, hlogF⟩ := solveLoop_spec fuel ⟨b, Cache.fromBoard b, []⟩
        inv0 hnec s2 h
      refine board_ext invF.hbase invF.hblen ?_
      intro c
      by_contra hc
      have hmem := invF.hdiff c hc
      rw [hlogF] at hmem
      exact absurd hmem (List.not_mem_nil c)
    · have hb0 : b.base = 0 := by omega
      have hlen : (Cache.fromBoard b).pv.length = 0 := by
        rw [fromBoard_pv_length, hb0]
      have hpvnil : (Cache.fromBoard b).pv = [] := List.length_eq_zero.mp hlen
      cases fuel with
      | zero =>
        rw [solveLoop] at h
        cases h
      | succ f =>
        rw [solveLoop] at h
        rw [if_pos (show (⟨b, Cache.fromBoard b, []⟩ : SState).cache.pv.all
            Option.isNone = true from by
          show (Cache.fromBoard b).pv.all Option.isNone = true
          rw [hpvnil]
          rfl)] at h
        exact SR.noConfusion (Option.some.inj h)

/-- Witness: on the 4×4 board with a candidate-free corner cell, `solve`
fails and the board carried by the failing state is the input board. -/
theorem c10_failure_atomicity_witness :
    (⟨deadCell4, Cache.fromBoard deadCell4, []⟩ : SState).board
      = deadCell4 :=
  @c10_failure_atomicity 1 deadCell4
    ⟨deadCell4, Cache.fromBoard deadCell4, []⟩ (by decide)

end Sudokugen
